import Mathlib

/-!
# The cat/mouse feeding arbiter of `kern/synchprobs/catmouse_synch.c`

A shallow embedding of the monitor that arbitrates the bowls between cats and
mice, and the proofs of its contract.  The process system calls `sys__exit`
and `sys_waitpid` of `kern/syscall/proc_syscalls.c` follow in the namespace
`ProcSys`.

The C file keeps its state in file-level statics protected by one lock
(`gLock`).  Every function body runs with the lock held, so each lock-held
section is one atomic transition of the record `Arbiter` below.  The only
place where the lock is given up inside a function is `cv_wait` in the loop of
`any_before_eating`; that function is therefore split at the loop head:

* `any_before_eating_arrive`  lines 124-131 (count the caller as waiting),
* `any_before_eating_loop`    lines 136-152 (one pass of the loop body),
* `any_before_eating_commit`  lines 158-171 (the assertions and the grant),
* `any_before_eating_eval`    one pass followed by the grant or by `cv_wait`,
* `any_before_eating`         the first lock-held section of a call.

The counters are C `int`s.  They are embedded as `Int`: each of them is bounded
by the number of kernel threads or by the number of bowls, so the 32-bit range
is never left.  The bowl number is an `unsigned int`; the index `bowl-1` is
computed modulo `2^32`, as the C expression is.
-/

namespace CatMouse

/-- The two condition variables of the monitor. -/
inductive Chan where
  | cat_cv
  | mouse_cv
deriving DecidableEq, Repr

/-- How a lock-held section ends when it is not followed to its end: a
`KASSERT` that fails (named by its source line), or an access to `util`
outside the allocated table.  The code has no bounds check, so the second is
no event of the kernel: it marks where the sections below stop following the
code, and `any_before_eating_raw` and `any_after_eating_raw` go on from
there. -/
inductive Fault where
  | kassert (line : Nat)
  | outOfBounds
deriving DecidableEq, Repr

/-- The file-level statics of `catmouse_synch.c` (lines 13-21).  `util` is the
table allocated by `kmalloc(bowls*sizeof(bool))`. -/
structure Arbiter where
  totalBowls : Int
  mouseTurn : Bool
  slotsLeft : Int
  slotsUsed : Int
  numCatWaiting : Int
  numMouseWaiting : Int
  util : List Bool
deriving DecidableEq, Repr

/-- The statics as the C runtime leaves them before any call: all zero, no
table. -/
def boot : Arbiter :=
  { totalBowls := 0, mouseTurn := false, slotsLeft := 0, slotsUsed := 0,
    numCatWaiting := 0, numMouseWaiting := 0, util := [] }

/-- The result of a lock-held section: a value, or a fault together with the
statics as they are when the fault happens. -/
inductive Res (α : Type) where
  | ok (a : α)
  | fault (f : Fault) (st : Arbiter)
deriving DecidableEq, Repr

/-- Largest value of a C `int`. -/
def INT_MAX : Int := 2147483647

/-- The index `bowl-1` of an `unsigned int` bowl: subtraction modulo `2^32`. -/
def bowlIdx (bowl : Nat) : Nat := (bowl + 4294967296 - 1) % 4294967296

/-- Lines 36-65.  `slotsUsed` is not assigned by the function: it keeps the
value it had. -/
def catmouse_sync_init (old : Arbiter) (bowls : Int) : Arbiter :=
  { totalBowls := bowls,
    slotsLeft := bowls,
    mouseTurn := false,
    util := List.replicate bowls.toNat false,
    numCatWaiting := 0,
    numMouseWaiting := 0,
    slotsUsed := old.slotsUsed }

/-- Lines 88-117.  Returns the new statics and the condition variable that is
broadcast. -/
def switch_kind_to (st : Arbiter) (mouse : Bool) : Arbiter × Chan :=
  let mouse : Bool :=
    if mouse then
      (if st.numMouseWaiting > 0 then true else false)
    else
      (if st.numCatWaiting > 0 then false else true)
  let condition : Chan := if mouse then Chan.mouse_cv else Chan.cat_cv
  ({ st with slotsLeft := st.totalBowls, mouseTurn := mouse }, condition)

/-- Lines 124-131: the caller counts itself as waiting. -/
def any_before_eating_arrive (st : Arbiter) (mouse : Bool) : Arbiter :=
  if mouse then { st with numMouseWaiting := st.numMouseWaiting + 1 }
  else { st with numCatWaiting := st.numCatWaiting + 1 }

/-- Lines 136-152: one pass of the loop body.  Returns `ready`, the statics and
the condition variables broadcast during the pass.  For a bowl outside the
table the pass is followed up to the read of `util[bowl-1]` only (see
`any_before_eating_loop_raw` for the rest). -/
def any_before_eating_loop (st : Arbiter) (bowl : Nat) (mouse : Bool) :
    Res (Bool × Arbiter × List Chan) :=
  let p : Bool × Arbiter × List Chan :=
    if mouse != st.mouseTurn then
      if st.slotsUsed == 0 then
        (true, (switch_kind_to st mouse).1, [(switch_kind_to st mouse).2])
      else
        (false, st, [])
    else
      (true, st, [])
  let ready1 : Bool := if p.2.1.slotsLeft ≤ 0 then false else p.1
  match p.2.1.util[bowlIdx bowl]? with
  | none => Res.fault Fault.outOfBounds p.2.1
  | some u => Res.ok (if u then false else ready1, p.2.1, p.2.2)

/-- Lines 158-171: the three assertions after the loop, then the grant.  For a
bowl outside the table the section is followed up to the read of
`util[bowl-1]` only (see `any_before_eating_commit_raw` for the rest). -/
def any_before_eating_commit (st : Arbiter) (bowl : Nat) (mouse : Bool) : Res Arbiter :=
  if mouse != st.mouseTurn then Res.fault (Fault.kassert 158) st
  else if ¬ (st.slotsLeft > 0) then Res.fault (Fault.kassert 159) st
  else
    match st.util[bowlIdx bowl]? with
    | none => Res.fault Fault.outOfBounds st
    | some u =>
      if u then Res.fault (Fault.kassert 160) st
      else
        let st1 : Arbiter :=
          { st with util := st.util.set (bowlIdx bowl) true,
                    slotsUsed := st.slotsUsed + 1,
                    slotsLeft := st.slotsLeft - 1 }
        Res.ok (if mouse then { st1 with numMouseWaiting := st1.numMouseWaiting - 1 }
                else { st1 with numCatWaiting := st1.numCatWaiting - 1 })

/-- How one evaluation of the admission loop ends: the caller is granted the
bowl and returns, or it suspends in `cv_wait`, or the evaluation ends in a
`Fault`. -/
inductive Eval where
  | granted (st : Arbiter) (bc : List Chan)
  | suspended (st : Arbiter) (bc : List Chan)
  | fault (f : Fault) (st : Arbiter)
deriving DecidableEq, Repr

/-- One evaluation of the admission loop, from the loop head to either
`cv_wait` (line 154) or `lock_release` (line 173). -/
def any_before_eating_eval (st : Arbiter) (bowl : Nat) (mouse : Bool) : Eval :=
  match any_before_eating_loop st bowl mouse with
  | Res.fault f s => Eval.fault f s
  | Res.ok (ready, s, bc) =>
    if ready then
      match any_before_eating_commit s bowl mouse with
      | Res.ok s1 => Eval.granted s1 bc
      | Res.fault f s1 => Eval.fault f s1
    else Eval.suspended s bc

/-- Lines 119-174 up to the first `cv_wait` or the return: the arrival and the
first evaluation of the loop. -/
def any_before_eating (st : Arbiter) (bowl : Nat) (mouse : Bool) : Eval :=
  any_before_eating_eval (any_before_eating_arrive st mouse) bowl mouse

/-- Lines 176-200.  Returns the new statics and the condition variables that
were broadcast.  For a bowl outside the table the section is followed up to
the read of `util[bowl-1]` only (see `any_after_eating_raw` for the rest). -/
def any_after_eating (st : Arbiter) (bowl : Nat) (mouse : Bool) :
    Res (Arbiter × List Chan) :=
  if mouse != st.mouseTurn then Res.fault (Fault.kassert 188) st
  else if ¬ (st.slotsUsed > 0) then Res.fault (Fault.kassert 189) st
  else
    match st.util[bowlIdx bowl]? with
    | none => Res.fault Fault.outOfBounds st
    | some u =>
      if !u then Res.fault (Fault.kassert 190) st
      else
        let st1 : Arbiter :=
          { st with util := st.util.set (bowlIdx bowl) false,
                    slotsUsed := st.slotsUsed - 1 }
        if st1.slotsUsed == 0 then
          Res.ok ((switch_kind_to st1 (!mouse)).1, [(switch_kind_to st1 (!mouse)).2])
        else Res.ok (st1, [])

/-- The statics an evaluation ends with. -/
def Eval.state : Eval → Arbiter
  | Eval.granted st _ => st
  | Eval.suspended st _ => st
  | Eval.fault _ st => st

/-- The condition variables an evaluation broadcast. -/
def Eval.woken : Eval → List Chan
  | Eval.granted _ bc => bc
  | Eval.suspended _ bc => bc
  | Eval.fault _ _ => []

/-! ## The actors around the monitor

The simulation threads are not part of the C file; what the contract says
about them ("holds a station", "is blocked in Enter") is ghost state kept next
to the statics.  An actor is the pair of its bowl number and its class
(`true` for a mouse). -/

/-- The monitor together with the actors that hold a bowl (returned from
`any_before_eating`, not yet in `any_after_eating`) and the actors suspended in
the `cv_wait` of `any_before_eating`. -/
structure Sys where
  arb : Arbiter
  feeding : List (Nat × Bool)
  blocked : List (Nat × Bool)
deriving DecidableEq, Repr

/-- The lock-held sections an actor can run. -/
inductive Label where
  | arrive (bowl : Nat) (mouse : Bool)
  | recheck (bowl : Nat) (mouse : Bool)
  | leave (bowl : Nat) (mouse : Bool)
deriving DecidableEq, Repr

/-- One lock-held section.
* `arrive`: a thread calls `any_before_eating`; the bowl is any `unsigned int`.
* `recheck`: a thread suspended in `cv_wait` runs the loop again.  Any blocked
  thread may do so at any time, which covers every order of wake-ups.
* `leave`: a thread that holds a bowl calls `any_after_eating` with the bowl
  and class of its grant.
A section that ends in a fault has no next state: a failed assertion stops
the kernel, and a bowl outside the table is outside the contract of the two
functions. -/
def sysStep (s : Sys) : Label → Option Sys
  | Label.arrive b m =>
    if b < 4294967296 then
      match any_before_eating s.arb b m with
      | Eval.granted st _ => some { arb := st, feeding := (b, m) :: s.feeding, blocked := s.blocked }
      | Eval.suspended st _ => some { arb := st, feeding := s.feeding, blocked := (b, m) :: s.blocked }
      | Eval.fault _ _ => none
    else none
  | Label.recheck b m =>
    if (b, m) ∈ s.blocked then
      match any_before_eating_eval s.arb b m with
      | Eval.granted st _ =>
        some { arb := st, feeding := (b, m) :: s.feeding, blocked := s.blocked.erase (b, m) }
      | Eval.suspended st _ => some { arb := st, feeding := s.feeding, blocked := s.blocked }
      | Eval.fault _ _ => none
    else none
  | Label.leave b m =>
    if (b, m) ∈ s.feeding then
      match any_after_eating s.arb b m with
      | Res.ok (st, _) => some { arb := st, feeding := s.feeding.erase (b, m), blocked := s.blocked }
      | Res.fault _ _ => none
    else none

/-- The system after `catmouse_sync_init(N)` on the freshly booted kernel. -/
def initSys (N : Int) : Sys :=
  { arb := catmouse_sync_init boot N, feeding := [], blocked := [] }

/-- Runs a schedule of lock-held sections. -/
def run (s : Sys) : List Label → Option Sys
  | [] => some s
  | l :: ls => (sysStep s l).bind (fun s1 => run s1 ls)

/-- The states reachable from `catmouse_sync_init(N)`, `1 ≤ N ≤ INT_MAX`. -/
inductive Reachable (N : Int) : Sys → Prop where
  | init : 1 ≤ N → N ≤ INT_MAX → Reachable N (initSys N)
  | step (s : Sys) (l : Label) (s1 : Sys) :
      Reachable N s → sysStep s l = some s1 → Reachable N s1

/-- Scenario B of the design (two bowls): two mice ask for bowls 1 and 2. -/
def scenarioB : List Label := [Label.arrive 1 true, Label.arrive 2 true]

/-- The state scenario B ends in: both mice feed. -/
def afterScenarioB : Sys :=
  { arb := { totalBowls := 2, mouseTurn := true, slotsLeft := 0, slotsUsed := 2,
             numCatWaiting := 0, numMouseWaiting := 0, util := [true, true] },
    feeding := [(2, true), (1, true)], blocked := [] }

/-- Scenario B followed by the mouse at bowl 1 leaving. -/
def quotaSchedule : List Label :=
  [Label.arrive 1 true, Label.arrive 2 true, Label.leave 1 true]

/-- The state `quotaSchedule` ends in: one mouse feeds at bowl 2, bowl 1 is
free, and the mice have used both grants of their turn. -/
def quotaSpent : Sys :=
  { arb := { totalBowls := 2, mouseTurn := true, slotsLeft := 0, slotsUsed := 1,
             numCatWaiting := 0, numMouseWaiting := 0, util := [false, true] },
    feeding := [(2, true)], blocked := [] }

/-- Scenario A of the design (one bowl): a mouse takes bowl 1, a cat asks for
bowl 1 and blocks, the mouse leaves. -/
def scenarioA : List Label :=
  [Label.arrive 1 true, Label.arrive 1 false, Label.leave 1 true]

/-- The state scenario A ends in: the floor is idle, the turn was handed to
the cats, the cat is still blocked. -/
def afterScenarioA : Sys :=
  { arb := { totalBowls := 1, mouseTurn := false, slotsLeft := 1, slotsUsed := 0,
             numCatWaiting := 1, numMouseWaiting := 0, util := [false] },
    feeding := [], blocked := [(1, false)] }

/-- Scenario A before the mouse leaves: the mouse feeds at bowl 1, the cat is
blocked. -/
def mouseFeeding : Sys :=
  { arb := { totalBowls := 1, mouseTurn := true, slotsLeft := 0, slotsUsed := 1,
             numCatWaiting := 1, numMouseWaiting := 0, util := [true] },
    feeding := [(1, true)], blocked := [(1, false)] }

/-- The waiting count of a class (`true` for mice). -/
def waiting (st : Arbiter) (mouse : Bool) : Int :=
  if mouse then st.numMouseWaiting else st.numCatWaiting

/-- The condition variable of a class (`true` for mice). -/
def chanOf (mouse : Bool) : Chan :=
  if mouse then Chan.mouse_cv else Chan.cat_cv

/-- Number of actors of one class in a list of actors. -/
def classCount (mouse : Bool) (l : List (Nat × Bool)) : Nat :=
  (l.filter (fun a => a.2 == mouse)).length

/-- What holds of every state reachable from `catmouse_sync_init(N)`. -/
structure Inv (N : Int) (s : Sys) : Prop where
  n_pos : 1 ≤ N
  n_max : N ≤ INT_MAX
  total : s.arb.totalBowls = N
  len : (s.arb.util.length : Int) = N
  used : s.arb.slotsUsed = s.feeding.length
  cnt : s.arb.util.count true = s.feeding.length
  nodup : (s.feeding.map Prod.fst).Nodup
  range : ∀ h ∈ s.feeding, 1 ≤ h.1 ∧ (h.1 : Int) ≤ N
  occ : ∀ i : Nat, s.arb.util[i]? = some true ↔ (i + 1) ∈ s.feeding.map Prod.fst
  cls : ∀ h ∈ s.feeding, h.2 = s.arb.mouseTurn
  left_nonneg : 0 ≤ s.arb.slotsLeft
  quota : s.arb.slotsUsed + s.arb.slotsLeft ≤ N
  idle : s.arb.slotsUsed = 0 → s.arb.slotsLeft = N
  cats : s.arb.numCatWaiting = classCount false s.blocked
  mice : s.arb.numMouseWaiting = classCount true s.blocked
  brange : ∀ h ∈ s.blocked, 1 ≤ h.1 ∧ (h.1 : Int) ≤ N

/-- Statics as a run leaves them that was torn down while one actor still held
a bowl. -/
def staleStatics : Arbiter :=
  { totalBowls := 1, mouseTurn := true, slotsLeft := 0, slotsUsed := 1,
    numCatWaiting := 0, numMouseWaiting := 0, util := [true] }

/-- Calls `any_before_eating(bowl, mouse)` for each bowl of the list in order,
with no other call in between; `none` as soon as one call is not granted in
its first evaluation. -/
def enterEach (st : Arbiter) (mouse : Bool) : List Nat → Option Arbiter
  | [] => some st
  | b :: bs =>
    match any_before_eating st b mouse with
    | Eval.granted st1 _ => enterEach st1 mouse bs
    | Eval.suspended _ _ => none
    | Eval.fault _ _ => none

/-- The condition variables a lock-held section broadcasts.  Broadcasts are
made by `switch_kind_to` only, one per call, so the list is non-empty exactly
when the section makes a hand-off. -/
def sectionWoken (s : Sys) : Label → List Chan
  | Label.arrive b m => (any_before_eating s.arb b m).woken
  | Label.recheck b m => (any_before_eating_eval s.arb b m).woken
  | Label.leave b m =>
    match any_after_eating s.arb b m with
    | Res.ok (_, bc) => bc
    | Res.fault _ _ => []

/-- Whether a lock-held section grants a bowl. -/
def sectionGrants (s : Sys) : Label → Bool
  | Label.arrive b m =>
    match any_before_eating s.arb b m with
    | Eval.granted _ _ => true
    | Eval.suspended _ _ => false
    | Eval.fault _ _ => false
  | Label.recheck b m =>
    match any_before_eating_eval s.arb b m with
    | Eval.granted _ _ => true
    | Eval.suspended _ _ => false
    | Eval.fault _ _ => false
  | Label.leave _ _ => false

/-- Runs a schedule and counts the grants made since the last hand-off: the
count `g` restarts at 0 in a section that makes a hand-off, and a grant of the
section (made after the hand-off, if both occur) adds one. -/
def grantsInTurn (s : Sys) (g : Nat) : List Label → Option (Sys × Nat)
  | [] => some (s, g)
  | l :: ls =>
    match sysStep s l with
    | none => none
    | some s1 =>
      grantsInTurn s1
        ((if sectionWoken s l = [] then g else 0) + (if sectionGrants s l then 1 else 0)) ls

/-! ## Bowl numbers outside `1..NumBowls`

Neither function tests its bowl number: `util[bowl-1]` is indexed as the
number comes.  For a bowl outside `1..NumBowls` the access falls outside the
table, on memory that the statics do not own.  The sections above end at such
an access (`Fault.outOfBounds`), which never happens for a legal bowl.  The
definitions below follow the code through the access: `beyond i` tells whether
the byte that lies at `util + i` is non-zero, for an index `i` outside the
table, and a store outside the table changes that byte and none of the
statics.  This is what the compiled code does as long as the byte is mapped
and is not part of one of the statics; the C language itself leaves the access
undefined. -/

/-- The value of `util[bowl-1]` as the code reads it: the entry of the table,
or the byte found outside the table. -/
def util_read (beyond : Nat → Bool) (st : Arbiter) (bowl : Nat) : Bool :=
  match st.util[bowlIdx bowl]? with
  | some u => u
  | none => beyond (bowlIdx bowl)

/-- The memory outside the table after the store `util[bowl-1] = v`: unchanged
when the index is inside the table. -/
def util_store (beyond : Nat → Bool) (st : Arbiter) (bowl : Nat) (v : Bool) : Nat → Bool :=
  fun i => if st.util.length ≤ bowlIdx bowl ∧ i = bowlIdx bowl then v else beyond i

/-- Lines 136-152 with the memory around the table: one pass of the loop
body.  Returns `ready`, the statics and the condition variables broadcast. -/
def any_before_eating_loop_raw (beyond : Nat → Bool) (st : Arbiter) (bowl : Nat)
    (mouse : Bool) : Bool × Arbiter × List Chan :=
  let p : Bool × Arbiter × List Chan :=
    if mouse != st.mouseTurn then
      if st.slotsUsed == 0 then
        (true, (switch_kind_to st mouse).1, [(switch_kind_to st mouse).2])
      else
        (false, st, [])
    else
      (true, st, [])
  let ready1 : Bool := if p.2.1.slotsLeft ≤ 0 then false else p.1
  (if util_read beyond p.2.1 bowl then false else ready1, p.2.1, p.2.2)

/-- Lines 158-171 with the memory around the table: the three assertions after
the loop, then the grant.  Returns the result and the memory outside the
table. -/
def any_before_eating_commit_raw (beyond : Nat → Bool) (st : Arbiter) (bowl : Nat)
    (mouse : Bool) : Res Arbiter × (Nat → Bool) :=
  if mouse != st.mouseTurn then (Res.fault (Fault.kassert 158) st, beyond)
  else if ¬ (st.slotsLeft > 0) then (Res.fault (Fault.kassert 159) st, beyond)
  else if util_read beyond st bowl then (Res.fault (Fault.kassert 160) st, beyond)
  else
    let st1 : Arbiter :=
      { st with util := st.util.set (bowlIdx bowl) true,
                slotsUsed := st.slotsUsed + 1,
                slotsLeft := st.slotsLeft - 1 }
    (Res.ok (if mouse then { st1 with numMouseWaiting := st1.numMouseWaiting - 1 }
             else { st1 with numCatWaiting := st1.numCatWaiting - 1 }),
     util_store beyond st bowl true)

/-- One evaluation of the admission loop with the memory around the table,
from the loop head to either `cv_wait` (line 154) or `lock_release`
(line 173). -/
def any_before_eating_eval_raw (beyond : Nat → Bool) (st : Arbiter) (bowl : Nat)
    (mouse : Bool) : Eval × (Nat → Bool) :=
  let r : Bool × Arbiter × List Chan := any_before_eating_loop_raw beyond st bowl mouse
  if r.1 then
    match any_before_eating_commit_raw beyond r.2.1 bowl mouse with
    | (Res.ok s1, mem) => (Eval.granted s1 r.2.2, mem)
    | (Res.fault f s1, mem) => (Eval.fault f s1, mem)
  else (Eval.suspended r.2.1 r.2.2, beyond)

/-- Lines 176-200 with the memory around the table.  Returns the result (the
new statics and the condition variables broadcast) and the memory outside the
table. -/
def any_after_eating_raw (beyond : Nat → Bool) (st : Arbiter) (bowl : Nat)
    (mouse : Bool) : Res (Arbiter × List Chan) × (Nat → Bool) :=
  if mouse != st.mouseTurn then (Res.fault (Fault.kassert 188) st, beyond)
  else if ¬ (st.slotsUsed > 0) then (Res.fault (Fault.kassert 189) st, beyond)
  else if !util_read beyond st bowl then (Res.fault (Fault.kassert 190) st, beyond)
  else
    let st1 : Arbiter :=
      { st with util := st.util.set (bowlIdx bowl) false,
                slotsUsed := st.slotsUsed - 1 }
    if st1.slotsUsed == 0 then
      (Res.ok ((switch_kind_to st1 (!mouse)).1, [(switch_kind_to st1 (!mouse)).2]),
       util_store beyond st bowl false)
    else (Res.ok (st1, []), util_store beyond st bowl false)

end CatMouse

/-! # The process system calls of `kern/syscall/proc_syscalls.c` (`OPT_A2`)

`sys__exit` and `sys_waitpid` work on the process table that `procdata_lock`
protects.  The table's declarations (`procdata_t`, `pid_use`, `PID_MAX`,
`procdata_destroy`, `_MKWAIT_EXIT`, `copyout`, the error numbers) are in
headers and files outside the sources at hand; the record below has the
fields the two functions use, and the rest is taken as parameters. -/

namespace ProcSys

/-- The fields of `procdata_t` used by `proc_syscalls.c`.  Records are named by
their address; `p_children` is the chain that starts at `p_firstchild` and
follows `p_nextsibling`, as the list of the addresses it visits. -/
structure ProcData where
  p_pid : Int
  p_parent : Option Nat
  p_children : List Nat
  p_exited : Bool
  p_exit_code : Int
deriving DecidableEq, Repr

/-- The process table: the records by address (`none`: no record there) and
the table `pid_use`, taken to cover every index the code reads. -/
structure Kernel where
  heap : Nat → Option ProcData
  pid_use : Int → Bool

/-- The error numbers `sys_waitpid` returns, and a non-zero result of
`copyout`. -/
inductive Errno where
  | EINVAL
  | ESRCH
  | ECHILD
  | copyout (code : Int)
deriving DecidableEq, Repr

/-- How a lock-held section of `sys_waitpid` ends: the call returns `code`
(`none` for 0) with what it stored through `status` and `retval` (`none`:
nothing stored), or the caller suspends in `cv_wait`, or a pointer without a
record is followed. -/
inductive WaitRes where
  | returned (code : Option Errno) (status : Option Int) (retval : Option Int) (k : Kernel)
  | suspended (k : Kernel)
  | fault (k : Kernel)

/-- The outcome of the search of a child list. -/
inductive Found where
  | child (addr : Nat) (d : ProcData)
  | absent
  | dangling
deriving DecidableEq, Repr

/-- Lines 145-151 of `sys_waitpid`: the first record of the chain whose
`p_pid` is `pid`. -/
def findChild (k : Kernel) (pid : Int) : List Nat → Found
  | [] => Found.absent
  | q :: qs =>
    match k.heap q with
    | none => Found.dangling
    | some d => if d.p_pid == pid then Found.child q d else findChild k pid qs

/-- Lines 165-196 of `sys_waitpid`: one evaluation of the wait loop for the
child at `addr`, and what follows the loop.  `copyres` is the result of
`copyout`. -/
def sys_waitpid_loop (copyres : Int) (k : Kernel) (addr : Nat) (pid : Int) : WaitRes :=
  match k.heap addr with
  | none => WaitRes.fault k
  | some d =>
    if !d.p_exited then WaitRes.suspended k
    else
      let exitstatus : Int := d.p_exit_code
      if copyres ≠ 0 then WaitRes.returned (some (Errno.copyout copyres)) none none k
      else WaitRes.returned none (some exitstatus) (some pid) k

/-- Lines 120-196 (`OPT_A2`), up to the first `cv_wait` or the return.  `cur`
is the address in `curproc->p_data`. -/
def sys_waitpid (PID_MAX : Int) (copyres : Int) (k : Kernel) (cur : Nat) (pid : Int)
    (options : Int) : WaitRes :=
  if options ≠ 0 then WaitRes.returned (some Errno.EINVAL) none none k
  else if pid < 0 ∨ pid > PID_MAX then WaitRes.returned (some Errno.ESRCH) none none k
  else
    match k.heap cur with
    | none => WaitRes.fault k
    | some me =>
      match findChild k pid me.p_children with
      | Found.dangling => WaitRes.fault k
      | Found.absent =>
        if k.pid_use pid then WaitRes.returned (some Errno.ECHILD) none none k
        else WaitRes.returned (some Errno.ESRCH) none none k
      | Found.child addr _ => sys_waitpid_loop copyres k addr pid

/-- Applies `f` to the record at `addr`. -/
def Kernel.modify (k : Kernel) (addr : Nat) (f : ProcData → ProcData) : Kernel :=
  { k with heap := fun x => if x = addr then (k.heap addr).map f else k.heap x }

/-- Lines 51-63 of `sys__exit`: the children that have exited are destroyed,
the others lose their parent.  `none`: the chain holds an address without a
record. -/
def exitChildren (destroy : Kernel → Nat → Kernel) : Kernel → List Nat → Option Kernel
  | k, [] => some k
  | k, q :: qs =>
    match k.heap q with
    | none => none
    | some d =>
      if d.p_exited then exitChildren destroy (destroy k q) qs
      else exitChildren destroy (k.modify q (fun r => { r with p_parent := none })) qs

/-- What `sys__exit` leaves: the table, `curproc->p_data`, and whether
`procdata_cv` was broadcast. -/
structure ExitOut where
  table : Kernel
  p_data : Option Nat
  broadcast : Bool

/-- Lines 43-82 of `sys__exit` (`OPT_A2`), the section under `procdata_lock`.
`cur` is the address in `curproc->p_data`; `mkwait` is `_MKWAIT_EXIT` and
`destroy` is `procdata_destroy`.  `none`: the assertion of line 41 fails or the
child chain holds an address without a record. -/
def sys__exit (mkwait : Int → Int) (destroy : Kernel → Nat → Kernel) (k : Kernel)
    (cur : Nat) (exitcode : Int) : Option ExitOut :=
  match k.heap cur with
  | none => none
  | some me =>
    let k1 : Kernel :=
      { k with pid_use := fun i => if i = me.p_pid then false else k.pid_use i }
    match exitChildren destroy k1 me.p_children with
    | none => none
    | some k2 =>
      let k3 : Kernel := k2.modify cur (fun r => { r with p_children := [] })
      match k3.heap cur with
      | none => none
      | some me3 =>
        if me3.p_parent.isSome then
          some { table := k3.modify cur (fun r =>
                   { r with p_exit_code := mkwait exitcode, p_exited := true }),
                 p_data := some cur, broadcast := true }
        else
          some { table := destroy k3 cur, p_data := none, broadcast := false }

/-- An instance of `procdata_destroy` for the examples: the record is freed. -/
def freeRecord (k : Kernel) (addr : Nat) : Kernel :=
  { k with heap := fun x => if x = addr then none else k.heap x }

/-- An instance of `_MKWAIT_EXIT` for the examples: the exit code in the bits
above the two low ones. -/
def mkwaitShift (code : Int) : Int := code * 4

/-- A table for the examples: the process at address 1 (PID 1) has the one
child at address 2 (PID 2), which has no children and has not exited. -/
def demoTable : Kernel :=
  { heap := fun x =>
      if x = 1 then
        some { p_pid := 1, p_parent := none, p_children := [2], p_exited := false,
               p_exit_code := 0 }
      else if x = 2 then
        some { p_pid := 2, p_parent := some 1, p_children := [], p_exited := false,
               p_exit_code := 0 }
      else none,
    pid_use := fun i => decide (i = 1 ∨ i = 2) }

/-- The record of the child of `demoTable`. -/
def demoChild : ProcData :=
  { p_pid := 2, p_parent := some 1, p_children := [], p_exited := false, p_exit_code := 0 }

/-- The record of the parent of `demoTable`. -/
def demoParent : ProcData :=
  { p_pid := 1, p_parent := none, p_children := [2], p_exited := false, p_exit_code := 0 }

/-- The record of the parent of `dupTable`: its child list holds the records
at addresses 2 and 3, in this order. -/
def dupParent : ProcData :=
  { p_pid := 1, p_parent := none, p_children := [2, 3], p_exited := false, p_exit_code := 0 }

/-- The record of the running child of `dupTable`. -/
def dupChild : ProcData :=
  { p_pid := 2, p_parent := some 1, p_children := [], p_exited := false, p_exit_code := 0 }

/-- A table in which a PID is listed twice.  The process at address 1 (PID 1)
has two children with PID 2: the record at address 2 has exited with status
396 and was never destroyed (`sys_waitpid` does not unlink a child, and line 49
of `sys__exit` had given its PID back for use), and the record at address 3 is
a later child that got the same PID and has not exited. -/
def dupTable : Kernel :=
  { heap := fun x =>
      if x = 1 then some dupParent
      else if x = 2 then
        some { p_pid := 2, p_parent := some 1, p_children := [], p_exited := true,
               p_exit_code := 396 }
      else if x = 3 then some dupChild
      else none,
    pid_use := fun i => decide (i = 1 ∨ i = 2) }

end ProcSys

namespace CatMouse

/-! ## The closed system of actors

The threads that call the monitor and the condition variables they sleep on
are outside `catmouse_synch.c`.  The definitions below follow the design: each
actor repeats Enter, feed, Exit; a caller whose admission fails sleeps on the
channel of its class; a broadcast wakes every sleeper of the channel, and each
of them runs the admission loop again when it next holds the lock. -/

/-- Where an actor is in its cycle: between two cycles, asleep in `cv_wait`
for a bowl, woken by a broadcast and about to run the loop again, or feeding
at a bowl. -/
inductive Phase where
  | idle
  | asleep (bowl : Nat)
  | woken (bowl : Nat)
  | feeding (bowl : Nat)
deriving DecidableEq, Repr

/-- An actor: its class (`true` for a mouse), the Enter calls it has still to
make, the grants it has received, and its phase. -/
structure Actor where
  mouse : Bool
  cycles : Nat
  fed : Nat
  phase : Phase
deriving DecidableEq, Repr

/-- The monitor and the actors around it. -/
structure World where
  arb : Arbiter
  actors : List Actor
deriving DecidableEq, Repr

/-- Modelled from the spec: `cv_broadcast` on a channel.  "All actors waiting
for that class are woken": an actor asleep on the channel becomes woken, every
other actor is left as it is. -/
def wake (c : Chan) (a : Actor) : Actor :=
  match a.phase with
  | Phase.asleep b => if chanOf a.mouse = c then { a with phase := Phase.woken b } else a
  | Phase.idle => a
  | Phase.woken _ => a
  | Phase.feeding _ => a

/-- The broadcasts of one lock-held section, applied in order. -/
def wakeAll : List Chan → List Actor → List Actor
  | [], l => l
  | c :: cs, l => wakeAll cs (l.map (wake c))

/-- The bowl and class of an actor that feeds. -/
def Actor.holds (a : Actor) : Option (Nat × Bool) :=
  match a.phase with
  | Phase.feeding b => some (b, a.mouse)
  | Phase.idle => none
  | Phase.asleep _ => none
  | Phase.woken _ => none

/-- The bowl and class of an actor that is blocked in Enter. -/
def Actor.waits (a : Actor) : Option (Nat × Bool) :=
  match a.phase with
  | Phase.asleep b => some (b, a.mouse)
  | Phase.woken b => some (b, a.mouse)
  | Phase.idle => none
  | Phase.feeding _ => none

/-- A world seen as a monitor with its holders and its blocked callers. -/
def World.toSys (w : World) : Sys :=
  { arb := w.arb, feeding := w.actors.filterMap Actor.holds,
    blocked := w.actors.filterMap Actor.waits }

/-- The moves of the actors: actor `i` calls Enter for a bowl, runs the
admission loop again after a wake-up, or calls Exit. -/
inductive Move where
  | enter (i : Nat) (bowl : Nat)
  | recheck (i : Nat)
  | leave (i : Nat)
deriving DecidableEq, Repr

/-- Modelled from the spec: one lock-held section of actor `i`.
* `enter`: an idle actor with a cycle left calls `any_before_eating`; it feeds
  if granted and falls asleep if not.
* `recheck`: a woken actor runs the loop again.
* `leave`: a feeding actor calls `any_after_eating` for its bowl.
The broadcasts of the section wake the sleepers on their channels.  A section
that ends in a fault stops the kernel: there is no next world. -/
def worldStep (w : World) : Move → Option World
  | Move.enter i b =>
    match w.actors[i]? with
    | none => none
    | some a =>
      if a.phase = Phase.idle ∧ 0 < a.cycles ∧ b < 4294967296 then
        match any_before_eating w.arb b a.mouse with
        | Eval.granted st bc =>
          some { arb := st,
                 actors := (wakeAll bc w.actors).set i
                   { a with cycles := a.cycles - 1, fed := a.fed + 1,
                            phase := Phase.feeding b } }
        | Eval.suspended st bc =>
          some { arb := st,
                 actors := (wakeAll bc w.actors).set i
                   { a with cycles := a.cycles - 1, phase := Phase.asleep b } }
        | Eval.fault _ _ => none
      else none
  | Move.recheck i =>
    match w.actors[i]? with
    | none => none
    | some a =>
      match a.phase with
      | Phase.woken b =>
        match any_before_eating_eval w.arb b a.mouse with
        | Eval.granted st bc =>
          some { arb := st,
                 actors := (wakeAll bc w.actors).set i
                   { a with fed := a.fed + 1, phase := Phase.feeding b } }
        | Eval.suspended st bc =>
          some { arb := st,
                 actors := (wakeAll bc w.actors).set i { a with phase := Phase.asleep b } }
        | Eval.fault _ _ => none
      | Phase.idle => none
      | Phase.asleep _ => none
      | Phase.feeding _ => none
  | Move.leave i =>
    match w.actors[i]? with
    | none => none
    | some a =>
      match a.phase with
      | Phase.feeding b =>
        match any_after_eating w.arb b a.mouse with
        | Res.ok (st, bc) =>
          some { arb := st,
                 actors := (wakeAll bc w.actors).set i { a with phase := Phase.idle } }
        | Res.fault _ _ => none
      | Phase.idle => none
      | Phase.asleep _ => none
      | Phase.woken _ => none

/-- The world after `catmouse_sync_init(N)` on the freshly booted kernel, with
the given actors. -/
def initWorld (N : Int) (acts : List Actor) : World :=
  { arb := catmouse_sync_init boot N, actors := acts }

/-- Runs a schedule of moves. -/
def worldRun (w : World) : List Move → Option World
  | [] => some w
  | mv :: ms => (worldStep w mv).bind (fun w1 => worldRun w1 ms)

/-- The worlds reachable from `catmouse_sync_init(N)`, `1 ≤ N ≤ INT_MAX`, with
actors that all start idle and unfed. -/
inductive WReachable (N : Int) (acts : List Actor) : World → Prop where
  | init : 1 ≤ N → N ≤ INT_MAX → (∀ a ∈ acts, a.phase = Phase.idle ∧ a.fed = 0) →
      WReachable N acts (initWorld N acts)
  | step (w : World) (mv : Move) (w1 : World) :
      WReachable N acts w → worldStep w mv = some w1 → WReachable N acts w1

/-- One step of the closed system, by cases. -/
inductive WStep (w : World) : World → Prop where
  | enterGranted (i b : Nat) (a : Actor) (st : Arbiter) (bc : List Chan) :
      w.actors[i]? = some a → a.phase = Phase.idle → 0 < a.cycles → b < 4294967296 →
      any_before_eating w.arb b a.mouse = Eval.granted st bc →
      WStep w { arb := st,
                actors := (wakeAll bc w.actors).set i
                  { a with cycles := a.cycles - 1, fed := a.fed + 1,
                           phase := Phase.feeding b } }
  | enterSuspended (i b : Nat) (a : Actor) (st : Arbiter) (bc : List Chan) :
      w.actors[i]? = some a → a.phase = Phase.idle → 0 < a.cycles → b < 4294967296 →
      any_before_eating w.arb b a.mouse = Eval.suspended st bc →
      WStep w { arb := st,
                actors := (wakeAll bc w.actors).set i
                  { a with cycles := a.cycles - 1, phase := Phase.asleep b } }
  | recheckGranted (i b : Nat) (a : Actor) (st : Arbiter) (bc : List Chan) :
      w.actors[i]? = some a → a.phase = Phase.woken b →
      any_before_eating_eval w.arb b a.mouse = Eval.granted st bc →
      WStep w { arb := st,
                actors := (wakeAll bc w.actors).set i
                  { a with fed := a.fed + 1, phase := Phase.feeding b } }
  | recheckSuspended (i b : Nat) (a : Actor) (st : Arbiter) (bc : List Chan) :
      w.actors[i]? = some a → a.phase = Phase.woken b →
      any_before_eating_eval w.arb b a.mouse = Eval.suspended st bc →
      WStep w { arb := st,
                actors := (wakeAll bc w.actors).set i { a with phase := Phase.asleep b } }
  | leave (i b : Nat) (a : Actor) (st : Arbiter) (bc : List Chan) :
      w.actors[i]? = some a → a.phase = Phase.feeding b →
      any_after_eating w.arb b a.mouse = Res.ok (st, bc) →
      WStep w { arb := st,
                actors := (wakeAll bc w.actors).set i { a with phase := Phase.idle } }

/-- The class of an actor and the number of grants it is due in all: those it
has received, the one it is blocked for, and those of the cycles it has left. -/
def Actor.account (a : Actor) : Bool × Nat :=
  (a.mouse, a.fed + a.cycles + (if a.waits.isSome then 1 else 0))

/-- The grants and the Exits an actor has still to go through. -/
def Actor.due (a : Actor) : Nat :=
  2 * a.cycles +
    (match a.phase with
     | Phase.idle => 0
     | Phase.asleep _ => 2
     | Phase.woken _ => 2
     | Phase.feeding _ => 1)

/-- One for a woken actor, zero for any other. -/
def Actor.awake (a : Actor) : Nat :=
  match a.phase with
  | Phase.woken _ => 1
  | Phase.idle => 0
  | Phase.asleep _ => 0
  | Phase.feeding _ => 0

/-- A bound on the number of moves a world can still make: every grant and
every Exit may be followed by one re-check of each other actor. -/
def potential (w : World) : Nat :=
  (w.actors.length + 1) * (w.actors.map Actor.due).sum +
    (w.actors.map Actor.awake).sum + (w.actors.map Actor.cycles).sum

/-- What holds of every world reachable from `catmouse_sync_init(N)` with the
actors `acts`: the invariant of the monitor; on an idle floor with a blocked
actor, some actor of the class that holds the turn is woken; and the actors
are those of the start, each with the grants it is due. -/
structure WInv (N : Int) (acts : List Actor) (w : World) : Prop where
  sys : Inv N w.toSys
  awake : w.arb.slotsUsed = 0 → (∃ a ∈ w.actors, a.waits.isSome) →
    ∃ a ∈ w.actors, ∃ b, a.phase = Phase.woken b ∧ a.mouse = w.arb.mouseTurn
  shape : w.actors.map Actor.account = acts.map Actor.account

/-- Scenario A of the design in the closed system: a mouse and a cat, one
cycle each. -/
def twoActors : List Actor :=
  [{ mouse := true, cycles := 1, fed := 0, phase := Phase.idle },
   { mouse := false, cycles := 1, fed := 0, phase := Phase.idle }]

/-- The moves of scenario A up to the Exit of the mouse. -/
def scenarioAMoves : List Move := [Move.enter 0 1, Move.enter 1 1, Move.leave 0]

/-- The world scenario A ends in: the floor is idle, the turn is the cats',
the cat has been woken by the hand-off and has not yet run the loop again. -/
def catWoken : World :=
  { arb := { totalBowls := 1, mouseTurn := false, slotsLeft := 1, slotsUsed := 0,
             numCatWaiting := 1, numMouseWaiting := 0, util := [false] },
    actors := [{ mouse := true, cycles := 0, fed := 1, phase := Phase.idle },
               { mouse := false, cycles := 0, fed := 0, phase := Phase.woken 1 }] }

/-- Scenario A of the design in the closed system, run to its end: the mouse
feeds and leaves, the woken cat is admitted, feeds and leaves. -/
def scenarioAFull : List Move :=
  [Move.enter 0 1, Move.enter 1 1, Move.leave 0, Move.recheck 1, Move.leave 1]

/-- The world `scenarioAFull` ends in: both actors are idle, have no cycle left
and have fed once. -/
def allDone : World :=
  { arb := { totalBowls := 1, mouseTurn := false, slotsLeft := 1, slotsUsed := 0,
             numCatWaiting := 0, numMouseWaiting := 0, util := [false] },
    actors := [{ mouse := true, cycles := 0, fed := 1, phase := Phase.idle },
               { mouse := false, cycles := 0, fed := 1, phase := Phase.idle }] }

/-! # Proofs -/

/-! ## What the hand-off leaves alone -/

@[simp] theorem switch_util (st : Arbiter) (m : Bool) :
    (switch_kind_to st m).1.util = st.util := rfl

@[simp] theorem switch_slotsUsed (st : Arbiter) (m : Bool) :
    (switch_kind_to st m).1.slotsUsed = st.slotsUsed := rfl

@[simp] theorem switch_totalBowls (st : Arbiter) (m : Bool) :
    (switch_kind_to st m).1.totalBowls = st.totalBowls := rfl

@[simp] theorem switch_slotsLeft (st : Arbiter) (m : Bool) :
    (switch_kind_to st m).1.slotsLeft = st.totalBowls := rfl

@[simp] theorem switch_numCatWaiting (st : Arbiter) (m : Bool) :
    (switch_kind_to st m).1.numCatWaiting = st.numCatWaiting := rfl

@[simp] theorem switch_numMouseWaiting (st : Arbiter) (m : Bool) :
    (switch_kind_to st m).1.numMouseWaiting = st.numMouseWaiting := rfl

theorem switch_turn_mouse (st : Arbiter) :
    (switch_kind_to st true).1.mouseTurn = decide (0 < st.numMouseWaiting) := by
  simp [switch_kind_to]

theorem switch_turn_cat (st : Arbiter) :
    (switch_kind_to st false).1.mouseTurn = !decide (0 < st.numCatWaiting) := by
  simp [switch_kind_to]

/-! ## The three ways through the loop body -/

theorem loop_same (st : Arbiter) (b : Nat) (m : Bool) (h : m = st.mouseTurn) :
    any_before_eating_loop st b m =
      match st.util[bowlIdx b]? with
      | none => Res.fault Fault.outOfBounds st
      | some u => Res.ok (!u && !decide (st.slotsLeft ≤ 0), st, []) := by
  cases hu : st.util[bowlIdx b]? with
  | none => simp [any_before_eating_loop, h, hu]
  | some u => cases u <;> simp [any_before_eating_loop, h, hu]

theorem loop_busy (st : Arbiter) (b : Nat) (m : Bool) (h : m ≠ st.mouseTurn)
    (h2 : st.slotsUsed ≠ 0) :
    any_before_eating_loop st b m =
      match st.util[bowlIdx b]? with
      | none => Res.fault Fault.outOfBounds st
      | some _ => Res.ok (false, st, []) := by
  cases hu : st.util[bowlIdx b]? with
  | none => simp [any_before_eating_loop, h, h2, hu]
  | some u => cases u <;> simp [any_before_eating_loop, h, h2, hu]

theorem loop_idle (st : Arbiter) (b : Nat) (m : Bool) (h : m ≠ st.mouseTurn)
    (h2 : st.slotsUsed = 0) :
    any_before_eating_loop st b m =
      match st.util[bowlIdx b]? with
      | none => Res.fault Fault.outOfBounds (switch_kind_to st m).1
      | some u => Res.ok (!u && !decide (st.totalBowls ≤ 0), (switch_kind_to st m).1,
                          [(switch_kind_to st m).2]) := by
  cases hu : st.util[bowlIdx b]? with
  | none => simp [any_before_eating_loop, h, h2, hu]
  | some u => cases u <;> simp [any_before_eating_loop, h, h2, hu]

theorem commit_ok (st : Arbiter) (b : Nat) (m : Bool) (h1 : m = st.mouseTurn)
    (h2 : 0 < st.slotsLeft) (h3 : st.util[bowlIdx b]? = some false) :
    any_before_eating_commit st b m =
      Res.ok { st with util := st.util.set (bowlIdx b) true,
                       slotsUsed := st.slotsUsed + 1,
                       slotsLeft := st.slotsLeft - 1,
                       numMouseWaiting := st.numMouseWaiting - (if m then 1 else 0),
                       numCatWaiting := st.numCatWaiting - (if m then 0 else 1) } := by
  cases m <;> simp [any_before_eating_commit, ← h1, h2, h3]

theorem commit_bad_turn (st : Arbiter) (b : Nat) (m : Bool) (h1 : m ≠ st.mouseTurn) :
    any_before_eating_commit st b m = Res.fault (Fault.kassert 158) st := by
  simp [any_before_eating_commit, h1]

theorem eval_granted_spec (st : Arbiter) (b : Nat) (m : Bool) (st1 : Arbiter) (bc : List Chan)
    (h : any_before_eating_eval st b m = Eval.granted st1 bc) :
    st1.mouseTurn = m ∧ st1.totalBowls = st.totalBowls ∧
    st.util[bowlIdx b]? = some false ∧
    st1.util = st.util.set (bowlIdx b) true ∧
    st1.slotsUsed = st.slotsUsed + 1 ∧
    ((m = st.mouseTurn ∧ st1.slotsLeft = st.slotsLeft - 1 ∧ 0 < st.slotsLeft ∧ bc = []) ∨
     (m ≠ st.mouseTurn ∧ st.slotsUsed = 0 ∧ st1.slotsLeft = st.totalBowls - 1 ∧
        0 < st.totalBowls ∧ bc = [(switch_kind_to st m).2])) ∧
    st1.numMouseWaiting = st.numMouseWaiting - (if m then 1 else 0) ∧
    st1.numCatWaiting = st.numCatWaiting - (if m then 0 else 1) := by
  by_cases h1 : m = st.mouseTurn
  · cases hu : st.util[bowlIdx b]? with
    | none => simp [any_before_eating_eval, loop_same st b m h1, hu] at h
    | some u =>
      by_cases h2 : st.slotsLeft ≤ 0
      · simp [any_before_eating_eval, loop_same st b m h1, hu, h2] at h
      · cases u
        · have h2p : 0 < st.slotsLeft := by omega
          simp [any_before_eating_eval, loop_same st b m h1, hu, h2,
            commit_ok st b m h1 h2p hu] at h
          obtain ⟨rfl, rfl⟩ := h
          simp [h1, h2p]
        · simp [any_before_eating_eval, loop_same st b m h1, hu, h2] at h
  · by_cases h2 : st.slotsUsed = 0
    · cases hu : st.util[bowlIdx b]? with
      | none => simp [any_before_eating_eval, loop_idle st b m h1 h2, hu] at h
      | some u =>
        by_cases h3 : st.totalBowls ≤ 0
        · simp [any_before_eating_eval, loop_idle st b m h1 h2, hu, h3] at h
        · cases u
          · have h3p : 0 < (switch_kind_to st m).1.slotsLeft := by simp; omega
            by_cases h4 : m = (switch_kind_to st m).1.mouseTurn
            · simp [any_before_eating_eval, loop_idle st b m h1 h2, hu, h3,
                commit_ok (switch_kind_to st m).1 b m h4 h3p (by simpa using hu)] at h
              obtain ⟨rfl, rfl⟩ := h
              simp [h1, h2, ← h4]
              omega
            · simp [any_before_eating_eval, loop_idle st b m h1 h2, hu, h3,
                commit_bad_turn _ b m h4] at h
          · simp [any_before_eating_eval, loop_idle st b m h1 h2, hu, h3] at h
    · cases hu : st.util[bowlIdx b]? with
      | none => simp [any_before_eating_eval, loop_busy st b m h1 h2, hu] at h
      | some u => simp [any_before_eating_eval, loop_busy st b m h1 h2, hu] at h

theorem eval_suspended_spec (st : Arbiter) (b : Nat) (m : Bool) (st1 : Arbiter)
    (bc : List Chan) (h : any_before_eating_eval st b m = Eval.suspended st1 bc) :
    (∃ u, st.util[bowlIdx b]? = some u) ∧
    ((st1 = st ∧ bc = []) ∨
     (m ≠ st.mouseTurn ∧ st.slotsUsed = 0 ∧ st1 = (switch_kind_to st m).1 ∧
        bc = [(switch_kind_to st m).2])) := by
  by_cases h1 : m = st.mouseTurn
  · cases hu : st.util[bowlIdx b]? with
    | none => simp [any_before_eating_eval, loop_same st b m h1, hu] at h
    | some u =>
      by_cases h2 : st.slotsLeft ≤ 0
      · simp [any_before_eating_eval, loop_same st b m h1, hu, h2] at h
        simp [h.1, h.2]
      · cases u
        · have h2p : 0 < st.slotsLeft := by omega
          simp [any_before_eating_eval, loop_same st b m h1, hu, h2,
            commit_ok st b m h1 h2p hu] at h
        · simp [any_before_eating_eval, loop_same st b m h1, hu, h2] at h
          simp [h.1, h.2]
  · by_cases h2 : st.slotsUsed = 0
    · cases hu : st.util[bowlIdx b]? with
      | none => simp [any_before_eating_eval, loop_idle st b m h1 h2, hu] at h
      | some u =>
        by_cases h3 : st.totalBowls ≤ 0
        · simp [any_before_eating_eval, loop_idle st b m h1 h2, hu, h3] at h
          simp [h.1, h.2, h1, h2]
        · cases u
          · have h3p : 0 < (switch_kind_to st m).1.slotsLeft := by simp; omega
            by_cases h4 : m = (switch_kind_to st m).1.mouseTurn
            · simp [any_before_eating_eval, loop_idle st b m h1 h2, hu, h3,
                commit_ok (switch_kind_to st m).1 b m h4 h3p (by simpa using hu)] at h
            · simp [any_before_eating_eval, loop_idle st b m h1 h2, hu, h3,
                commit_bad_turn _ b m h4] at h
          · simp [any_before_eating_eval, loop_idle st b m h1 h2, hu, h3] at h
            simp [h.1, h.2, h1, h2]
    · cases hu : st.util[bowlIdx b]? with
      | none => simp [any_before_eating_eval, loop_busy st b m h1 h2, hu] at h
      | some u =>
        simp [any_before_eating_eval, loop_busy st b m h1 h2, hu] at h
        simp [h.1, h.2]

theorem eval_grant_same (st : Arbiter) (b : Nat) (m : Bool) (h1 : m = st.mouseTurn)
    (h2 : 0 < st.slotsLeft) (h3 : st.util[bowlIdx b]? = some false) :
    any_before_eating_eval st b m =
      Eval.granted { st with util := st.util.set (bowlIdx b) true,
                             slotsUsed := st.slotsUsed + 1,
                             slotsLeft := st.slotsLeft - 1,
                             numMouseWaiting := st.numMouseWaiting - (if m then 1 else 0),
                             numCatWaiting := st.numCatWaiting - (if m then 0 else 1) } [] := by
  have h2n : ¬ st.slotsLeft ≤ 0 := by omega
  simp [any_before_eating_eval, loop_same st b m h1, h3, h2n, commit_ok st b m h1 h2 h3]

theorem eval_grant_idle (st : Arbiter) (b : Nat) (m : Bool) (h1 : m ≠ st.mouseTurn)
    (h2 : st.slotsUsed = 0) (h3 : 0 < st.totalBowls)
    (h4 : st.util[bowlIdx b]? = some false)
    (h5 : m = (switch_kind_to st m).1.mouseTurn) :
    any_before_eating_eval st b m =
      Eval.granted { (switch_kind_to st m).1 with
                       util := st.util.set (bowlIdx b) true,
                       slotsUsed := st.slotsUsed + 1,
                       slotsLeft := st.totalBowls - 1,
                       numMouseWaiting := st.numMouseWaiting - (if m then 1 else 0),
                       numCatWaiting := st.numCatWaiting - (if m then 0 else 1) }
        [(switch_kind_to st m).2] := by
  have h3n : ¬ st.totalBowls ≤ 0 := by omega
  have h3p : 0 < (switch_kind_to st m).1.slotsLeft := by simpa using h3
  simp [any_before_eating_eval, loop_idle st b m h1 h2, h4, h3n,
    commit_ok (switch_kind_to st m).1 b m h5 h3p (by simpa using h4)]

theorem after_ok_spec (st : Arbiter) (b : Nat) (m : Bool) (st1 : Arbiter) (bc : List Chan)
    (h : any_after_eating st b m = Res.ok (st1, bc)) :
    m = st.mouseTurn ∧ 0 < st.slotsUsed ∧ st.util[bowlIdx b]? = some true ∧
    st1.util = st.util.set (bowlIdx b) false ∧
    st1.slotsUsed = st.slotsUsed - 1 ∧
    st1.totalBowls = st.totalBowls ∧
    st1.numCatWaiting = st.numCatWaiting ∧
    st1.numMouseWaiting = st.numMouseWaiting ∧
    ((st.slotsUsed - 1 ≠ 0 ∧ st1.mouseTurn = st.mouseTurn ∧ st1.slotsLeft = st.slotsLeft ∧
        bc = []) ∨
     (st.slotsUsed - 1 = 0 ∧ st1.slotsLeft = st.totalBowls ∧
        st1.mouseTurn = (switch_kind_to st (!m)).1.mouseTurn ∧
        bc = [(switch_kind_to st (!m)).2])) := by
  by_cases h1 : m = st.mouseTurn
  swap
  · simp [any_after_eating, h1] at h
  by_cases h2 : 0 < st.slotsUsed
  swap
  · simp [any_after_eating, h1, h2] at h
  cases hu : st.util[bowlIdx b]? with
  | none => simp [any_after_eating, h1, h2, hu] at h
  | some u =>
    cases u
    · simp [any_after_eating, h1, h2, hu] at h
    · by_cases h3 : st.slotsUsed - 1 = 0
      · simp [any_after_eating, h1, h2, hu, h3] at h
        obtain ⟨rfl, rfl⟩ := h
        simp [h1, h2, h3, switch_kind_to]
      · simp [any_after_eating, h1, h2, hu, h3] at h
        obtain ⟨rfl, rfl⟩ := h
        simp [h1, h2, h3]

/-! ## Bookkeeping lemmas on actors and on the bowl index -/

theorem bowlIdx_of_lt (b n : Nat) (hb : b < 4294967296) (hn : n ≤ 2147483647)
    (h : bowlIdx b < n) : 1 ≤ b ∧ b ≤ n ∧ bowlIdx b + 1 = b := by
  unfold bowlIdx at *
  omega

theorem bowlIdx_of_range (b : Nat) (h1 : 1 ≤ b) (h2 : b ≤ 2147483647) :
    bowlIdx b + 1 = b := by
  unfold bowlIdx
  omega

theorem classCount_cons (m : Bool) (a : Nat × Bool) (l : List (Nat × Bool)) :
    classCount m (a :: l) = classCount m l + (if a.2 = m then 1 else 0) := by
  unfold classCount
  by_cases h : a.2 = m <;> simp [List.filter_cons, h]

theorem classCount_erase_same (b : Nat) (m : Bool) (l : List (Nat × Bool))
    (h : (b, m) ∈ l) : classCount m (l.erase (b, m)) + 1 = classCount m l := by
  induction l with
  | nil => simp at h
  | cons a l ih =>
    by_cases ha : a = (b, m)
    · subst ha
      simp [classCount_cons]
    · have hm : (b, m) ∈ l := by
        rcases List.mem_cons.1 h with h1 | h1
        · exact absurd h1.symm ha
        · exact h1
      rw [List.erase_cons_tail (by simpa using ha), classCount_cons, classCount_cons]
      have := ih hm
      omega

theorem classCount_erase_other (b : Nat) (m m1 : Bool) (l : List (Nat × Bool))
    (hne : m1 ≠ m) : classCount m1 (l.erase (b, m)) = classCount m1 l := by
  induction l with
  | nil => simp
  | cons a l ih =>
    by_cases ha : a = (b, m)
    · subst ha
      simp [classCount_cons, Ne.symm hne]
    · rw [List.erase_cons_tail (by simpa using ha), classCount_cons, classCount_cons, ih]

theorem mem_fst_erase (b : Nat) (m : Bool) (l : List (Nat × Bool))
    (hnd : (l.map Prod.fst).Nodup) (h : (b, m) ∈ l) (x : Nat) :
    x ∈ (l.erase (b, m)).map Prod.fst ↔ x ∈ l.map Prod.fst ∧ x ≠ b := by
  induction l with
  | nil => simp at h
  | cons a l ih =>
    simp only [List.map_cons, List.nodup_cons] at hnd
    by_cases ha : a = (b, m)
    · subst ha
      simp only [List.erase_cons_head, List.map_cons, List.mem_cons]
      constructor
      · intro hx
        refine ⟨Or.inr hx, ?_⟩
        rintro rfl
        exact hnd.1 hx
      · rintro ⟨hx | hx, hne⟩
        · exact absurd hx hne
        · exact hx
    · have hm : (b, m) ∈ l := by
        rcases List.mem_cons.1 h with h1 | h1
        · exact absurd h1.symm ha
        · exact h1
      have hab : a.1 ≠ b := by
        intro hab
        apply hnd.1
        rw [hab]
        exact List.mem_map.2 ⟨(b, m), hm, rfl⟩
      rw [List.erase_cons_tail (by simpa using ha)]
      simp only [List.map_cons, List.mem_cons, ih hnd.2 hm]
      constructor
      · rintro (hx | ⟨hx, hne⟩)
        · exact ⟨Or.inl hx, by rw [hx]; exact hab⟩
        · exact ⟨Or.inr hx, hne⟩
      · rintro ⟨hx | hx, hne⟩
        · exact Or.inl hx
        · exact Or.inr ⟨hx, hne⟩

/-! ## The invariant is kept by every lock-held section -/

theorem inv_init (N : Int) (h1 : 1 ≤ N) (h2 : N ≤ INT_MAX) : Inv N (initSys N) := by
  refine ⟨h1, h2, rfl, ?_, rfl, ?_, ?_, ?_, ?_, ?_, ?_, ?_, ?_, rfl, rfl, ?_⟩
  · simp [initSys, catmouse_sync_init]; omega
  · simp [initSys, catmouse_sync_init, List.count_replicate]
  · simp [initSys]
  · simp [initSys]
  · intro i
    simp [initSys, catmouse_sync_init, List.getElem?_replicate]
  · simp [initSys]
  · simp [initSys, catmouse_sync_init]; omega
  · simp [initSys, catmouse_sync_init, boot]
  · simp [initSys, catmouse_sync_init]
  · simp [initSys]

theorem inv_len_bound (N : Int) (s : Sys) (hI : Inv N s) :
    s.arb.util.length ≤ 2147483647 := by
  have h1 := hI.len
  have h2 := hI.n_max
  unfold INT_MAX at h2
  omega

theorem inv_grant (N : Int) (s : Sys) (hI : Inv N s) (st st1 : Arbiter) (b : Nat) (m : Bool)
    (bc : List Chan) (bl : List (Nat × Bool)) (hb : b < 4294967296)
    (e1 : st.totalBowls = s.arb.totalBowls) (e2 : st.mouseTurn = s.arb.mouseTurn)
    (e3 : st.slotsLeft = s.arb.slotsLeft) (e4 : st.slotsUsed = s.arb.slotsUsed)
    (e5 : st.util = s.arb.util)
    (hg : any_before_eating_eval st b m = Eval.granted st1 bc)
    (hc : st.numCatWaiting - (if m then 0 else 1) = classCount false bl)
    (hm : st.numMouseWaiting - (if m then 1 else 0) = classCount true bl)
    (hbr : ∀ h ∈ bl, 1 ≤ h.1 ∧ (h.1 : Int) ≤ N) :
    Inv N { arb := st1, feeding := (b, m) :: s.feeding, blocked := bl } := by
  obtain ⟨g1, g2, g3, g4, g5, g6, g7, g8⟩ := eval_granted_spec st b m st1 bc hg
  rw [e5] at g3 g4
  rw [e4] at g5
  rw [e1, e2, e3, e4] at g6
  obtain ⟨hlt, hget⟩ := List.getElem?_eq_some.1 g3
  obtain ⟨hb1, hb2, hb3⟩ := bowlIdx_of_lt b _ hb (inv_len_bound N s hI) hlt
  have hlen := hI.len
  have hused := hI.used
  have hnot : b ∉ s.feeding.map Prod.fst := by
    intro hmem
    rw [← hb3] at hmem
    have := (hI.occ (bowlIdx b)).2 hmem
    rw [g3] at this
    simp at this
  refine ⟨hI.n_pos, hI.n_max, ?_, ?_, ?_, ?_, ?_, ?_, ?_, ?_, ?_, ?_, ?_, ?_, ?_, hbr⟩
  · simp only [g2, e1, hI.total]
  · simp only [g4, List.length_set]; exact hlen
  · simp only [g5, List.length_cons, hused]; push_cast; ring
  · simp only [g4, List.length_cons]
    rw [List.count_set _ _ _ _ hlt, hget, hI.cnt]
    simp
  · simp only [List.map_cons, List.nodup_cons]
    exact ⟨hnot, hI.nodup⟩
  · intro h hh
    rcases List.mem_cons.1 hh with rfl | hh
    · exact ⟨hb1, by simp only; omega⟩
    · exact hI.range h hh
  · intro i
    simp only [g4, List.map_cons, List.mem_cons, List.getElem?_set]
    by_cases hi : bowlIdx b = i
    · subst hi
      simp [hlt, hb3]
    · have hne : ¬ i + 1 = b := by omega
      simp only [hi, if_false, hne, false_or]
      exact hI.occ i
  · intro h hh
    simp only [g1]
    rcases List.mem_cons.1 hh with rfl | hh
    · rfl
    · rcases g6 with ⟨h6, -⟩ | ⟨-, h6, -⟩
      · rw [h6]; exact hI.cls h hh
      · rw [hused] at h6
        have : s.feeding.length = 0 := by exact_mod_cast h6
        rw [List.length_eq_zero] at this
        rw [this] at hh
        simp at hh
  · simp only
    rcases g6 with ⟨-, h6, h7, -⟩ | ⟨-, -, h6, h7, -⟩ <;> omega
  · simp only [g5]
    have hq := hI.quota
    have ht := hI.total
    rcases g6 with ⟨-, h6, h7, -⟩ | ⟨-, h0, h6, h7, -⟩ <;> omega
  · simp only [g5]
    intro h0
    omega
  · simp only [g8]; exact hc
  · simp only [g7]; exact hm

theorem inv_suspend (N : Int) (s : Sys) (hI : Inv N s) (st st1 : Arbiter) (b : Nat)
    (m : Bool) (bc : List Chan) (bl : List (Nat × Bool))
    (e1 : st.totalBowls = s.arb.totalBowls) (e2 : st.mouseTurn = s.arb.mouseTurn)
    (e3 : st.slotsLeft = s.arb.slotsLeft) (e4 : st.slotsUsed = s.arb.slotsUsed)
    (e5 : st.util = s.arb.util)
    (hg : any_before_eating_eval st b m = Eval.suspended st1 bc)
    (hc : st.numCatWaiting = classCount false bl)
    (hm : st.numMouseWaiting = classCount true bl)
    (hbr : ∀ h ∈ bl, 1 ≤ h.1 ∧ (h.1 : Int) ≤ N) :
    Inv N { arb := st1, feeding := s.feeding, blocked := bl } := by
  obtain ⟨-, g⟩ := eval_suspended_spec st b m st1 bc hg
  have hused := hI.used
  rcases g with ⟨rfl, -⟩ | ⟨-, h0, rfl, -⟩
  · refine ⟨hI.n_pos, hI.n_max, ?_, ?_, ?_, ?_, hI.nodup, hI.range, ?_, ?_, ?_, ?_, ?_, hc, hm,
      hbr⟩
    · simp only [e1, hI.total]
    · simp only [e5]; exact hI.len
    · simp only [e4]; exact hI.used
    · simp only [e5]; exact hI.cnt
    · simp only [e5]; exact hI.occ
    · simp only [e2]; exact hI.cls
    · simp only [e3]; exact hI.left_nonneg
    · simp only [e3, e4]; exact hI.quota
    · simp only [e3, e4]; exact hI.idle
  · have hnil : s.feeding = [] := by
      rw [e4, hused] at h0
      have : s.feeding.length = 0 := by exact_mod_cast h0
      exact List.length_eq_zero.1 this
    have hp := hI.n_pos
    refine ⟨hI.n_pos, hI.n_max, ?_, ?_, ?_, ?_, hI.nodup, hI.range, ?_, ?_, ?_, ?_, ?_, ?_, ?_,
      hbr⟩
    · simp only [switch_totalBowls, e1, hI.total]
    · simp only [switch_util, e5]; exact hI.len
    · simp only [switch_slotsUsed, e4]; exact hI.used
    · simp only [switch_util, e5]; exact hI.cnt
    · simp only [switch_util, e5]; exact hI.occ
    · intro h hh
      rw [hnil] at hh
      simp at hh
    · simp only [switch_slotsLeft, e1, hI.total]; omega
    · simp only [switch_slotsLeft, switch_slotsUsed, e1, hI.total, h0]; omega
    · intro _
      simp only [switch_slotsLeft, e1, hI.total]
    · simp only [switch_numCatWaiting]; exact hc
    · simp only [switch_numMouseWaiting]; exact hm

theorem inv_leave (N : Int) (s : Sys) (hI : Inv N s) (st1 : Arbiter) (b : Nat) (m : Bool)
    (bc : List Chan) (hmem : (b, m) ∈ s.feeding)
    (hg : any_after_eating s.arb b m = Res.ok (st1, bc)) :
    Inv N { arb := st1, feeding := s.feeding.erase (b, m), blocked := s.blocked } := by
  obtain ⟨g1, g2, g3, g4, g5, g6, g7, g8, g9⟩ := after_ok_spec s.arb b m st1 bc hg
  obtain ⟨hlt, hget⟩ := List.getElem?_eq_some.1 g3
  obtain ⟨hr1, hr2⟩ := hI.range (b, m) hmem
  have hmax := hI.n_max
  have hlen := hI.len
  have hused := hI.used
  have hb3 : bowlIdx b + 1 = b := by
    apply bowlIdx_of_range b hr1
    unfold INT_MAX at hmax
    simp only at hr2
    omega
  have hpos : 0 < s.feeding.length := List.length_pos_of_mem hmem
  refine ⟨hI.n_pos, hI.n_max, ?_, ?_, ?_, ?_, ?_, ?_, ?_, ?_, ?_, ?_, ?_, ?_, ?_, hI.brange⟩
  · simp only [g6, hI.total]
  · simp only [g4, List.length_set]; exact hlen
  · simp only [g5, List.length_erase_of_mem hmem, hused]
    omega
  · simp only [g4, List.length_erase_of_mem hmem]
    rw [List.count_set _ _ _ _ hlt, hget, hI.cnt]
    simp
  · exact List.Nodup.sublist ((List.erase_sublist (b, m) s.feeding).map Prod.fst) hI.nodup
  · intro h hh
    exact hI.range h (List.mem_of_mem_erase hh)
  · intro i
    simp only [g4, List.getElem?_set, mem_fst_erase b m s.feeding hI.nodup hmem]
    by_cases hi : bowlIdx b = i
    · subst hi
      simp [hlt, hb3]
    · have hne : i + 1 ≠ b := by omega
      simp only [hi, if_false, hne, ne_eq, not_false_eq_true, and_true]
      exact hI.occ i
  · intro h hh
    have hcl := hI.cls h (List.mem_of_mem_erase hh)
    rcases g9 with ⟨-, h9, -⟩ | ⟨h0, -⟩
    · simp only [h9]; exact hcl
    · exfalso
      have h1 : s.feeding.length = 1 := by omega
      have h2 : (s.feeding.erase (b, m)).length = 0 := by
        rw [List.length_erase_of_mem hmem, h1]
      rw [List.length_eq_zero] at h2
      rw [h2] at hh
      simp at hh
  · simp only
    have := hI.left_nonneg
    have := hI.total
    have := hI.n_pos
    rcases g9 with ⟨-, -, h9, -⟩ | ⟨-, h9, -⟩ <;> omega
  · simp only [g5]
    have := hI.quota
    have := hI.total
    rcases g9 with ⟨-, -, h9, -⟩ | ⟨h0, h9, -⟩ <;> omega
  · simp only [g5]
    intro h0
    have := hI.total
    rcases g9 with ⟨h9, -⟩ | ⟨-, h9, -⟩
    · exact absurd h0 h9
    · omega
  · simp only [g7]; exact hI.cats
  · simp only [g8]; exact hI.mice

theorem arrive_fields (st : Arbiter) (m : Bool) :
    (any_before_eating_arrive st m).totalBowls = st.totalBowls ∧
    (any_before_eating_arrive st m).mouseTurn = st.mouseTurn ∧
    (any_before_eating_arrive st m).slotsLeft = st.slotsLeft ∧
    (any_before_eating_arrive st m).slotsUsed = st.slotsUsed ∧
    (any_before_eating_arrive st m).util = st.util ∧
    (any_before_eating_arrive st m).numCatWaiting = st.numCatWaiting + (if m then 0 else 1) ∧
    (any_before_eating_arrive st m).numMouseWaiting =
      st.numMouseWaiting + (if m then 1 else 0) := by
  cases m <;> simp [any_before_eating_arrive]

theorem inv_step (N : Int) (s s1 : Sys) (l : Label) (hI : Inv N s)
    (h : sysStep s l = some s1) : Inv N s1 := by
  cases l with
  | arrive b m =>
    obtain ⟨a1, a2, a3, a4, a5, a6, a7⟩ := arrive_fields s.arb m
    by_cases hb : b < 4294967296
    swap
    · simp [sysStep, hb] at h
    simp only [sysStep, hb, if_true, any_before_eating] at h
    cases he : any_before_eating_eval (any_before_eating_arrive s.arb m) b m with
    | granted st bc =>
      rw [he] at h
      simp only [Option.some.injEq] at h
      subst h
      refine inv_grant N s hI _ st b m bc s.blocked hb a1 a2 a3 a4 a5 he ?_ ?_ hI.brange
      · rw [a6, ← hI.cats]; ring
      · rw [a7, ← hI.mice]; ring
    | suspended st bc =>
      rw [he] at h
      simp only [Option.some.injEq] at h
      subst h
      obtain ⟨⟨u, hu⟩, -⟩ := eval_suspended_spec _ b m st bc he
      rw [a5] at hu
      obtain ⟨hlt, -⟩ := List.getElem?_eq_some.1 hu
      obtain ⟨hb1, hb2, -⟩ := bowlIdx_of_lt b _ hb (inv_len_bound N s hI) hlt
      have hlen := hI.len
      refine inv_suspend N s hI _ st b m bc ((b, m) :: s.blocked) a1 a2 a3 a4 a5 he ?_ ?_ ?_
      · rw [a6, classCount_cons, hI.cats]
        cases m <;> simp
      · rw [a7, classCount_cons, hI.mice]
        cases m <;> simp
      · intro x hx
        rcases List.mem_cons.1 hx with rfl | hx
        · exact ⟨hb1, by simp only; omega⟩
        · exact hI.brange x hx
    | fault f st =>
      rw [he] at h
      simp at h
  | recheck b m =>
    by_cases hmem : (b, m) ∈ s.blocked
    swap
    · simp [sysStep, hmem] at h
    obtain ⟨hr1, hr2⟩ := hI.brange (b, m) hmem
    have hmax := hI.n_max
    have hb : b < 4294967296 := by
      unfold INT_MAX at hmax
      simp only at hr2
      omega
    simp only [sysStep, hmem, if_true] at h
    cases he : any_before_eating_eval s.arb b m with
    | granted st bc =>
      rw [he] at h
      simp only [Option.some.injEq] at h
      subst h
      refine inv_grant N s hI _ st b m bc (s.blocked.erase (b, m)) hb rfl rfl rfl rfl rfl he
        ?_ ?_ ?_
      · cases m
        · have := classCount_erase_same b false s.blocked hmem
          rw [hI.cats]
          simp only [Bool.false_eq_true, if_false]
          omega
        · rw [classCount_erase_other b true false s.blocked (by decide), hI.cats]
          simp
      · cases m
        · rw [classCount_erase_other b false true s.blocked (by decide), hI.mice]
          simp
        · have := classCount_erase_same b true s.blocked hmem
          rw [hI.mice]
          simp only [if_true]
          omega
      · intro x hx
        exact hI.brange x (List.mem_of_mem_erase hx)
    | suspended st bc =>
      rw [he] at h
      simp only [Option.some.injEq] at h
      subst h
      exact inv_suspend N s hI _ st b m bc s.blocked rfl rfl rfl rfl rfl he hI.cats hI.mice
        hI.brange
    | fault f st =>
      rw [he] at h
      simp at h
  | leave b m =>
    by_cases hmem : (b, m) ∈ s.feeding
    swap
    · simp [sysStep, hmem] at h
    simp only [sysStep, hmem, if_true] at h
    cases he : any_after_eating s.arb b m with
    | ok p =>
      obtain ⟨st, bc⟩ := p
      rw [he] at h
      simp only [Option.some.injEq] at h
      subst h
      exact inv_leave N s hI st b m bc hmem he
    | fault f st =>
      rw [he] at h
      simp at h

theorem inv_reachable (N : Int) (s : Sys) (h : Reachable N s) : Inv N s := by
  induction h with
  | init h1 h2 => exact inv_init N h1 h2
  | step s l s1 _ hs ih => exact inv_step N s s1 l ih hs

/-! ## Further facts on single evaluations -/

theorem switch_turn (st : Arbiter) (P : Bool) :
    (switch_kind_to st P).1.mouseTurn = (if 0 < waiting st P then P else !P) := by
  cases P
  · by_cases h : 0 < st.numCatWaiting <;> simp [switch_kind_to, waiting, h]
  · by_cases h : 0 < st.numMouseWaiting <;> simp [switch_kind_to, waiting, h]

theorem switch_chan (st : Arbiter) (P : Bool) :
    (switch_kind_to st P).2 = chanOf (switch_kind_to st P).1.mouseTurn := by
  cases P
  · by_cases h : 0 < st.numCatWaiting <;> simp [switch_kind_to, chanOf, h]
  · by_cases h : 0 < st.numMouseWaiting <;> simp [switch_kind_to, chanOf, h]

theorem eval_fault_spec (st : Arbiter) (b : Nat) (m : Bool) (f : Fault) (st1 : Arbiter)
    (h : any_before_eating_eval st b m = Eval.fault f st1) :
    st1 = st ∨ (m ≠ st.mouseTurn ∧ st.slotsUsed = 0 ∧ st1 = (switch_kind_to st m).1) := by
  by_cases h1 : m = st.mouseTurn
  · cases hu : st.util[bowlIdx b]? with
    | none =>
      simp [any_before_eating_eval, loop_same st b m h1, hu] at h
      exact Or.inl h.2.symm
    | some u =>
      by_cases h2 : st.slotsLeft ≤ 0
      · simp [any_before_eating_eval, loop_same st b m h1, hu, h2] at h
      · cases u
        · have h2p : 0 < st.slotsLeft := by omega
          simp [any_before_eating_eval, loop_same st b m h1, hu, h2,
            commit_ok st b m h1 h2p hu] at h
        · simp [any_before_eating_eval, loop_same st b m h1, hu, h2] at h
  · by_cases h2 : st.slotsUsed = 0
    · right
      refine ⟨h1, h2, ?_⟩
      cases hu : st.util[bowlIdx b]? with
      | none =>
        simp [any_before_eating_eval, loop_idle st b m h1 h2, hu] at h
        exact h.2.symm
      | some u =>
        by_cases h3 : st.totalBowls ≤ 0
        · simp [any_before_eating_eval, loop_idle st b m h1 h2, hu, h3] at h
        · cases u
          · have h3p : 0 < (switch_kind_to st m).1.slotsLeft := by simp; omega
            by_cases h4 : m = (switch_kind_to st m).1.mouseTurn
            · simp [any_before_eating_eval, loop_idle st b m h1 h2, hu, h3,
                commit_ok (switch_kind_to st m).1 b m h4 h3p (by simpa using hu)] at h
            · simp [any_before_eating_eval, loop_idle st b m h1 h2, hu, h3,
                commit_bad_turn _ b m h4] at h
              exact h.2.symm
          · simp [any_before_eating_eval, loop_idle st b m h1 h2, hu, h3] at h
    · left
      cases hu : st.util[bowlIdx b]? with
      | none =>
        simp [any_before_eating_eval, loop_busy st b m h1 h2, hu] at h
        exact h.2.symm
      | some u => simp [any_before_eating_eval, loop_busy st b m h1 h2, hu] at h

theorem eval_turn_of_busy (st : Arbiter) (b : Nat) (m : Bool) (h : st.slotsUsed ≠ 0) :
    (any_before_eating_eval st b m).state.mouseTurn = st.mouseTurn := by
  cases he : any_before_eating_eval st b m with
  | granted st1 bc =>
    obtain ⟨g1, -, -, -, -, g6, -⟩ := eval_granted_spec st b m st1 bc he
    simp only [Eval.state, g1]
    rcases g6 with ⟨h6, -⟩ | ⟨-, h6, -⟩
    · exact h6
    · exact absurd h6 h
  | suspended st1 bc =>
    obtain ⟨-, g⟩ := eval_suspended_spec st b m st1 bc he
    simp only [Eval.state]
    rcases g with ⟨rfl, -⟩ | ⟨-, h6, -⟩
    · rfl
    · exact absurd h6 h
  | fault f st1 =>
    simp only [Eval.state]
    rcases eval_fault_spec st b m f st1 he with rfl | ⟨-, h6, -⟩
    · rfl
    · exact absurd h6 h

theorem after_fault_spec (st : Arbiter) (b : Nat) (m : Bool) (f : Fault) (st1 : Arbiter)
    (h : any_after_eating st b m = Res.fault f st1) :
    st1 = st ∧
    ((f = Fault.kassert 188 ∧ m ≠ st.mouseTurn) ∨
     (f = Fault.kassert 189 ∧ m = st.mouseTurn ∧ st.slotsUsed ≤ 0) ∨
     (f = Fault.outOfBounds ∧ m = st.mouseTurn ∧ 0 < st.slotsUsed ∧
        st.util[bowlIdx b]? = none) ∨
     (f = Fault.kassert 190 ∧ m = st.mouseTurn ∧ 0 < st.slotsUsed ∧
        st.util[bowlIdx b]? = some false)) := by
  by_cases h1 : m = st.mouseTurn
  swap
  · simp [any_after_eating, h1] at h
    simp [← h.1, ← h.2, h1]
  by_cases h2 : 0 < st.slotsUsed
  swap
  · simp [any_after_eating, h1, h2] at h
    have : st.slotsUsed ≤ 0 := by omega
    simp [← h.1, ← h.2, h1, this]
  cases hu : st.util[bowlIdx b]? with
  | none =>
    simp [any_after_eating, h1, h2, hu] at h
    simp [← h.1, ← h.2, h1, h2]
  | some u =>
    cases u
    · simp [any_after_eating, h1, h2, hu] at h
      simp [← h.1, ← h.2, h1, h2]
    · exfalso
      simp [any_after_eating, h1, h2, hu] at h
      split at h <;> simp at h

theorem classCount_pos_of_mem (b : Nat) (m : Bool) (l : List (Nat × Bool))
    (h : (b, m) ∈ l) : 1 ≤ classCount m l := by
  have := classCount_erase_same b m l h
  omega

/-- The admission rule the code implements, for an evaluation on statics `st`
whose caller is already counted in its class's waiting count. -/
theorem eval_granted_of_admissible (N : Int) (s : Sys) (hI : Inv N s) (st : Arbiter)
    (b : Nat) (m : Bool)
    (e1 : st.totalBowls = s.arb.totalBowls) (e2 : st.mouseTurn = s.arb.mouseTurn)
    (e3 : st.slotsLeft = s.arb.slotsLeft) (e4 : st.slotsUsed = s.arb.slotsUsed)
    (e5 : st.util = s.arb.util) (hw : 0 < waiting st m)
    (hc : m = s.arb.mouseTurn ∨ s.arb.slotsUsed = 0) (hq : 0 < s.arb.slotsLeft)
    (hf : s.arb.util[bowlIdx b]? = some false) :
    ∃ st1 bc, any_before_eating_eval st b m = Eval.granted st1 bc := by
  by_cases h1 : m = st.mouseTurn
  · exact ⟨_, _, eval_grant_same st b m h1 (by rw [e3]; exact hq) (by rw [e5]; exact hf)⟩
  · have h0 : st.slotsUsed = 0 := by
      rcases hc with hc | hc
      · exact absurd (hc.trans e2.symm) h1
      · rw [e4]; exact hc
    have hN : 0 < st.totalBowls := by
      rw [e1, hI.total]
      have := hI.n_pos
      omega
    have h5 : m = (switch_kind_to st m).1.mouseTurn := by
      cases m
      · rw [switch_turn_cat]
        simp only [waiting, Bool.false_eq_true, if_false] at hw
        simp [hw]
      · rw [switch_turn_mouse]
        simp only [waiting, if_true] at hw
        simp [hw]
    exact ⟨_, _, eval_grant_idle st b m h1 h0 hN (by rw [e5]; exact hf) h5⟩

theorem waiting_arrive_pos (N : Int) (s : Sys) (hI : Inv N s) (m : Bool) :
    0 < waiting (any_before_eating_arrive s.arb m) m := by
  have hc := hI.cats
  have hm := hI.mice
  cases m <;> simp [waiting, any_before_eating_arrive] <;> omega

theorem waiting_blocked_pos (N : Int) (s : Sys) (hI : Inv N s) (b : Nat) (m : Bool)
    (hmem : (b, m) ∈ s.blocked) : 0 < waiting s.arb m := by
  have hc := hI.cats
  have hm := hI.mice
  have := classCount_pos_of_mem b m s.blocked hmem
  cases m <;> simp [waiting] <;> omega

/-! ## Concrete schedules -/

theorem reachable_of_run (N : Int) (ls : List Label) :
    ∀ (s0 s : Sys), Reachable N s0 → run s0 ls = some s → Reachable N s := by
  induction ls with
  | nil =>
    intro s0 s h0 h
    simp only [run, Option.some.injEq] at h
    exact h ▸ h0
  | cons l ls ih =>
    intro s0 s h0 h
    simp only [run] at h
    cases hs : sysStep s0 l with
    | none => rw [hs] at h; simp at h
    | some s1 =>
      rw [hs] at h
      exact ih s1 s (Reachable.step s0 l s1 h0 hs) h

theorem afterScenarioB_reachable : Reachable 2 afterScenarioB :=
  reachable_of_run 2 scenarioB (initSys 2) afterScenarioB
    (Reachable.init (by decide) (by decide)) (by decide)

theorem quotaSpent_reachable : Reachable 2 quotaSpent :=
  reachable_of_run 2 quotaSchedule (initSys 2) quotaSpent
    (Reachable.init (by decide) (by decide)) (by decide)

theorem afterScenarioA_reachable : Reachable 1 afterScenarioA :=
  reachable_of_run 1 scenarioA (initSys 1) afterScenarioA
    (Reachable.init (by decide) (by decide)) (by decide)

/-! ## The contract -/

/-- C1 (cross-class exclusion): in every state reachable from
`catmouse_sync_init(N)`, `1 ≤ N`, by lock-held sections of `any_before_eating`
and by `any_after_eating` calls of actual holders, every actor that holds a
bowl has the class of the current turn `mouseTurn`; hence all holders have the
same class, and no cat and mouse hold bowls at the same time. -/
theorem cross_class_exclusion (N : Int) (s : Sys) (h : Reachable N s) :
    (∀ a ∈ s.feeding, a.2 = s.arb.mouseTurn) ∧
    (∀ a ∈ s.feeding, ∀ c ∈ s.feeding, a.2 = c.2) ∧
    ¬ (∃ a ∈ s.feeding, ∃ c ∈ s.feeding, a.2 = false ∧ c.2 = true) := by
  have hI := inv_reachable N s h
  refine ⟨hI.cls, ?_, ?_⟩
  · intro a ha c hc
    rw [hI.cls a ha, hI.cls c hc]
  · rintro ⟨a, ha, c, hc, h1, h2⟩
    rw [hI.cls a ha] at h1
    rw [hI.cls c hc, h1] at h2
    exact Bool.noConfusion h2

/-- Witness of C1: the state after scenario B. -/
theorem cross_class_exclusion_witness :
    Reachable 2 afterScenarioB ∧
    (∀ a ∈ afterScenarioB.feeding, a.2 = afterScenarioB.arb.mouseTurn) ∧
    (∀ a ∈ afterScenarioB.feeding, ∀ c ∈ afterScenarioB.feeding, a.2 = c.2) ∧
    ¬ (∃ a ∈ afterScenarioB.feeding, ∃ c ∈ afterScenarioB.feeding,
        a.2 = false ∧ c.2 = true) :=
  ⟨afterScenarioB_reachable, cross_class_exclusion 2 afterScenarioB afterScenarioB_reachable⟩

/-- C2 (station exclusivity): in every reachable state each bowl has at most
one holder and the occupancy flag of every held bowl is set; no evaluation of
`any_before_eating` (first or repeated) is granted for a bowl whose flag
`util[bowl-1]` is set; and a holder keeps its bowl, flag set, across every
lock-held section other than its own `any_after_eating`. -/
theorem station_exclusivity (N : Int) (s : Sys) (h : Reachable N s) :
    (∀ b : Nat, (s.feeding.map Prod.fst).count b ≤ 1) ∧
    (∀ a ∈ s.feeding, 1 ≤ a.1 ∧ (a.1 : Int) ≤ N ∧ s.arb.util[bowlIdx a.1]? = some true) ∧
    (∀ (b : Nat) (m : Bool) (st : Arbiter) (bc : List Chan),
      (any_before_eating s.arb b m = Eval.granted st bc ∨
       any_before_eating_eval s.arb b m = Eval.granted st bc) →
      s.arb.util[bowlIdx b]? = some false) ∧
    (∀ (l : Label) (s1 : Sys), sysStep s l = some s1 →
      ∀ a ∈ s.feeding, l ≠ Label.leave a.1 a.2 →
        a ∈ s1.feeding ∧ s1.arb.util[bowlIdx a.1]? = some true) := by
  have key : ∀ t : Sys, Inv N t → ∀ a ∈ t.feeding,
      1 ≤ a.1 ∧ (a.1 : Int) ≤ N ∧ t.arb.util[bowlIdx a.1]? = some true := by
    intro t hI a ha
    obtain ⟨h1, h2⟩ := hI.range a ha
    have hmax := hI.n_max
    have hb3 : bowlIdx a.1 + 1 = a.1 := by
      apply bowlIdx_of_range a.1 h1
      unfold INT_MAX at hmax
      omega
    refine ⟨h1, h2, (hI.occ (bowlIdx a.1)).2 ?_⟩
    rw [hb3]
    exact List.mem_map.2 ⟨a, ha, rfl⟩
  have hI := inv_reachable N s h
  refine ⟨?_, key s hI, ?_, ?_⟩
  · intro b
    exact List.nodup_iff_count_le_one.1 hI.nodup b
  · intro b m st bc hg
    rcases hg with hg | hg
    · have := (eval_granted_spec _ b m st bc hg).2.2.1
      rwa [(arrive_fields s.arb m).2.2.2.2.1] at this
    · exact (eval_granted_spec _ b m st bc hg).2.2.1
  · intro l s1 hs a ha hne
    have hI1 := inv_step N s s1 l hI hs
    have hmem : a ∈ s1.feeding := by
      cases l with
      | arrive b m =>
        by_cases hb : b < 4294967296
        swap
        · simp [sysStep, hb] at hs
        simp only [sysStep, hb, if_true] at hs
        cases he : any_before_eating s.arb b m with
        | granted st bc =>
          rw [he] at hs
          simp only [Option.some.injEq] at hs
          subst hs
          exact List.mem_cons_of_mem _ ha
        | suspended st bc =>
          rw [he] at hs
          simp only [Option.some.injEq] at hs
          subst hs
          exact ha
        | fault f st => rw [he] at hs; simp at hs
      | recheck b m =>
        by_cases hb : (b, m) ∈ s.blocked
        swap
        · simp [sysStep, hb] at hs
        simp only [sysStep, hb, if_true] at hs
        cases he : any_before_eating_eval s.arb b m with
        | granted st bc =>
          rw [he] at hs
          simp only [Option.some.injEq] at hs
          subst hs
          exact List.mem_cons_of_mem _ ha
        | suspended st bc =>
          rw [he] at hs
          simp only [Option.some.injEq] at hs
          subst hs
          exact ha
        | fault f st => rw [he] at hs; simp at hs
      | leave b m =>
        by_cases hb : (b, m) ∈ s.feeding
        swap
        · simp [sysStep, hb] at hs
        simp only [sysStep, hb, if_true] at hs
        cases he : any_after_eating s.arb b m with
        | ok p =>
          rw [he] at hs
          simp only [Option.some.injEq] at hs
          subst hs
          have hab : a ≠ (b, m) := by
            intro hab
            apply hne
            rw [hab]
          exact (List.mem_erase_of_ne hab).2 ha
        | fault f st => rw [he] at hs; simp at hs
    exact ⟨hmem, (key s1 hI1 a hmem).2.2⟩

/-- Witness of C2: the state after scenario B. -/
theorem station_exclusivity_witness :
    Reachable 2 afterScenarioB ∧
    (∀ b : Nat, (afterScenarioB.feeding.map Prod.fst).count b ≤ 1) ∧
    (∀ a ∈ afterScenarioB.feeding,
      1 ≤ a.1 ∧ (a.1 : Int) ≤ 2 ∧ afterScenarioB.arb.util[bowlIdx a.1]? = some true) ∧
    (∀ (b : Nat) (m : Bool) (st : Arbiter) (bc : List Chan),
      (any_before_eating afterScenarioB.arb b m = Eval.granted st bc ∨
       any_before_eating_eval afterScenarioB.arb b m = Eval.granted st bc) →
      afterScenarioB.arb.util[bowlIdx b]? = some false) ∧
    (∀ (l : Label) (s1 : Sys), sysStep afterScenarioB l = some s1 →
      ∀ a ∈ afterScenarioB.feeding, l ≠ Label.leave a.1 a.2 →
        a ∈ s1.feeding ∧ s1.arb.util[bowlIdx a.1]? = some true) :=
  ⟨afterScenarioB_reachable, station_exclusivity 2 afterScenarioB afterScenarioB_reachable⟩

/-- C3 (capacity bound): in every state reachable from `catmouse_sync_init(N)`
the table `util` has `N` entries, `slotsUsed` is the number of entries that are
set, and `0 ≤ slotsUsed ≤ N`. -/
theorem capacity_bound (N : Int) (s : Sys) (h : Reachable N s) :
    (s.arb.util.length : Int) = N ∧
    s.arb.slotsUsed = s.arb.util.count true ∧
    0 ≤ s.arb.slotsUsed ∧ s.arb.slotsUsed ≤ N := by
  have hI := inv_reachable N s h
  have h1 := hI.used
  have h2 := hI.cnt
  have h3 := hI.len
  have h4 : s.arb.util.count true ≤ s.arb.util.length := List.count_le_length _ _
  refine ⟨h3, ?_, ?_, ?_⟩
  · rw [h1, h2]
  · omega
  · omega

/-- Witness of C3: the state in which one of two mice has left again. -/
theorem capacity_bound_witness :
    Reachable 2 quotaSpent ∧
    (quotaSpent.arb.util.length : Int) = 2 ∧
    quotaSpent.arb.slotsUsed = quotaSpent.arb.util.count true ∧
    0 ≤ quotaSpent.arb.slotsUsed ∧ quotaSpent.arb.slotsUsed ≤ 2 :=
  ⟨quotaSpent_reachable, capacity_bound 2 quotaSpent quotaSpent_reachable⟩

/-- C4, as the claim states it, fails: in the reachable state `quotaSpent`
(two bowls, one mouse feeding at bowl 2) a mouse asks for bowl 1; its class
holds the turn, `slotsUsed = 1 < 2` and bowl 1 is free, yet the call suspends,
because `slotsLeft` is 0. -/
theorem admission_capacity_counterexample :
    Reachable 2 quotaSpent ∧
    (true = quotaSpent.arb.mouseTurn ∨ quotaSpent.arb.slotsUsed = 0) ∧
    quotaSpent.arb.slotsUsed < 2 ∧
    quotaSpent.arb.util[bowlIdx 1]? = some false ∧
    any_before_eating quotaSpent.arb 1 true =
      Eval.suspended { totalBowls := 2, mouseTurn := true, slotsLeft := 0, slotsUsed := 1,
                       numCatWaiting := 0, numMouseWaiting := 1, util := [false, true] } [] :=
  ⟨quotaSpent_reachable, by decide, by decide, by decide, by decide⟩

/-- C4 amended: in every state reachable from `catmouse_sync_init(N)` and for
every bowl, an evaluation of the admission loop of `any_before_eating`, be it
the first one of a new caller or a repeated one of a blocked caller, is granted
without suspending whenever the class holds the turn or `slotsUsed` is 0, the
quota of the turn is not used up (`slotsLeft > 0`), and the bowl is free. -/
theorem admission_granted (N : Int) (s : Sys) (h : Reachable N s) (b : Nat) (m : Bool)
    (hc : m = s.arb.mouseTurn ∨ s.arb.slotsUsed = 0) (hq : 0 < s.arb.slotsLeft)
    (hf : s.arb.util[bowlIdx b]? = some false) :
    (∃ st bc, any_before_eating s.arb b m = Eval.granted st bc) ∧
    ((b, m) ∈ s.blocked → ∃ st bc, any_before_eating_eval s.arb b m = Eval.granted st bc) := by
  have hI := inv_reachable N s h
  obtain ⟨a1, a2, a3, a4, a5, -, -⟩ := arrive_fields s.arb m
  constructor
  · exact eval_granted_of_admissible N s hI _ b m a1 a2 a3 a4 a5
      (waiting_arrive_pos N s hI m) hc hq hf
  · intro hmem
    exact eval_granted_of_admissible N s hI _ b m rfl rfl rfl rfl rfl
      (waiting_blocked_pos N s hI b m hmem) hc hq hf

/-- Witness of amended C4: the end of scenario A, where the blocked cat and any
new cat are admitted to bowl 1. -/
theorem admission_granted_witness :
    Reachable 1 afterScenarioA ∧
    ((∃ st bc, any_before_eating afterScenarioA.arb 1 false = Eval.granted st bc) ∧
     ((1, false) ∈ afterScenarioA.blocked →
        ∃ st bc, any_before_eating_eval afterScenarioA.arb 1 false = Eval.granted st bc)) :=
  ⟨afterScenarioA_reachable,
   admission_granted 1 afterScenarioA afterScenarioA_reachable 1 false
     (Or.inl (by decide)) (by decide) (by decide)⟩

/-- C5 (hand-off): for every state and preferred class `P`, `switch_kind_to(P)`
sets the turn to `P` if `P` has waiters and to the other class otherwise,
broadcasts the condition variable of the resulting turn's class (it is the one
broadcast of the call), and leaves the occupancy table, `slotsUsed` and both
waiting counts as they were. -/
theorem handoff_spec (st : Arbiter) (P : Bool) :
    (switch_kind_to st P).1.mouseTurn = (if 0 < waiting st P then P else !P) ∧
    (switch_kind_to st P).2 = chanOf (switch_kind_to st P).1.mouseTurn ∧
    (switch_kind_to st P).1.util = st.util ∧
    (switch_kind_to st P).1.slotsUsed = st.slotsUsed ∧
    (switch_kind_to st P).1.numCatWaiting = st.numCatWaiting ∧
    (switch_kind_to st P).1.numMouseWaiting = st.numMouseWaiting :=
  ⟨switch_turn st P, switch_chan st P, rfl, rfl, rfl, rfl⟩

/-- C6 (effect of Exit): for every state in which `slotsUsed` counts the set
entries of `util`, the bowl is occupied and the class holds the turn,
`any_after_eating(bowl, class)` returns; it clears the flag of that bowl and of
no other, and decrements `slotsUsed` by one.  If `slotsUsed` becomes 0 the turn
goes to the other class when that class has a waiter and stays with the
leaving class otherwise, and the condition variable of the resulting turn's
class is broadcast; if `slotsUsed` stays positive the turn is unchanged and
nothing is broadcast. -/
theorem exit_effect (st : Arbiter) (b : Nat) (m : Bool)
    (hI1 : st.slotsUsed = st.util.count true)
    (hocc : st.util[bowlIdx b]? = some true) (hturn : m = st.mouseTurn) :
    ∃ st1 bc, any_after_eating st b m = Res.ok (st1, bc) ∧
      st1.util[bowlIdx b]? = some false ∧
      (∀ i, i ≠ bowlIdx b → st1.util[i]? = st.util[i]?) ∧
      st1.util.length = st.util.length ∧
      st1.slotsUsed = st.slotsUsed - 1 ∧
      (st1.slotsUsed = 0 →
        st1.mouseTurn = (if 0 < waiting st (!m) then !m else m) ∧
        bc = [chanOf st1.mouseTurn]) ∧
      (0 < st1.slotsUsed → st1.mouseTurn = st.mouseTurn ∧ bc = []) := by
  obtain ⟨hlt, hget⟩ := List.getElem?_eq_some.1 hocc
  have hmem : true ∈ st.util := List.getElem?_mem hocc
  have hpos : 0 < st.util.count true := List.count_pos_iff.2 hmem
  have hused : 0 < st.slotsUsed := by omega
  cases hr : any_after_eating st b m with
  | fault f st2 =>
    exfalso
    simp [any_after_eating, hturn, hused, hocc] at hr
    split at hr <;> simp at hr
  | ok p =>
    obtain ⟨st1, bc⟩ := p
    obtain ⟨-, -, -, g4, g5, -, g7, g8, g9⟩ := after_ok_spec st b m st1 bc hr
    refine ⟨st1, bc, rfl, ?_, ?_, ?_, g5, ?_, ?_⟩
    · rw [g4, List.getElem?_set]
      simp [hlt]
    · intro i hi
      rw [g4, List.getElem?_set]
      simp [Ne.symm hi]
    · rw [g4, List.length_set]
    · intro h0
      rcases g9 with ⟨h9, -⟩ | ⟨-, -, h9, h10⟩
      · omega
      · rw [h9, h10, switch_chan st (!m), switch_turn st (!m)]
        cases m <;> simp
    · intro h0
      rcases g9 with ⟨-, h9, -, h10⟩ | ⟨h9, -⟩
      · exact ⟨h9, h10⟩
      · omega

/-- Witness of C6: the mouse of scenario A leaves bowl 1 while the cat waits. -/
theorem exit_effect_witness :
    ∃ st1 bc, any_after_eating mouseFeeding.arb 1 true = Res.ok (st1, bc) ∧
      st1.util[bowlIdx 1]? = some false ∧
      (∀ i, i ≠ bowlIdx 1 → st1.util[i]? = mouseFeeding.arb.util[i]?) ∧
      st1.util.length = mouseFeeding.arb.util.length ∧
      st1.slotsUsed = mouseFeeding.arb.slotsUsed - 1 ∧
      (st1.slotsUsed = 0 →
        st1.mouseTurn = (if 0 < waiting mouseFeeding.arb (!true) then !true else true) ∧
        bc = [chanOf st1.mouseTurn]) ∧
      (0 < st1.slotsUsed → st1.mouseTurn = mouseFeeding.arb.mouseTurn ∧ bc = []) :=
  exit_effect mouseFeeding.arb 1 true (by decide) (by decide) (by decide)

/-- C7 (Exit protocol violation): for every state whose table has
`totalBowls = N` entries and whose `slotsUsed` is not negative, and every bowl
in `[1,N]`, `any_after_eating(bowl, class)` stops on a failed `KASSERT` if and
only if the class differs from the turn, or the bowl is not occupied, or
`slotsUsed` is 0; and whenever it stops, the statics are exactly what they
were before the call. -/
theorem exit_violation (st : Arbiter) (b : Nat) (m : Bool)
    (hlen : (st.util.length : Int) = st.totalBowls) (hmax : st.totalBowls ≤ INT_MAX)
    (hu : 0 ≤ st.slotsUsed) (hb1 : 1 ≤ b) (hb2 : (b : Int) ≤ st.totalBowls) :
    ((∃ line st1, any_after_eating st b m = Res.fault (Fault.kassert line) st1) ↔
      (m ≠ st.mouseTurn ∨ st.util[bowlIdx b]? = some false ∨ st.slotsUsed = 0)) ∧
    (∀ f st1, any_after_eating st b m = Res.fault f st1 →
      st1 = st ∧ ∃ line, f = Fault.kassert line) := by
  have hidx : bowlIdx b < st.util.length := by
    unfold INT_MAX at hmax
    unfold bowlIdx
    omega
  have hsome : st.util[bowlIdx b]? ≠ none := by
    rw [Ne, List.getElem?_eq_none_iff]
    omega
  constructor
  · constructor
    · rintro ⟨line, st1, hr⟩
      obtain ⟨-, hc⟩ := after_fault_spec st b m _ st1 hr
      rcases hc with ⟨-, h1⟩ | ⟨-, -, h1⟩ | ⟨h1, -⟩ | ⟨-, -, -, h1⟩
      · exact Or.inl h1
      · exact Or.inr (Or.inr (by omega))
      · exact Fault.noConfusion h1
      · exact Or.inr (Or.inl h1)
    · intro hc
      cases hr : any_after_eating st b m with
      | fault f st1 =>
        obtain ⟨-, hf⟩ := after_fault_spec st b m f st1 hr
        rcases hf with ⟨rfl, -⟩ | ⟨rfl, -⟩ | ⟨-, -, -, h1⟩ | ⟨rfl, -⟩
        · exact ⟨_, _, rfl⟩
        · exact ⟨_, _, rfl⟩
        · exact absurd h1 hsome
        · exact ⟨_, _, rfl⟩
      | ok p =>
        exfalso
        obtain ⟨st1, bc⟩ := p
        obtain ⟨g1, g2, g3, -⟩ := after_ok_spec st b m st1 bc hr
        rcases hc with h1 | h1 | h1
        · exact h1 g1
        · rw [g3] at h1
          simp at h1
        · omega
  · intro f st1 hr
    obtain ⟨h0, hf⟩ := after_fault_spec st b m f st1 hr
    refine ⟨h0, ?_⟩
    rcases hf with ⟨rfl, -⟩ | ⟨rfl, -⟩ | ⟨-, -, -, h1⟩ | ⟨rfl, -⟩
    · exact ⟨_, rfl⟩
    · exact ⟨_, rfl⟩
    · exact absurd h1 hsome
    · exact ⟨_, rfl⟩

/-- Witness of C7, scenario C of the design: a cat calls Exit for bowl 1 while
the mice hold the turn. -/
theorem exit_violation_witness :
    ((∃ line st1, any_after_eating mouseFeeding.arb 1 false =
        Res.fault (Fault.kassert line) st1) ↔
      (false ≠ mouseFeeding.arb.mouseTurn ∨
       mouseFeeding.arb.util[bowlIdx 1]? = some false ∨ mouseFeeding.arb.slotsUsed = 0)) ∧
    (∀ f st1, any_after_eating mouseFeeding.arb 1 false = Res.fault f st1 →
      st1 = mouseFeeding.arb ∧ ∃ line, f = Fault.kassert line) :=
  exit_violation mouseFeeding.arb 1 false (by decide) (by decide) (by decide) (by decide)
    (by decide)

/-! ## Bowl numbers outside the table -/

theorem util_store_of_lt (beyond : Nat → Bool) (st : Arbiter) (b : Nat) (v : Bool)
    (h : bowlIdx b < st.util.length) : util_store beyond st b v = beyond := by
  funext i
  simp [util_store, h]

theorem idx_inside (st : Arbiter) (b : Nat) (u : Bool)
    (h : st.util[bowlIdx b]? = some u) : ¬ (st.util.length ≤ bowlIdx b) := by
  intro hc
  rw [List.getElem?_eq_none_iff.mpr hc] at h
  exact absurd h (by simp)

/-- For a bowl inside the table the evaluation that follows the code through
the memory around the table is the evaluation of `any_before_eating_eval`, and
the memory outside the table is as before. -/
theorem eval_raw_inside (beyond : Nat → Bool) (st : Arbiter) (b : Nat) (m : Bool) (u : Bool)
    (h : st.util[bowlIdx b]? = some u) :
    any_before_eating_eval_raw beyond st b m = (any_before_eating_eval st b m, beyond) := by
  have hlt := idx_inside st b u h
  by_cases h1 : m = st.mouseTurn
  · cases u <;> by_cases h3 : st.slotsLeft ≤ 0 <;> cases m <;>
      simp_all [any_before_eating_eval_raw, any_before_eating_eval, any_before_eating_loop_raw,
        any_before_eating_loop, any_before_eating_commit_raw, any_before_eating_commit,
        util_read, util_store_of_lt]
  · by_cases h2 : st.slotsUsed = 0
    · cases u <;> by_cases h3 : st.totalBowls ≤ 0 <;> cases m <;>
        by_cases h4 : st.numMouseWaiting > 0 <;> by_cases h5 : st.numCatWaiting > 0 <;>
        simp_all [any_before_eating_eval_raw, any_before_eating_eval,
          any_before_eating_loop_raw, any_before_eating_loop, any_before_eating_commit_raw,
          any_before_eating_commit, switch_kind_to, util_read, util_store_of_lt]
    · cases u <;> cases m <;>
        simp_all [any_before_eating_eval_raw, any_before_eating_eval,
          any_before_eating_loop_raw, any_before_eating_loop, any_before_eating_commit_raw,
          any_before_eating_commit, util_read, util_store_of_lt]

/-- For a bowl inside the table `any_after_eating_raw` is `any_after_eating`,
and the memory outside the table is as before. -/
theorem after_raw_inside (beyond : Nat → Bool) (st : Arbiter) (b : Nat) (m : Bool) (u : Bool)
    (h : st.util[bowlIdx b]? = some u) :
    any_after_eating_raw beyond st b m = (any_after_eating st b m, beyond) := by
  have hlt := idx_inside st b u h
  by_cases h1 : m = st.mouseTurn <;> by_cases h2 : st.slotsUsed > 0 <;>
    by_cases h3 : st.slotsUsed - 1 = 0 <;> cases u <;>
    simp_all [any_after_eating_raw, any_after_eating, util_read, util_store_of_lt]

/-- C9 (the turn is stable while bowls are occupied): for every state with
`slotsUsed > 0`, every evaluation of the admission loop of `any_before_eating`
(first or repeated, whether it grants, suspends or stops) leaves `mouseTurn`
unchanged, and every `any_after_eating` that leaves `slotsUsed > 0` leaves it
unchanged; the turn changes only in an `any_after_eating` that brings
`slotsUsed` to 0 or in an evaluation that starts with `slotsUsed = 0`. -/
theorem turn_stable (st : Arbiter) (b : Nat) (m : Bool) :
    (0 < st.slotsUsed →
      (any_before_eating_eval st b m).state.mouseTurn = st.mouseTurn ∧
      (any_before_eating st b m).state.mouseTurn = st.mouseTurn) ∧
    (∀ st1 bc, any_after_eating st b m = Res.ok (st1, bc) → 0 < st1.slotsUsed →
      st1.mouseTurn = st.mouseTurn) ∧
    ((any_before_eating_eval st b m).state.mouseTurn ≠ st.mouseTurn ∨
      (any_before_eating st b m).state.mouseTurn ≠ st.mouseTurn → st.slotsUsed = 0) ∧
    (∀ st1 bc, any_after_eating st b m = Res.ok (st1, bc) →
      st1.mouseTurn ≠ st.mouseTurn → st1.slotsUsed = 0) ∧
    (∀ f st1, any_after_eating st b m = Res.fault f st1 → st1.mouseTurn = st.mouseTurn) := by
  obtain ⟨-, a2, -, a4, -⟩ := arrive_fields st m
  have hfirst : st.slotsUsed ≠ 0 →
      (any_before_eating st b m).state.mouseTurn = st.mouseTurn := by
    intro h
    unfold any_before_eating
    rw [eval_turn_of_busy _ b m (by rw [a4]; exact h), a2]
  refine ⟨?_, ?_, ?_, ?_, ?_⟩
  · intro h
    have hne : st.slotsUsed ≠ 0 := by omega
    exact ⟨eval_turn_of_busy st b m hne, hfirst hne⟩
  · intro st1 bc hr hpos
    obtain ⟨-, -, -, -, g5, -, -, -, g9⟩ := after_ok_spec st b m st1 bc hr
    rcases g9 with ⟨-, h9, -⟩ | ⟨h9, -⟩
    · exact h9
    · omega
  · intro h
    by_contra hne
    rcases h with h | h
    · exact h (eval_turn_of_busy st b m hne)
    · exact h (hfirst hne)
  · intro st1 bc hr hch
    obtain ⟨-, -, -, -, g5, -, -, -, g9⟩ := after_ok_spec st b m st1 bc hr
    rcases g9 with ⟨-, h9, -⟩ | ⟨h9, -⟩
    · exact absurd h9 hch
    · omega
  · intro f st1 hr
    rw [(after_fault_spec st b m f st1 hr).1]

/-- Witness of C9: while the mouse of scenario A feeds, a cat that asks for the
bowl, as a new caller or on a re-check, leaves the turn with the mice. -/
theorem turn_stable_witness :
    0 < mouseFeeding.arb.slotsUsed ∧
    (any_before_eating_eval mouseFeeding.arb 1 false).state.mouseTurn =
      mouseFeeding.arb.mouseTurn ∧
    (any_before_eating mouseFeeding.arb 1 false).state.mouseTurn =
      mouseFeeding.arb.mouseTurn :=
  ⟨by decide, (turn_stable mouseFeeding.arb 1 false).1 (by decide)⟩

/-- C10 (idle-floor admission): in every state reachable from
`catmouse_sync_init(N)`, `1 ≤ N`, in which `slotsUsed` is 0, a call
`any_before_eating(bowl, class)` for either class and any bowl in `[1,N]` is
granted in its first evaluation, without suspending; afterwards the turn is the
caller's class, the bowl is occupied and `slotsUsed` is 1. -/
theorem idle_floor_admission (N : Int) (s : Sys) (h : Reachable N s)
    (hidle : s.arb.slotsUsed = 0) (b : Nat) (m : Bool) (hb1 : 1 ≤ b) (hb2 : (b : Int) ≤ N) :
    ∃ st bc, any_before_eating s.arb b m = Eval.granted st bc ∧
      st.mouseTurn = m ∧ st.util[bowlIdx b]? = some true ∧ st.slotsUsed = 1 := by
  have hI := inv_reachable N s h
  have hmax := hI.n_max
  have hlen := hI.len
  have hb3 : bowlIdx b + 1 = b := by
    apply bowlIdx_of_range b hb1
    unfold INT_MAX at hmax
    omega
  have hlt : bowlIdx b < s.arb.util.length := by omega
  have hnil : s.feeding = [] := by
    have h0 := hI.used
    rw [hidle] at h0
    have : s.feeding.length = 0 := by exact_mod_cast h0.symm
    exact List.length_eq_zero.1 this
  have hfree : s.arb.util[bowlIdx b]? = some false := by
    cases hu : s.arb.util[bowlIdx b]? with
    | none =>
      rw [List.getElem?_eq_none_iff] at hu
      omega
    | some u =>
      cases u
      · rfl
      · have := (hI.occ (bowlIdx b)).1 hu
        rw [hnil] at this
        simp at this
  have hq : 0 < s.arb.slotsLeft := by
    rw [hI.idle hidle]
    have := hI.n_pos
    omega
  obtain ⟨a1, a2, a3, a4, a5, -, -⟩ := arrive_fields s.arb m
  obtain ⟨st, bc, hg⟩ := eval_granted_of_admissible N s hI _ b m a1 a2 a3 a4 a5
    (waiting_arrive_pos N s hI m) (Or.inr hidle) hq hfree
  obtain ⟨g1, -, -, g4, g5, -⟩ := eval_granted_spec _ b m st bc hg
  refine ⟨st, bc, hg, g1, ?_, ?_⟩
  · rw [g4, a5, List.getElem?_set]
    simp [hlt]
  · rw [g5, a4, hidle]
    rfl

/-- Witness of C10: at the end of scenario A the floor is idle and the turn is
the cats'; a mouse that arrives at bowl 1 is admitted at once. -/
theorem idle_floor_admission_witness :
    Reachable 1 afterScenarioA ∧ afterScenarioA.arb.slotsUsed = 0 ∧
    ∃ st bc, any_before_eating afterScenarioA.arb 1 true = Eval.granted st bc ∧
      st.mouseTurn = true ∧ st.util[bowlIdx 1]? = some true ∧ st.slotsUsed = 1 :=
  ⟨afterScenarioA_reachable, by decide,
   idle_floor_admission 1 afterScenarioA afterScenarioA_reachable (by decide) 1 true
     (by decide) (by decide)⟩

/-! ## Further facts on reachable states -/

theorem inv_feeding_nil (N : Int) (s : Sys) (hI : Inv N s) (hidle : s.arb.slotsUsed = 0) :
    s.feeding = [] := by
  have h0 := hI.used
  rw [hidle] at h0
  have : s.feeding.length = 0 := by exact_mod_cast h0.symm
  exact List.length_eq_zero.1 this

theorem inv_idle_free (N : Int) (s : Sys) (hI : Inv N s) (hidle : s.arb.slotsUsed = 0)
    (i : Nat) (u : Bool) (hu : s.arb.util[i]? = some u) : u = false := by
  cases u
  · rfl
  · have := (hI.occ i).1 hu
    rw [inv_feeding_nil N s hI hidle] at this
    simp at this

/-- On an idle floor an evaluation whose bowl is inside the table is granted. -/
theorem idle_eval_granted (N : Int) (s : Sys) (hI : Inv N s) (st : Arbiter)
    (b : Nat) (m : Bool)
    (e1 : st.totalBowls = s.arb.totalBowls) (e2 : st.mouseTurn = s.arb.mouseTurn)
    (e3 : st.slotsLeft = s.arb.slotsLeft) (e4 : st.slotsUsed = s.arb.slotsUsed)
    (e5 : st.util = s.arb.util) (hw : 0 < waiting st m)
    (hidle : s.arb.slotsUsed = 0) (u : Bool) (hu : s.arb.util[bowlIdx b]? = some u) :
    ∃ st1 bc, any_before_eating_eval st b m = Eval.granted st1 bc := by
  have hf : s.arb.util[bowlIdx b]? = some false := by
    rw [hu, inv_idle_free N s hI hidle _ u hu]
  have hq : 0 < s.arb.slotsLeft := by
    rw [hI.idle hidle]
    have := hI.n_pos
    omega
  exact eval_granted_of_admissible N s hI st b m e1 e2 e3 e4 e5 hw (Or.inr hidle) hq hf

/-- In a reachable state an evaluation that suspends has made no hand-off: it
ends with the statics it started with. -/
theorem suspended_no_handoff (N : Int) (s : Sys) (hI : Inv N s) (st : Arbiter)
    (b : Nat) (m : Bool)
    (e1 : st.totalBowls = s.arb.totalBowls) (e2 : st.mouseTurn = s.arb.mouseTurn)
    (e3 : st.slotsLeft = s.arb.slotsLeft) (e4 : st.slotsUsed = s.arb.slotsUsed)
    (e5 : st.util = s.arb.util) (hw : 0 < waiting st m)
    (st1 : Arbiter) (bc : List Chan)
    (h : any_before_eating_eval st b m = Eval.suspended st1 bc) :
    st1 = st ∧ bc = [] := by
  obtain ⟨⟨u, hu⟩, g⟩ := eval_suspended_spec st b m st1 bc h
  rcases g with g | ⟨-, h0, -⟩
  · exact g
  · exfalso
    rw [e5] at hu
    rw [e4] at h0
    obtain ⟨st2, bc2, hg⟩ := idle_eval_granted N s hI st b m e1 e2 e3 e4 e5 hw h0 u hu
    rw [hg] at h
    exact Eval.noConfusion h

/-- C11 (effect of Enter): whenever the first evaluation of
`any_before_eating(bowl, class)` is granted, the flag of that bowl is set, the
flag of every other bowl is as before, `slotsUsed` is one higher and both
waiting counts have the values they had before the call; when it suspends, the
waiting count of the caller's class is one higher, the other waiting count,
the table and `slotsUsed` are as before, and in a reachable state nothing else
of the statics has changed either. -/
theorem enter_effect (st : Arbiter) (b : Nat) (m : Bool) :
    (∀ st1 bc, any_before_eating st b m = Eval.granted st1 bc →
      st1.util[bowlIdx b]? = some true ∧
      (∀ i, i ≠ bowlIdx b → st1.util[i]? = st.util[i]?) ∧
      st1.util.length = st.util.length ∧
      st1.slotsUsed = st.slotsUsed + 1 ∧
      st1.numCatWaiting = st.numCatWaiting ∧
      st1.numMouseWaiting = st.numMouseWaiting) ∧
    (∀ st1 bc, any_before_eating st b m = Eval.suspended st1 bc →
      waiting st1 m = waiting st m + 1 ∧ waiting st1 (!m) = waiting st (!m) ∧
      st1.util = st.util ∧ st1.slotsUsed = st.slotsUsed ∧
      (∀ N s, Reachable N s → s.arb = st →
        st1 = any_before_eating_arrive st m ∧ st1.mouseTurn = st.mouseTurn ∧
        st1.slotsLeft = st.slotsLeft ∧ bc = [])) := by
  obtain ⟨a1, a2, a3, a4, a5, a6, a7⟩ := arrive_fields st m
  constructor
  · intro st1 bc h
    obtain ⟨-, -, g3, g4, g5, -, g7, g8⟩ := eval_granted_spec _ b m st1 bc h
    rw [a5] at g3 g4
    obtain ⟨hlt, -⟩ := List.getElem?_eq_some.1 g3
    refine ⟨?_, ?_, ?_, ?_, ?_, ?_⟩
    · rw [g4, List.getElem?_set]
      simp [hlt]
    · intro i hi
      rw [g4, List.getElem?_set]
      simp [Ne.symm hi]
    · rw [g4, List.length_set]
    · rw [g5, a4]
    · rw [g8, a6]
      cases m <;> simp
    · rw [g7, a7]
      cases m <;> simp
  · intro st1 bc h
    obtain ⟨-, g⟩ := eval_suspended_spec _ b m st1 bc h
    have hfields : st1.numCatWaiting = (any_before_eating_arrive st m).numCatWaiting ∧
        st1.numMouseWaiting = (any_before_eating_arrive st m).numMouseWaiting ∧
        st1.util = (any_before_eating_arrive st m).util ∧
        st1.slotsUsed = (any_before_eating_arrive st m).slotsUsed := by
      rcases g with ⟨rfl, -⟩ | ⟨-, -, rfl, -⟩
      · exact ⟨rfl, rfl, rfl, rfl⟩
      · exact ⟨rfl, rfl, rfl, rfl⟩
    obtain ⟨f1, f2, f3, f4⟩ := hfields
    refine ⟨?_, ?_, ?_, ?_, ?_⟩
    · cases m <;> simp [waiting, f1, f2, a6, a7]
    · cases m <;> simp [waiting, f1, f2, a6, a7]
    · rw [f3, a5]
    · rw [f4, a4]
    · intro N s hr hs
      subst hs
      have hI := inv_reachable N s hr
      obtain ⟨h1, h2⟩ := suspended_no_handoff N s hI _ b m a1 a2 a3 a4 a5
        (waiting_arrive_pos N s hI m) st1 bc h
      refine ⟨h1, ?_, ?_, h2⟩
      · rw [h1, a2]
      · rw [h1, a3]

/-- Witness of C11: with one bowl a mouse arrives on the idle floor and is
granted bowl 1; then the cat of scenario A arrives and suspends. -/
theorem enter_effect_witness :
    any_before_eating (initSys 1).arb 1 true =
      Eval.granted { totalBowls := 1, mouseTurn := true, slotsLeft := 0, slotsUsed := 1,
                     numCatWaiting := 0, numMouseWaiting := 0, util := [true] }
        [Chan.mouse_cv] ∧
    ((initSys 1).arb.slotsUsed + 1 = 1 ∧ (initSys 1).arb.numMouseWaiting = 0) ∧
    any_before_eating
        { totalBowls := 1, mouseTurn := true, slotsLeft := 0, slotsUsed := 1,
          numCatWaiting := 0, numMouseWaiting := 0, util := [true] } 1 false =
      Eval.suspended mouseFeeding.arb [] ∧
    waiting mouseFeeding.arb false = 0 + 1 :=
  ⟨by decide, by decide, by decide,
   ((enter_effect { totalBowls := 1, mouseTurn := true, slotsLeft := 0, slotsUsed := 1,
                    numCatWaiting := 0, numMouseWaiting := 0, util := [true] } 1 false).2
      mouseFeeding.arb [] (by decide)).1⟩

/-- C12, as the claim states it, fails: `catmouse_sync_init` does not assign
`slotsUsed`.  Called on statics whose `slotsUsed` is 1 it returns with
`slotsUsed` still 1; and the turn it sets is the cats', not "no class". -/
theorem init_reset_counterexample :
    staleStatics.slotsUsed = 1 ∧
    (catmouse_sync_init staleStatics 1).slotsUsed = 1 ∧
    ¬ ((catmouse_sync_init staleStatics 1).slotsUsed = 0) ∧
    (catmouse_sync_init staleStatics 1).mouseTurn = false :=
  ⟨by decide, by decide, by decide, by decide⟩

/-- C12 amended: for every `N ≥ 1` and whatever the statics held before,
after `catmouse_sync_init(N)` the table has `N` entries, all of them free, the
turn is the cats' (`mouseTurn = false`), `slotsLeft` is `N` and both waiting
counts are 0; `slotsUsed` is 0 when it was 0 before the call. -/
theorem init_reset (old : Arbiter) (N : Int) (h1 : 1 ≤ N) :
    (catmouse_sync_init old N).totalBowls = N ∧
    ((catmouse_sync_init old N).util.length : Int) = N ∧
    (∀ u ∈ (catmouse_sync_init old N).util, u = false) ∧
    (catmouse_sync_init old N).mouseTurn = false ∧
    (catmouse_sync_init old N).slotsLeft = N ∧
    (catmouse_sync_init old N).numCatWaiting = 0 ∧
    (catmouse_sync_init old N).numMouseWaiting = 0 ∧
    (old.slotsUsed = 0 → (catmouse_sync_init old N).slotsUsed = 0) := by
  refine ⟨rfl, ?_, ?_, rfl, rfl, rfl, rfl, ?_⟩
  · simp only [catmouse_sync_init, List.length_replicate]
    omega
  · intro u hu
    simp only [catmouse_sync_init] at hu
    exact (List.mem_replicate.1 hu).2
  · intro h
    exact h

/-- Witness of amended C12: a second initialisation, for two bowls, after
scenario A. -/
theorem init_reset_witness :
    (1 : Int) ≤ 2 ∧
    (catmouse_sync_init afterScenarioA.arb 2).totalBowls = 2 ∧
    ((catmouse_sync_init afterScenarioA.arb 2).util.length : Int) = 2 ∧
    (∀ u ∈ (catmouse_sync_init afterScenarioA.arb 2).util, u = false) ∧
    (catmouse_sync_init afterScenarioA.arb 2).mouseTurn = false ∧
    (catmouse_sync_init afterScenarioA.arb 2).slotsLeft = 2 ∧
    (catmouse_sync_init afterScenarioA.arb 2).numCatWaiting = 0 ∧
    (catmouse_sync_init afterScenarioA.arb 2).numMouseWaiting = 0 ∧
    (afterScenarioA.arb.slotsUsed = 0 →
      (catmouse_sync_init afterScenarioA.arb 2).slotsUsed = 0) :=
  ⟨by decide, init_reset afterScenarioA.arb 2 (by decide)⟩

theorem eval_granted_of_cond (st : Arbiter) (b : Nat) (m : Bool)
    (hc : m = st.mouseTurn ∨ (st.slotsUsed = 0 ∧ 0 < st.totalBowls))
    (hq : m = st.mouseTurn → 0 < st.slotsLeft) (hw : 0 < waiting st m)
    (hf : st.util[bowlIdx b]? = some false) :
    ∃ st1 bc, any_before_eating_eval st b m = Eval.granted st1 bc := by
  by_cases h1 : m = st.mouseTurn
  · exact ⟨_, _, eval_grant_same st b m h1 (hq h1) hf⟩
  · rcases hc with hc | ⟨h0, hN⟩
    · exact absurd hc h1
    · have h5 : m = (switch_kind_to st m).1.mouseTurn := by
        rw [switch_turn, if_pos hw]
      exact ⟨_, _, eval_grant_idle st b m h1 h0 hN hf h5⟩

theorem enterEach_granted (m : Bool) (l : List Nat) :
    ∀ st : Arbiter, l.Nodup →
      (∀ b ∈ l, 1 ≤ b ∧ b ≤ 2147483647 ∧ st.util[bowlIdx b]? = some false) →
      (l.length : Int) ≤ st.slotsLeft →
      (m = st.mouseTurn ∨ (st.slotsUsed = 0 ∧ st.slotsLeft = st.totalBowls)) →
      0 ≤ waiting st m →
      ∃ st1, enterEach st m l = some st1 ∧ st1.slotsUsed = st.slotsUsed + l.length ∧
        (l ≠ [] → st1.mouseTurn = m) ∧ (l = [] → st1 = st) := by
  induction l with
  | nil =>
    intro st _ _ _ _ _
    exact ⟨st, rfl, by simp, by simp, fun _ => rfl⟩
  | cons b bs ih =>
    intro st hnd hfree hq hc hw
    obtain ⟨a1, a2, a3, a4, a5, a6, a7⟩ := arrive_fields st m
    have hlen : ((b :: bs).length : Int) = (bs.length : Int) + 1 := by
      simp
    obtain ⟨hb1, hb2, hbf⟩ := hfree b (List.mem_cons_self _ _)
    have hw0 : 0 < waiting (any_before_eating_arrive st m) m := by
      cases m <;> simp [waiting, a6, a7] <;> simp [waiting] at hw <;> omega
    obtain ⟨st1, bc, hg⟩ := eval_granted_of_cond (any_before_eating_arrive st m) b m
      (by
        rcases hc with hc | ⟨h0, h1⟩
        · exact Or.inl (by rw [a2]; exact hc)
        · exact Or.inr ⟨by rw [a4]; exact h0, by rw [a1]; omega⟩)
      (by intro _; rw [a3]; omega) hw0 (by rw [a5]; exact hbf)
    obtain ⟨g1, g2, g3, g4, g5, g6, g7, g8⟩ := eval_granted_spec _ b m st1 bc hg
    rw [a5] at g4
    rw [a1, a2, a3, a4] at g6
    rw [List.nodup_cons] at hnd
    have hleft : st1.slotsLeft = st.slotsLeft - 1 := by
      rcases g6 with ⟨-, h6, -⟩ | ⟨hne, h0, h6, -⟩
      · exact h6
      · rcases hc with hc | ⟨-, h1⟩
        · exact absurd hc hne
        · omega
    obtain ⟨st2, hrun, hused, hturn, hnil⟩ := ih st1 hnd.2
      (by
        intro x hx
        obtain ⟨hx1, hx2, hxf⟩ := hfree x (List.mem_cons_of_mem _ hx)
        refine ⟨hx1, hx2, ?_⟩
        have hne : bowlIdx b ≠ bowlIdx x := by
          have e1 := bowlIdx_of_range b hb1 hb2
          have e2 := bowlIdx_of_range x hx1 hx2
          intro he
          have : b = x := by omega
          exact hnd.1 (this ▸ hx)
        rw [g4, List.getElem?_set]
        simp [hne, hxf])
      (by omega) (Or.inl g1.symm)
      (by
        cases m
        · simp only [waiting, Bool.false_eq_true, if_false] at hw ⊢
          rw [g8, a6]
          simp
          exact hw
        · simp only [waiting, if_true] at hw ⊢
          rw [g7, a7]
          simp
          exact hw)
    refine ⟨st2, ?_, ?_, ?_, ?_⟩
    · simp only [enterEach, any_before_eating, hg]
      exact hrun
    · rw [hused, g5, a4]
      simp only [List.length_cons]
      push_cast
      ring
    · intro _
      by_cases hbs : bs = []
      · rw [hnil hbs]
        exact g1
      · exact hturn hbs
    · intro h
      exact absurd h (List.cons_ne_nil b bs)

/-- C13 (same-class concurrency up to capacity): for every `N ≥ 1`, every
class and every list of `k ≤ N` pairwise distinct bowls in `[1,N]` that makes
an Enter (`1 ≤ k`), starting from `catmouse_sync_init(N)` and calling
`any_before_eating` for each bowl of the list in order with that class, every
call is granted in its first evaluation, and in the final state the turn is
that class and `slotsUsed = k`. -/
theorem same_class_concurrency (N : Int) (m : Bool) (l : List Nat)
    (hN1 : 1 ≤ N) (hN2 : N ≤ INT_MAX) (hne : l ≠ []) (hk : (l.length : Int) ≤ N)
    (hnd : l.Nodup) (hr : ∀ b ∈ l, 1 ≤ b ∧ (b : Int) ≤ N) :
    ∃ st, enterEach (catmouse_sync_init boot N) m l = some st ∧
      st.mouseTurn = m ∧ st.slotsUsed = l.length := by
  unfold INT_MAX at hN2
  obtain ⟨st, h1, h2, h3, -⟩ := enterEach_granted m l (catmouse_sync_init boot N) hnd
    (by
      intro b hb
      obtain ⟨hb1, hb2⟩ := hr b hb
      refine ⟨hb1, by omega, ?_⟩
      have e := bowlIdx_of_range b hb1 (by omega)
      simp only [catmouse_sync_init]
      rw [List.getElem?_replicate]
      have : bowlIdx b < N.toNat := by omega
      simp [this])
    hk (Or.inr ⟨rfl, rfl⟩)
    (by cases m <;> simp [waiting, catmouse_sync_init])
  refine ⟨st, h1, h3 hne, ?_⟩
  rw [h2]
  simp [catmouse_sync_init, boot]

/-- Witness of C13, scenario B of the design: two mice at bowls 1 and
2 of two. -/
theorem same_class_concurrency_witness :
    ∃ st, enterEach (catmouse_sync_init boot 2) true [1, 2] = some st ∧
      st.mouseTurn = true ∧ st.slotsUsed = ([1, 2] : List Nat).length :=
  same_class_concurrency 2 true [1, 2] (by decide) (by decide) (by decide) (by decide)
    (by decide) (by decide)

/-! ## The assertions after the loop -/

theorem loop_ready_spec (st : Arbiter) (b : Nat) (m : Bool) (st1 : Arbiter) (bc : List Chan)
    (h : any_before_eating_loop st b m = Res.ok (true, st1, bc)) :
    0 < st1.slotsLeft ∧ st1.util[bowlIdx b]? = some false ∧
    ((m = st.mouseTurn ∧ st1 = st) ∨
     (m ≠ st.mouseTurn ∧ st.slotsUsed = 0 ∧ st1 = (switch_kind_to st m).1)) := by
  by_cases h1 : m = st.mouseTurn
  · cases hu : st.util[bowlIdx b]? with
    | none => simp [loop_same st b m h1, hu] at h
    | some u =>
      simp only [loop_same st b m h1, hu, Res.ok.injEq, Prod.mk.injEq] at h
      obtain ⟨hr, rfl, -⟩ := h
      cases u
      · simp only [Bool.not_false, Bool.true_and, Bool.not_eq_true',
          decide_eq_false_iff_not] at hr
        exact ⟨by omega, hu, Or.inl ⟨h1, rfl⟩⟩
      · simp at hr
  · by_cases h2 : st.slotsUsed = 0
    · cases hu : st.util[bowlIdx b]? with
      | none => simp [loop_idle st b m h1 h2, hu] at h
      | some u =>
        simp only [loop_idle st b m h1 h2, hu, Res.ok.injEq, Prod.mk.injEq] at h
        obtain ⟨hr, rfl, -⟩ := h
        cases u
        · simp only [Bool.not_false, Bool.true_and, Bool.not_eq_true',
            decide_eq_false_iff_not] at hr
          refine ⟨?_, by simpa using hu, Or.inr ⟨h1, h2, rfl⟩⟩
          simp only [switch_slotsLeft]
          omega
        · simp at hr
    · cases hu : st.util[bowlIdx b]? with
      | none => simp [loop_busy st b m h1 h2, hu] at h
      | some u => simp [loop_busy st b m h1 h2, hu] at h

theorem loop_ready_commit (st : Arbiter) (b : Nat) (m : Bool) (hw : 0 < waiting st m)
    (st1 : Arbiter) (bc : List Chan)
    (h : any_before_eating_loop st b m = Res.ok (true, st1, bc)) :
    m = st1.mouseTurn ∧ 0 < st1.slotsLeft ∧ st1.util[bowlIdx b]? = some false ∧
    ∃ st2, any_before_eating_commit st1 b m = Res.ok st2 := by
  obtain ⟨h1, h2, h3⟩ := loop_ready_spec st b m st1 bc h
  have ht : m = st1.mouseTurn := by
    rcases h3 with ⟨h3, rfl⟩ | ⟨-, -, rfl⟩
    · exact h3
    · rw [switch_turn, if_pos hw]
  exact ⟨ht, h1, h2, _, commit_ok st1 b m ht h1 h2⟩

theorem eval_no_fault (st : Arbiter) (b : Nat) (m : Bool) (u : Bool)
    (hu : st.util[bowlIdx b]? = some u) (hw : 0 < waiting st m) (f : Fault) (st1 : Arbiter) :
    any_before_eating_eval st b m ≠ Eval.fault f st1 := by
  intro h
  cases hl : any_before_eating_loop st b m with
  | fault f2 st2 =>
    by_cases h1 : m = st.mouseTurn
    · simp [loop_same st b m h1, hu] at hl
    · by_cases h2 : st.slotsUsed = 0
      · simp [loop_idle st b m h1 h2, hu] at hl
      · simp [loop_busy st b m h1 h2, hu] at hl
  | ok p =>
    obtain ⟨r, st2, bc⟩ := p
    cases r
    · simp [any_before_eating_eval, hl] at h
    · obtain ⟨-, -, -, st3, h3⟩ := loop_ready_commit st b m hw st2 bc hl
      simp [any_before_eating_eval, hl, h3] at h

theorem inv_in_range (N : Int) (s : Sys) (hI : Inv N s) (b : Nat) (hb1 : 1 ≤ b)
    (hb2 : (b : Int) ≤ N) : ∃ u, s.arb.util[bowlIdx b]? = some u := by
  have hmax := hI.n_max
  have hlen := hI.len
  have hb3 : bowlIdx b + 1 = b := by
    apply bowlIdx_of_range b hb1
    unfold INT_MAX at hmax
    omega
  have hlt : bowlIdx b < s.arb.util.length := by omega
  exact ⟨s.arb.util[bowlIdx b], List.getElem?_eq_getElem hlt⟩

/-- C15 (the assertions after the loop hold): in every state reachable from
`catmouse_sync_init(N)` and for every bowl in `[1,N]`, whenever the loop of
`any_before_eating` exits (in the first evaluation of a new caller or in a
repeated one of a blocked caller), `mouse == mouseTurn`, `slotsLeft > 0` and
`util[bowl-1]` is false, so the three assertions pass and the grant is made;
the forced hand-off `switch_kind_to(mouse)` yields the caller's class, the
caller being counted in its class's waiting count; no evaluation ends in a
fault. -/
theorem post_loop_assertions (N : Int) (s : Sys) (h : Reachable N s) (b : Nat) (m : Bool)
    (hb1 : 1 ≤ b) (hb2 : (b : Int) ≤ N) :
    (∀ st1 bc,
      any_before_eating_loop (any_before_eating_arrive s.arb m) b m = Res.ok (true, st1, bc) →
      m = st1.mouseTurn ∧ 0 < st1.slotsLeft ∧ st1.util[bowlIdx b]? = some false ∧
      ∃ st2, any_before_eating_commit st1 b m = Res.ok st2) ∧
    ((b, m) ∈ s.blocked → ∀ st1 bc,
      any_before_eating_loop s.arb b m = Res.ok (true, st1, bc) →
      m = st1.mouseTurn ∧ 0 < st1.slotsLeft ∧ st1.util[bowlIdx b]? = some false ∧
      ∃ st2, any_before_eating_commit st1 b m = Res.ok st2) ∧
    (switch_kind_to (any_before_eating_arrive s.arb m) m).1.mouseTurn = m ∧
    ((b, m) ∈ s.blocked → (switch_kind_to s.arb m).1.mouseTurn = m) ∧
    (∀ f st1, any_before_eating s.arb b m ≠ Eval.fault f st1) ∧
    ((b, m) ∈ s.blocked → ∀ f st1, any_before_eating_eval s.arb b m ≠ Eval.fault f st1) := by
  have hI := inv_reachable N s h
  obtain ⟨u, hu⟩ := inv_in_range N s hI b hb1 hb2
  have hw1 := waiting_arrive_pos N s hI m
  obtain ⟨-, -, -, -, a5, -, -⟩ := arrive_fields s.arb m
  refine ⟨?_, ?_, ?_, ?_, ?_, ?_⟩
  · intro st1 bc hl
    exact loop_ready_commit _ b m hw1 st1 bc hl
  · intro hmem st1 bc hl
    exact loop_ready_commit _ b m (waiting_blocked_pos N s hI b m hmem) st1 bc hl
  · rw [switch_turn, if_pos hw1]
  · intro hmem
    rw [switch_turn, if_pos (waiting_blocked_pos N s hI b m hmem)]
  · intro f st1
    exact eval_no_fault _ b m u (by rw [a5]; exact hu) hw1 f st1
  · intro hmem f st1
    exact eval_no_fault _ b m u hu (waiting_blocked_pos N s hI b m hmem) f st1

/-- Witness of C15: the end of scenario A, where the blocked cat re-checks and
a mouse arrives, both for bowl 1. -/
theorem post_loop_assertions_witness :
    Reachable 1 afterScenarioA ∧
    (switch_kind_to (any_before_eating_arrive afterScenarioA.arb true) true).1.mouseTurn
      = true ∧
    ((1, false) ∈ afterScenarioA.blocked →
      ∀ f st1, any_before_eating_eval afterScenarioA.arb 1 false ≠ Eval.fault f st1) :=
  ⟨afterScenarioA_reachable,
   (post_loop_assertions 1 afterScenarioA afterScenarioA_reachable 1 true (by decide)
      (by decide)).2.2.1,
   (post_loop_assertions 1 afterScenarioA afterScenarioA_reachable 1 false (by decide)
      (by decide)).2.2.2.2.2⟩

/-! ## The quota of a turn -/

theorem quota_eval (N : Int) (s : Sys) (hI : Inv N s) (st : Arbiter) (b : Nat) (m : Bool)
    (e1 : st.totalBowls = s.arb.totalBowls) (e3 : st.slotsLeft = s.arb.slotsLeft)
    (g : Nat) (hg : (g : Int) + s.arb.slotsLeft = N) :
    (∀ st1 bc, any_before_eating_eval st b m = Eval.granted st1 bc →
      (((if bc = [] then g else 0) + 1 : Nat) : Int) + st1.slotsLeft = N) ∧
    (∀ st1 bc, any_before_eating_eval st b m = Eval.suspended st1 bc →
      (((if bc = [] then g else 0) + 0 : Nat) : Int) + st1.slotsLeft = N) := by
  have ht := hI.total
  constructor
  · intro st1 bc h
    obtain ⟨-, -, -, -, -, g6, -⟩ := eval_granted_spec st b m st1 bc h
    rcases g6 with ⟨-, h6, -, rfl⟩ | ⟨-, -, h6, -, rfl⟩
    · simp only [if_true]
      push_cast
      omega
    · simp only [List.cons_ne_nil, if_false]
      push_cast
      omega
  · intro st1 bc h
    obtain ⟨-, g6⟩ := eval_suspended_spec st b m st1 bc h
    rcases g6 with ⟨rfl, rfl⟩ | ⟨-, -, rfl, rfl⟩
    · simp only [if_true]
      push_cast
      omega
    · simp only [List.cons_ne_nil, if_false, switch_slotsLeft]
      push_cast
      omega

theorem quota_step (N : Int) (s s1 : Sys) (l : Label) (g : Nat) (hI : Inv N s)
    (hs : sysStep s l = some s1) (hg : (g : Int) + s.arb.slotsLeft = N) :
    (((if sectionWoken s l = [] then g else 0) + (if sectionGrants s l then 1 else 0) : Nat)
      : Int) + s1.arb.slotsLeft = N := by
  cases l with
  | arrive b m =>
    obtain ⟨a1, -, a3, -⟩ := arrive_fields s.arb m
    obtain ⟨q1, q2⟩ := quota_eval N s hI (any_before_eating_arrive s.arb m) b m a1 a3 g hg
    by_cases hb : b < 4294967296
    swap
    · simp [sysStep, hb] at hs
    simp only [sysStep, hb, if_true] at hs
    cases he : any_before_eating s.arb b m with
    | granted st bc =>
      rw [he] at hs
      simp only [Option.some.injEq] at hs
      subst hs
      simp only [sectionWoken, sectionGrants, he, Eval.woken, if_true]
      exact q1 st bc he
    | suspended st bc =>
      rw [he] at hs
      simp only [Option.some.injEq] at hs
      subst hs
      simp only [sectionWoken, sectionGrants, he, Eval.woken, Bool.false_eq_true, if_false]
      exact q2 st bc he
    | fault f st => rw [he] at hs; simp at hs
  | recheck b m =>
    obtain ⟨q1, q2⟩ := quota_eval N s hI s.arb b m rfl rfl g hg
    by_cases hb : (b, m) ∈ s.blocked
    swap
    · simp [sysStep, hb] at hs
    simp only [sysStep, hb, if_true] at hs
    cases he : any_before_eating_eval s.arb b m with
    | granted st bc =>
      rw [he] at hs
      simp only [Option.some.injEq] at hs
      subst hs
      simp only [sectionWoken, sectionGrants, he, Eval.woken, if_true]
      exact q1 st bc he
    | suspended st bc =>
      rw [he] at hs
      simp only [Option.some.injEq] at hs
      subst hs
      simp only [sectionWoken, sectionGrants, he, Eval.woken, Bool.false_eq_true, if_false]
      exact q2 st bc he
    | fault f st => rw [he] at hs; simp at hs
  | leave b m =>
    have ht := hI.total
    by_cases hb : (b, m) ∈ s.feeding
    swap
    · simp [sysStep, hb] at hs
    simp only [sysStep, hb, if_true] at hs
    cases he : any_after_eating s.arb b m with
    | ok p =>
      obtain ⟨st, bc⟩ := p
      rw [he] at hs
      simp only [Option.some.injEq] at hs
      subst hs
      obtain ⟨-, -, -, -, -, -, -, -, g9⟩ := after_ok_spec s.arb b m st bc he
      simp only [sectionWoken, sectionGrants, he, Bool.false_eq_true, if_false]
      rcases g9 with ⟨-, -, h9, rfl⟩ | ⟨-, h9, -, rfl⟩
      · simp only [if_true]
        push_cast
        omega
      · simp only [List.cons_ne_nil, if_false]
        push_cast
        omega
    | fault f st => rw [he] at hs; simp at hs

theorem quota_run (N : Int) (ls : List Label) :
    ∀ (s s1 : Sys) (g g1 : Nat), Inv N s → (g : Int) + s.arb.slotsLeft = N →
      grantsInTurn s g ls = some (s1, g1) → (g1 : Int) + s1.arb.slotsLeft = N ∧ Inv N s1 := by
  induction ls with
  | nil =>
    intro s s1 g g1 hI hg h
    simp only [grantsInTurn, Option.some.injEq, Prod.mk.injEq] at h
    obtain ⟨rfl, rfl⟩ := h
    exact ⟨hg, hI⟩
  | cons l ls ih =>
    intro s s1 g g1 hI hg h
    simp only [grantsInTurn] at h
    cases hs : sysStep s l with
    | none => rw [hs] at h; simp at h
    | some s2 =>
      rw [hs] at h
      exact ih s2 s1 _ g1 (inv_step N s s2 l hI hs) (quota_step N s s2 l g hI hs hg) h

/-- C16 (`slotsLeft` is the quota of a turn): in every state reachable from
`catmouse_sync_init(N)`, `0 ≤ slotsLeft`, `slotsUsed + slotsLeft ≤ N`, and
`slotsUsed = 0` implies `slotsLeft = N`; `any_after_eating` leaves `slotsLeft`
as it is unless it empties the floor, in which case it makes a hand-off that
sets `slotsLeft` to `N`; and along every schedule from `catmouse_sync_init(N)`
the number of grants since the last hand-off is `N - slotsLeft`, hence at most
`N`. -/
theorem quota_spec (N : Int) (s : Sys) (h : Reachable N s) :
    0 ≤ s.arb.slotsLeft ∧ s.arb.slotsUsed + s.arb.slotsLeft ≤ N ∧
    (s.arb.slotsUsed = 0 → s.arb.slotsLeft = N) ∧
    (∀ b m st1 bc, any_after_eating s.arb b m = Res.ok (st1, bc) →
      (st1.slotsUsed ≠ 0 → st1.slotsLeft = s.arb.slotsLeft ∧ bc = []) ∧
      (st1.slotsUsed = 0 → st1.slotsLeft = N ∧ bc ≠ [])) ∧
    (∀ ls s1 g, grantsInTurn (initSys N) 0 ls = some (s1, g) →
      (g : Int) + s1.arb.slotsLeft = N ∧ (g : Int) ≤ N) := by
  have hI := inv_reachable N s h
  refine ⟨hI.left_nonneg, hI.quota, hI.idle, ?_, ?_⟩
  · intro b m st1 bc hr
    obtain ⟨-, -, -, -, g5, -, -, -, g9⟩ := after_ok_spec s.arb b m st1 bc hr
    have ht := hI.total
    constructor
    · intro hne
      rcases g9 with ⟨-, -, h9, h10⟩ | ⟨h0, -⟩
      · exact ⟨h9, h10⟩
      · exact absurd (by rw [g5]; exact h0) hne
    · intro h0
      rcases g9 with ⟨hne, -⟩ | ⟨-, h9, -, h10⟩
      · exact absurd (by rw [← g5]; exact h0) hne
      · exact ⟨by rw [h9, ht], by rw [h10]; simp⟩
  · intro ls s1 g hrun
    have hI0 := inv_init N hI.n_pos hI.n_max
    obtain ⟨h1, hI1⟩ := quota_run N ls (initSys N) s1 0 g hI0
      (by simp [initSys, catmouse_sync_init]) hrun
    have := hI1.left_nonneg
    exact ⟨h1, by omega⟩

/-- Witness of C16: the state `quotaSpent`, where `slotsLeft` is 0 although
bowl 1 is free, reached by the schedule `quotaSchedule`. -/
theorem quota_spec_witness :
    Reachable 2 quotaSpent ∧
    grantsInTurn (initSys 2) 0 quotaSchedule = some (quotaSpent, 2) ∧
    ((2 : Nat) : Int) + quotaSpent.arb.slotsLeft = 2 :=
  ⟨quotaSpent_reachable, by decide,
   ((quota_spec 2 quotaSpent quotaSpent_reachable).2.2.2.2 quotaSchedule quotaSpent 2
      (by decide)).1⟩

/-! ## The closed system of actors -/

theorem worldStep_sound (w w1 : World) (mv : Move) (h : worldStep w mv = some w1) :
    WStep w w1 := by
  cases mv with
  | enter i b =>
    cases ha : w.actors[i]? with
    | none => simp [worldStep, ha] at h
    | some a =>
      by_cases hc : a.phase = Phase.idle ∧ 0 < a.cycles ∧ b < 4294967296
      swap
      · simp [worldStep, ha, hc] at h
      simp only [worldStep, ha, hc, and_self, if_true] at h
      cases he : any_before_eating w.arb b a.mouse with
      | granted st bc =>
        rw [he] at h
        simp only [Option.some.injEq] at h
        subst h
        exact WStep.enterGranted i b a st bc ha hc.1 hc.2.1 hc.2.2 he
      | suspended st bc =>
        rw [he] at h
        simp only [Option.some.injEq] at h
        subst h
        exact WStep.enterSuspended i b a st bc ha hc.1 hc.2.1 hc.2.2 he
      | fault f st => rw [he] at h; simp at h
  | recheck i =>
    cases ha : w.actors[i]? with
    | none => simp [worldStep, ha] at h
    | some a =>
      cases hp : a.phase with
      | woken b =>
        simp only [worldStep, ha, hp] at h
        cases he : any_before_eating_eval w.arb b a.mouse with
        | granted st bc =>
          rw [he] at h
          simp only [Option.some.injEq] at h
          subst h
          exact WStep.recheckGranted i b a st bc ha hp he
        | suspended st bc =>
          rw [he] at h
          simp only [Option.some.injEq] at h
          subst h
          exact WStep.recheckSuspended i b a st bc ha hp he
        | fault f st => rw [he] at h; simp at h
      | idle => simp [worldStep, ha, hp] at h
      | asleep b => simp [worldStep, ha, hp] at h
      | feeding b => simp [worldStep, ha, hp] at h
  | leave i =>
    cases ha : w.actors[i]? with
    | none => simp [worldStep, ha] at h
    | some a =>
      cases hp : a.phase with
      | feeding b =>
        simp only [worldStep, ha, hp] at h
        cases he : any_after_eating w.arb b a.mouse with
        | ok p =>
          obtain ⟨st, bc⟩ := p
          rw [he] at h
          simp only [Option.some.injEq] at h
          subst h
          exact WStep.leave i b a st bc ha hp he
        | fault f st => rw [he] at h; simp at h
      | idle => simp [worldStep, ha, hp] at h
      | asleep b => simp [worldStep, ha, hp] at h
      | woken b => simp [worldStep, ha, hp] at h

theorem filterMap_cons_toList {α β : Type} (f : α → Option β) (a : α) (l : List α) :
    (a :: l).filterMap f = (f a).toList ++ l.filterMap f := by
  cases h : f a <;> simp [List.filterMap_cons, h]

/-- Replacing one element of a list moves its image under `filterMap` only. -/
theorem filterMap_set_perm {α β : Type} (f : α → Option β) (a1 : α) (l : List α) :
    ∀ (i : Nat) (a : α), l[i]? = some a →
      List.Perm ((f a).toList ++ (l.set i a1).filterMap f)
        ((f a1).toList ++ l.filterMap f) := by
  induction l with
  | nil =>
    intro i a h
    simp at h
  | cons x xs ih =>
    intro i a h
    cases i with
    | zero =>
      simp only [List.getElem?_cons_zero, Option.some.injEq] at h
      subst h
      simp only [List.set_cons_zero, filterMap_cons_toList]
      rw [← List.append_assoc, ← List.append_assoc]
      exact List.Perm.append_right _ List.perm_append_comm
    | succ j =>
      simp only [List.getElem?_cons_succ] at h
      simp only [List.set_cons_succ, filterMap_cons_toList]
      have h1 := ih j a h
      have e1 : (f a).toList ++ ((f x).toList ++ (xs.set j a1).filterMap f) =
          ((f a).toList ++ (f x).toList) ++ (xs.set j a1).filterMap f := by
        rw [List.append_assoc]
      have e2 : (f a1).toList ++ ((f x).toList ++ xs.filterMap f) =
          ((f a1).toList ++ (f x).toList) ++ xs.filterMap f := by
        rw [List.append_assoc]
      rw [e1, e2]
      refine List.Perm.trans (List.Perm.append_right _ List.perm_append_comm) ?_
      refine List.Perm.trans ?_ (List.Perm.append_right _ List.perm_append_comm)
      rw [List.append_assoc, List.append_assoc]
      exact List.Perm.append_left _ h1

theorem wake_holds (c : Chan) (a : Actor) : (wake c a).holds = a.holds := by
  cases hp : a.phase with
  | asleep b => by_cases hc : chanOf a.mouse = c <;> simp [wake, Actor.holds, hp, hc]
  | idle => simp [wake, Actor.holds, hp]
  | woken b => simp [wake, Actor.holds, hp]
  | feeding b => simp [wake, Actor.holds, hp]

theorem wake_waits (c : Chan) (a : Actor) : (wake c a).waits = a.waits := by
  cases hp : a.phase with
  | asleep b => by_cases hc : chanOf a.mouse = c <;> simp [wake, Actor.waits, hp, hc]
  | idle => simp [wake, Actor.waits, hp]
  | woken b => simp [wake, Actor.waits, hp]
  | feeding b => simp [wake, Actor.waits, hp]

theorem wake_of_not_asleep (c : Chan) (a : Actor) (h : ∀ b, a.phase ≠ Phase.asleep b) :
    wake c a = a := by
  cases hp : a.phase with
  | asleep b => exact absurd hp (h b)
  | idle => simp [wake, hp]
  | woken b => simp [wake, hp]
  | feeding b => simp [wake, hp]

theorem wakeAll_length (bc : List Chan) : ∀ l : List Actor, (wakeAll bc l).length = l.length := by
  induction bc with
  | nil => intro l; rfl
  | cons c cs ih =>
    intro l
    simp only [wakeAll]
    rw [ih, List.length_map]

theorem wakeAll_holds (bc : List Chan) :
    ∀ l : List Actor, (wakeAll bc l).filterMap Actor.holds = l.filterMap Actor.holds := by
  induction bc with
  | nil => intro l; rfl
  | cons c cs ih =>
    intro l
    simp only [wakeAll]
    rw [ih, List.filterMap_map]
    congr 1
    funext a
    exact wake_holds c a

theorem wakeAll_waits (bc : List Chan) :
    ∀ l : List Actor, (wakeAll bc l).filterMap Actor.waits = l.filterMap Actor.waits := by
  induction bc with
  | nil => intro l; rfl
  | cons c cs ih =>
    intro l
    simp only [wakeAll]
    rw [ih, List.filterMap_map]
    congr 1
    funext a
    exact wake_waits c a

theorem wakeAll_get_awake (bc : List Chan) :
    ∀ (l : List Actor) (i : Nat) (a : Actor), l[i]? = some a →
      (∀ b, a.phase ≠ Phase.asleep b) → (wakeAll bc l)[i]? = some a := by
  induction bc with
  | nil => intro l i a h _; exact h
  | cons c cs ih =>
    intro l i a h hp
    simp only [wakeAll]
    apply ih _ i a _ hp
    rw [List.getElem?_map, h]
    simp [wake_of_not_asleep c a hp]

/-- How the holders and the blocked callers change when actor `i` moves from
`a` to `a1` and the broadcasts `bc` are made. -/
theorem move_perm (l : List Actor) (i : Nat) (a a1 : Actor) (bc : List Chan)
    (h : l[i]? = some a) (hp : ∀ b, a.phase ≠ Phase.asleep b) :
    List.Perm (a.holds.toList ++ ((wakeAll bc l).set i a1).filterMap Actor.holds)
      (a1.holds.toList ++ l.filterMap Actor.holds) ∧
    List.Perm (a.waits.toList ++ ((wakeAll bc l).set i a1).filterMap Actor.waits)
      (a1.waits.toList ++ l.filterMap Actor.waits) := by
  have hg := wakeAll_get_awake bc l i a h hp
  constructor
  · have := filterMap_set_perm Actor.holds a1 (wakeAll bc l) i a hg
    rwa [wakeAll_holds] at this
  · have := filterMap_set_perm Actor.waits a1 (wakeAll bc l) i a hg
    rwa [wakeAll_waits] at this

theorem classCount_perm (m : Bool) (l l1 : List (Nat × Bool)) (h : List.Perm l l1) :
    classCount m l = classCount m l1 := by
  unfold classCount
  exact (h.filter _).length_eq

/-- The invariant does not depend on the order of the holders and of the
blocked callers. -/
theorem inv_perm (N : Int) (s s1 : Sys) (hI : Inv N s) (ha : s1.arb = s.arb)
    (hf : List.Perm s.feeding s1.feeding) (hb : List.Perm s.blocked s1.blocked) :
    Inv N s1 := by
  have hmap : List.Perm (s.feeding.map Prod.fst) (s1.feeding.map Prod.fst) := hf.map _
  refine ⟨hI.n_pos, hI.n_max, ?_, ?_, ?_, ?_, ?_, ?_, ?_, ?_, ?_, ?_, ?_, ?_, ?_, ?_⟩
  · rw [ha]; exact hI.total
  · rw [ha]; exact hI.len
  · rw [ha, ← hf.length_eq]; exact hI.used
  · rw [ha, ← hf.length_eq]; exact hI.cnt
  · exact hmap.nodup_iff.1 hI.nodup
  · intro h hh
    exact hI.range h (hf.mem_iff.2 hh)
  · intro i
    rw [ha, ← hmap.mem_iff]
    exact hI.occ i
  · intro h hh
    rw [ha]
    exact hI.cls h (hf.mem_iff.2 hh)
  · rw [ha]; exact hI.left_nonneg
  · rw [ha]; exact hI.quota
  · rw [ha]; exact hI.idle
  · rw [ha, ← classCount_perm false _ _ hb]; exact hI.cats
  · rw [ha, ← classCount_perm true _ _ hb]; exact hI.mice
  · intro h hh
    exact hI.brange h (hb.mem_iff.2 hh)

theorem perm_erase_of_cons {α : Type} [BEq α] [LawfulBEq α] {a : α} {l1 l2 : List α}
    (h : List.Perm (a :: l1) l2) : List.Perm l1 (l2.erase a) := by
  have hm : a ∈ l2 := h.subset (List.mem_cons_self a l1)
  obtain ⟨x, y, -, e1, e2⟩ := List.exists_erase_eq hm
  rw [e2]
  rw [e1] at h
  exact (h.trans List.perm_middle).cons_inv

theorem mem_filterMap_of_get {α β : Type} (f : α → Option β) (l : List α) (i : Nat) (a : α)
    (y : β) (h : l[i]? = some a) (hy : f a = some y) : y ∈ l.filterMap f := by
  rw [List.mem_filterMap]
  exact ⟨a, List.getElem?_mem h, hy⟩

theorem winv_step (N : Int) (w w1 : World) (hs : WStep w w1) (hI : Inv N w.toSys) :
    Inv N w1.toSys := by
  cases hs with
  | enterGranted i b a st bc ha hp hc hb he =>
    have hna : ∀ x, a.phase ≠ Phase.asleep x := by intro x; rw [hp]; simp
    obtain ⟨p1, p2⟩ := move_perm w.actors i a
      { a with cycles := a.cycles - 1, fed := a.fed + 1, phase := Phase.feeding b } bc ha hna
    simp only [Actor.holds, Actor.waits, hp, Option.toList, List.nil_append,
      List.singleton_append] at p1 p2
    have hstep : sysStep w.toSys (Label.arrive b a.mouse) =
        some { arb := st, feeding := (b, a.mouse) :: w.toSys.feeding,
               blocked := w.toSys.blocked } := by
      simp only [sysStep, hb, if_true, World.toSys, he]
    exact inv_perm N _ _ (inv_step N _ _ _ hI hstep) rfl p1.symm p2.symm
  | enterSuspended i b a st bc ha hp hc hb he =>
    have hna : ∀ x, a.phase ≠ Phase.asleep x := by intro x; rw [hp]; simp
    obtain ⟨p1, p2⟩ := move_perm w.actors i a
      { a with cycles := a.cycles - 1, phase := Phase.asleep b } bc ha hna
    simp only [Actor.holds, Actor.waits, hp, Option.toList, List.nil_append,
      List.singleton_append] at p1 p2
    have hstep : sysStep w.toSys (Label.arrive b a.mouse) =
        some { arb := st, feeding := w.toSys.feeding,
               blocked := (b, a.mouse) :: w.toSys.blocked } := by
      simp only [sysStep, hb, if_true, World.toSys, he]
    exact inv_perm N _ _ (inv_step N _ _ _ hI hstep) rfl p1.symm p2.symm
  | recheckGranted i b a st bc ha hp he =>
    have hna : ∀ x, a.phase ≠ Phase.asleep x := by intro x; rw [hp]; simp
    obtain ⟨p1, p2⟩ := move_perm w.actors i a
      { a with fed := a.fed + 1, phase := Phase.feeding b } bc ha hna
    simp only [Actor.holds, Actor.waits, hp, Option.toList, List.nil_append,
      List.singleton_append] at p1 p2
    have hmem : (b, a.mouse) ∈ w.toSys.blocked :=
      mem_filterMap_of_get Actor.waits w.actors i a _ ha (by simp [Actor.waits, hp])
    have hstep : sysStep w.toSys (Label.recheck b a.mouse) =
        some { arb := st, feeding := (b, a.mouse) :: w.toSys.feeding,
               blocked := w.toSys.blocked.erase (b, a.mouse) } := by
      simp only [sysStep, hmem, if_true]
      simp only [World.toSys, he]
    exact inv_perm N _ _ (inv_step N _ _ _ hI hstep) rfl p1.symm
      (perm_erase_of_cons p2).symm
  | recheckSuspended i b a st bc ha hp he =>
    have hna : ∀ x, a.phase ≠ Phase.asleep x := by intro x; rw [hp]; simp
    obtain ⟨p1, p2⟩ := move_perm w.actors i a { a with phase := Phase.asleep b } bc ha hna
    simp only [Actor.holds, Actor.waits, hp, Option.toList, List.nil_append,
      List.singleton_append] at p1 p2
    have hmem : (b, a.mouse) ∈ w.toSys.blocked :=
      mem_filterMap_of_get Actor.waits w.actors i a _ ha (by simp [Actor.waits, hp])
    have hstep : sysStep w.toSys (Label.recheck b a.mouse) =
        some { arb := st, feeding := w.toSys.feeding, blocked := w.toSys.blocked } := by
      simp only [sysStep, hmem, if_true]
      simp only [World.toSys, he]
    exact inv_perm N _ _ (inv_step N _ _ _ hI hstep) rfl p1.symm p2.cons_inv.symm
  | leave i b a st bc ha hp he =>
    have hna : ∀ x, a.phase ≠ Phase.asleep x := by intro x; rw [hp]; simp
    obtain ⟨p1, p2⟩ := move_perm w.actors i a { a with phase := Phase.idle } bc ha hna
    simp only [Actor.holds, Actor.waits, hp, Option.toList, List.nil_append,
      List.singleton_append] at p1 p2
    have hmem : (b, a.mouse) ∈ w.toSys.feeding :=
      mem_filterMap_of_get Actor.holds w.actors i a _ ha (by simp [Actor.holds, hp])
    have hstep : sysStep w.toSys (Label.leave b a.mouse) =
        some { arb := st, feeding := w.toSys.feeding.erase (b, a.mouse),
               blocked := w.toSys.blocked } := by
      simp only [sysStep, hmem, if_true]
      simp only [World.toSys, he]
    exact inv_perm N _ _ (inv_step N _ _ _ hI hstep) rfl
      (perm_erase_of_cons p1).symm p2.symm

theorem wake_blocked (c : Chan) (a : Actor) (b : Nat) (m : Bool)
    (h : a.waits = some (b, m)) (hc : chanOf m = c) :
    (wake c a).phase = Phase.woken b ∧ (wake c a).mouse = m := by
  cases hp : a.phase with
  | idle => simp [Actor.waits, hp] at h
  | feeding x => simp [Actor.waits, hp] at h
  | asleep x =>
    simp only [Actor.waits, hp, Option.some.injEq, Prod.mk.injEq] at h
    obtain ⟨rfl, rfl⟩ := h
    simp [wake, hp, hc]
  | woken x =>
    simp only [Actor.waits, hp, Option.some.injEq, Prod.mk.injEq] at h
    obtain ⟨rfl, rfl⟩ := h
    simp [wake, hp]

theorem classCount_pos_exists (m : Bool) (l : List (Nat × Bool)) (h : 0 < classCount m l) :
    ∃ b, (b, m) ∈ l := by
  unfold classCount at h
  obtain ⟨x, hx⟩ := List.exists_mem_of_length_pos h
  rw [List.mem_filter] at hx
  refine ⟨x.1, ?_⟩
  have : x.2 = m := by simpa using hx.2
  rw [← this]
  exact hx.1

theorem classCount_zero_ne (m : Bool) (l : List (Nat × Bool)) (h : classCount m l = 0)
    (x : Nat × Bool) (hx : x ∈ l) : x.2 ≠ m := by
  intro he
  have := classCount_pos_of_mem x.1 m l (by rw [← he]; exact hx)
  omega

theorem waits_of_mem_filterMap (l : List Actor) (x : Nat × Bool)
    (h : x ∈ l.filterMap Actor.waits) :
    ∃ (j : Nat) (a : Actor), l[j]? = some a ∧ a.waits = some x := by
  rw [List.mem_filterMap] at h
  obtain ⟨a, ha, hw⟩ := h
  obtain ⟨j, hj⟩ := List.mem_iff_getElem?.1 ha
  exact ⟨j, a, hj, hw⟩

theorem feeding_slots_pos (N : Int) (w : World) (hI : Inv N w.toSys) (a : Actor)
    (ha : a ∈ w.actors) (b : Nat) (hp : a.phase = Phase.feeding b) :
    w.arb.slotsUsed ≠ 0 := by
  have hmem : (b, a.mouse) ∈ w.toSys.feeding := by
    simp only [World.toSys, List.mem_filterMap]
    exact ⟨a, ha, by simp [Actor.holds, hp]⟩
  have h1 := hI.used
  have h2 : 0 < w.toSys.feeding.length := List.length_pos_of_mem hmem
  have h3 : w.toSys.arb = w.arb := rfl
  rw [h3] at h1
  omega

theorem mem_set_self (l : List Actor) (i : Nat) (a a1 : Actor) (h : l[i]? = some a) :
    a1 ∈ l.set i a1 := by
  obtain ⟨hlt, -⟩ := List.getElem?_eq_some.1 h
  exact List.mem_iff_getElem?.2 ⟨i, by rw [List.getElem?_set_self hlt]⟩

theorem inv_waiting (N : Int) (s : Sys) (hI : Inv N s) (m : Bool) :
    waiting s.arb m = classCount m s.blocked := by
  cases m
  · simp only [waiting, Bool.false_eq_true, if_false]; exact hI.cats
  · simp only [waiting, if_true]; exact hI.mice

/-- On an idle floor no evaluation of a counted caller suspends. -/
theorem not_suspended_idle (N : Int) (s : Sys) (hI : Inv N s) (st : Arbiter)
    (b : Nat) (m : Bool)
    (e1 : st.totalBowls = s.arb.totalBowls) (e2 : st.mouseTurn = s.arb.mouseTurn)
    (e3 : st.slotsLeft = s.arb.slotsLeft) (e4 : st.slotsUsed = s.arb.slotsUsed)
    (e5 : st.util = s.arb.util) (hw : 0 < waiting st m)
    (hidle : s.arb.slotsUsed = 0) (st1 : Arbiter) (bc : List Chan) :
    any_before_eating_eval st b m ≠ Eval.suspended st1 bc := by
  intro h
  obtain ⟨⟨u, hu⟩, -⟩ := eval_suspended_spec st b m st1 bc h
  rw [e5] at hu
  obtain ⟨st2, bc2, hg⟩ := idle_eval_granted N s hI st b m e1 e2 e3 e4 e5 hw hidle u hu
  rw [hg] at h
  exact Eval.noConfusion h

theorem awake_step (N : Int) (w w1 : World) (hs : WStep w w1) (hI : Inv N w.toSys)
    (hI1 : Inv N w1.toSys) (h0 : w1.arb.slotsUsed = 0)
    (hb : ∃ a ∈ w1.actors, a.waits.isSome) :
    ∃ a ∈ w1.actors, ∃ b, a.phase = Phase.woken b ∧ a.mouse = w1.arb.mouseTurn := by
  cases hs with
  | enterGranted i b a st bc ha hp hc hb2 he =>
    exfalso
    have hna : ∀ x, a.phase ≠ Phase.asleep x := by intro x; rw [hp]; simp
    exact feeding_slots_pos N _ hI1 _
      (mem_set_self _ i a _ (wakeAll_get_awake bc _ i a ha hna)) b rfl h0
  | recheckGranted i b a st bc ha hp he =>
    exfalso
    have hna : ∀ x, a.phase ≠ Phase.asleep x := by intro x; rw [hp]; simp
    exact feeding_slots_pos N _ hI1 _
      (mem_set_self _ i a _ (wakeAll_get_awake bc _ i a ha hna)) b rfl h0
  | enterSuspended i b a st bc ha hp hc hb2 he =>
    exfalso
    obtain ⟨a1, a2, a3, a4, a5, -, -⟩ := arrive_fields w.arb a.mouse
    have hw := waiting_arrive_pos N w.toSys hI a.mouse
    obtain ⟨h1, -⟩ := suspended_no_handoff N w.toSys hI _ b a.mouse a1 a2 a3 a4 a5 hw st bc he
    have hidle : w.toSys.arb.slotsUsed = 0 := by
      show w.arb.slotsUsed = 0
      rw [← a4, ← h1]
      exact h0
    exact not_suspended_idle N w.toSys hI _ b a.mouse a1 a2 a3 a4 a5 hw hidle st bc he
  | recheckSuspended i b a st bc ha hp he =>
    exfalso
    have hmem : (b, a.mouse) ∈ w.toSys.blocked :=
      mem_filterMap_of_get Actor.waits w.actors i a _ ha (by simp [Actor.waits, hp])
    have hw := waiting_blocked_pos N w.toSys hI b a.mouse hmem
    obtain ⟨h1, -⟩ := suspended_no_handoff N w.toSys hI w.arb b a.mouse rfl rfl rfl rfl rfl
      hw st bc he
    have hidle : w.toSys.arb.slotsUsed = 0 := by
      show w.arb.slotsUsed = 0
      rw [← h1]
      exact h0
    exact not_suspended_idle N w.toSys hI w.arb b a.mouse rfl rfl rfl rfl rfl hw hidle st bc he
  | leave i b a st bc ha hp he =>
    obtain ⟨-, -, -, -, g5, -, -, -, g9⟩ := after_ok_spec w.arb b a.mouse st bc he
    have h0s : st.slotsUsed = 0 := h0
    rcases g9 with ⟨hne, -⟩ | ⟨-, -, hturn, hbc⟩
    · exact absurd (by rw [← g5]; exact h0s) hne
    rw [switch_turn] at hturn
    rw [switch_chan, switch_turn] at hbc
    have hwait : ∀ m, waiting w.arb m = classCount m w.toSys.blocked :=
      fun m => inv_waiting N w.toSys hI m
    -- an actor of the old world that is blocked and has the class of the new turn
    have hex : ∃ (j : Nat) (y : Actor) (b2 : Nat), w.actors[j]? = some y ∧
        y.waits = some (b2, st.mouseTurn) := by
      by_cases hpos : 0 < waiting w.arb (!a.mouse)
      · rw [if_pos hpos] at hturn
        have hcnt : 0 < classCount (!a.mouse) w.toSys.blocked := by
          have := hwait (!a.mouse)
          omega
        obtain ⟨b2, hb2⟩ := classCount_pos_exists _ _ hcnt
        obtain ⟨j, y, hj, hy⟩ := waits_of_mem_filterMap w.actors _ hb2
        exact ⟨j, y, b2, hj, by rw [hturn]; exact hy⟩
      · rw [if_neg hpos] at hturn
        have hcnt : classCount (!a.mouse) w.toSys.blocked = 0 := by
          have := hwait (!a.mouse)
          omega
        obtain ⟨x, hx, hxw⟩ := hb
        rcases List.mem_or_eq_of_mem_set hx with hx | hx
        swap
        · rw [hx] at hxw
          simp [Actor.waits] at hxw
        have hx2 : x ∈ w.actors.map (wake (chanOf st.mouseTurn)) := by
          rw [hbc] at hx
          rw [if_neg hpos, ← hturn] at hx
          simpa [wakeAll] using hx
        obtain ⟨y, hy, hyx⟩ := List.mem_map.1 hx2
        have hyw : y.waits.isSome := by
          rw [← wake_waits (chanOf st.mouseTurn) y, hyx]
          exact hxw
        obtain ⟨v, hv⟩ := Option.isSome_iff_exists.1 hyw
        have hvm : (v.1, v.2) ∈ w.toSys.blocked := by
          simp only [World.toSys, List.mem_filterMap]
          exact ⟨y, hy, hv⟩
        have hne := classCount_zero_ne _ _ hcnt _ hvm
        have hv2 : v.2 = st.mouseTurn := by
          rw [hturn]
          simp only at hne
          cases hv2 : v.2 <;> cases ham : a.mouse <;> simp_all
        obtain ⟨j, hj⟩ := List.mem_iff_getElem?.1 hy
        exact ⟨j, y, v.1, hj, by rw [hv, ← hv2]⟩
    obtain ⟨j, y, b2, hj, hy⟩ := hex
    have hji : j ≠ i := by
      intro e
      rw [e, ha] at hj
      simp only [Option.some.injEq] at hj
      rw [← hj] at hy
      simp [Actor.waits, hp] at hy
    obtain ⟨z1, z2⟩ := wake_blocked (chanOf st.mouseTurn) y b2 st.mouseTurn hy rfl
    refine ⟨wake (chanOf st.mouseTurn) y, ?_, b2, z1, z2⟩
    apply List.mem_iff_getElem?.2
    refine ⟨j, ?_⟩
    rw [List.getElem?_set_ne (Ne.symm hji)]
    have hbc2 : bc = [chanOf st.mouseTurn] := by
      rw [hbc, hturn]
    rw [hbc2]
    simp only [wakeAll]
    rw [List.getElem?_map, hj]
    rfl

theorem map_set_same {α β : Type} (g : α → β) (a1 : α) (l : List α) :
    ∀ (i : Nat) (a : α), l[i]? = some a → g a1 = g a → (l.set i a1).map g = l.map g := by
  induction l with
  | nil => intro i a h; simp at h
  | cons x xs ih =>
    intro i a h hg
    cases i with
    | zero =>
      simp only [List.getElem?_cons_zero, Option.some.injEq] at h
      subst h
      simp [hg]
    | succ j =>
      simp only [List.getElem?_cons_succ] at h
      simp only [List.set_cons_succ, List.map_cons, ih j a h hg]

theorem wake_fields (c : Chan) (a : Actor) :
    (wake c a).mouse = a.mouse ∧ (wake c a).cycles = a.cycles ∧ (wake c a).fed = a.fed := by
  cases hp : a.phase with
  | asleep b => by_cases hc : chanOf a.mouse = c <;> simp [wake, hp, hc]
  | idle => simp [wake, hp]
  | woken b => simp [wake, hp]
  | feeding b => simp [wake, hp]

theorem wake_account (c : Chan) (a : Actor) : (wake c a).account = a.account := by
  obtain ⟨h1, h2, h3⟩ := wake_fields c a
  simp only [Actor.account, h1, h2, h3, wake_waits]

theorem wakeAll_map_of {β : Type} (g : Actor → β) (hg : ∀ c a, g (wake c a) = g a)
    (bc : List Chan) : ∀ l : List Actor, (wakeAll bc l).map g = l.map g := by
  induction bc with
  | nil => intro l; rfl
  | cons c cs ih =>
    intro l
    simp only [wakeAll]
    rw [ih, List.map_map]
    congr 1
    funext a
    exact hg c a

theorem shape_step (w w1 : World) (hs : WStep w w1) :
    w1.actors.map Actor.account = w.actors.map Actor.account := by
  have key : ∀ (i : Nat) (a a1 : Actor) (bc : List Chan), w.actors[i]? = some a →
      (∀ x, a.phase ≠ Phase.asleep x) → a1.account = a.account →
      ((wakeAll bc w.actors).set i a1).map Actor.account = w.actors.map Actor.account := by
    intro i a a1 bc ha hna hacc
    rw [map_set_same Actor.account a1 _ i a (wakeAll_get_awake bc _ i a ha hna) hacc]
    exact wakeAll_map_of Actor.account wake_account bc _
  cases hs with
  | enterGranted i b a st bc ha hp hc hb he =>
    apply key i a _ bc ha (by intro x; rw [hp]; simp)
    simp only [Actor.account, Actor.waits, hp, Option.isSome_none, Bool.false_eq_true,
      if_false, Prod.mk.injEq, true_and]
    omega
  | enterSuspended i b a st bc ha hp hc hb he =>
    apply key i a _ bc ha (by intro x; rw [hp]; simp)
    simp only [Actor.account, Actor.waits, hp, Option.isSome_none, Option.isSome_some,
      Bool.false_eq_true, if_false, if_true, Prod.mk.injEq, true_and]
    omega
  | recheckGranted i b a st bc ha hp he =>
    apply key i a _ bc ha (by intro x; rw [hp]; simp)
    simp only [Actor.account, Actor.waits, hp, Option.isSome_none, Option.isSome_some,
      Bool.false_eq_true, if_false, if_true, Prod.mk.injEq, true_and]
    omega
  | recheckSuspended i b a st bc ha hp he =>
    apply key i a _ bc ha (by intro x; rw [hp]; simp)
    simp only [Actor.account, Actor.waits, hp, Option.isSome_some, if_true]
  | leave i b a st bc ha hp he =>
    apply key i a _ bc ha (by intro x; rw [hp]; simp)
    simp only [Actor.account, Actor.waits, hp, Option.isSome_none, Bool.false_eq_true,
      if_false]

theorem winv_wstep (N : Int) (acts : List Actor) (w w1 : World) (hs : WStep w w1)
    (hW : WInv N acts w) : WInv N acts w1 := by
  have hI1 := winv_step N w w1 hs hW.sys
  exact ⟨hI1, awake_step N w w1 hs hW.sys hI1, by rw [shape_step w w1 hs]; exact hW.shape⟩

theorem winv_init (N : Int) (acts : List Actor) (h1 : 1 ≤ N) (h2 : N ≤ INT_MAX)
    (h3 : ∀ a ∈ acts, a.phase = Phase.idle ∧ a.fed = 0) : WInv N acts (initWorld N acts) := by
  have hnone : ∀ a ∈ acts, a.holds = none ∧ a.waits = none := by
    intro a ha
    simp [Actor.holds, Actor.waits, (h3 a ha).1]
  have e1 : acts.filterMap Actor.holds = [] := by
    rw [List.filterMap_eq_nil_iff]
    exact fun a ha => (hnone a ha).1
  have e2 : acts.filterMap Actor.waits = [] := by
    rw [List.filterMap_eq_nil_iff]
    exact fun a ha => (hnone a ha).2
  refine ⟨?_, ?_, rfl⟩
  · have : (initWorld N acts).toSys = initSys N := by
      simp only [World.toSys, initWorld, initSys, e1, e2]
    rw [this]
    exact inv_init N h1 h2
  · intro _ hb
    obtain ⟨a, ha, hw⟩ := hb
    rw [(hnone a ha).2] at hw
    simp at hw

theorem winv_reachable (N : Int) (acts : List Actor) (w : World)
    (h : WReachable N acts w) : WInv N acts w := by
  induction h with
  | init h1 h2 h3 => exact winv_init N acts h1 h2 h3
  | step w mv w1 _ hs ih => exact winv_wstep N acts w w1 (worldStep_sound w w1 mv hs) ih

theorem wreachable_of_run (N : Int) (acts : List Actor) (ms : List Move) :
    ∀ (w0 w : World), WReachable N acts w0 → worldRun w0 ms = some w → WReachable N acts w := by
  induction ms with
  | nil =>
    intro w0 w h0 h
    simp only [worldRun, Option.some.injEq] at h
    exact h ▸ h0
  | cons mv ms ih =>
    intro w0 w h0 h
    simp only [worldRun] at h
    cases hs : worldStep w0 mv with
    | none => rw [hs] at h; simp at h
    | some w1 =>
      rw [hs] at h
      exact ih w1 w (WReachable.step w0 mv w1 h0 hs) h

theorem catWoken_reachable : WReachable 1 twoActors catWoken :=
  wreachable_of_run 1 twoActors scenarioAMoves (initWorld 1 twoActors) catWoken
    (WReachable.init (by decide) (by decide) (by decide)) (by decide)

theorem idle_of_all_free (N : Int) (s : Sys) (hI : Inv N s)
    (hfree : ∀ u ∈ s.arb.util, u = false) : s.arb.slotsUsed = 0 := by
  have h1 := hI.used
  have h2 := hI.cnt
  have h3 : s.arb.util.count true = 0 := by
    rw [List.count_eq_zero]
    intro hm
    exact Bool.noConfusion (hfree true hm)
  omega

/-- A woken actor of the class that holds the turn is admitted on an idle
floor. -/
theorem woken_granted (N : Int) (w : World) (hI : Inv N w.toSys)
    (hidle : w.arb.slotsUsed = 0) (i : Nat) (a : Actor) (b : Nat)
    (ha : w.actors[i]? = some a) (hp : a.phase = Phase.woken b) :
    ∃ st bc, any_before_eating_eval w.arb b a.mouse = Eval.granted st bc ∧
      worldStep w (Move.recheck i) =
        some { arb := st,
               actors := (wakeAll bc w.actors).set i
                 { a with fed := a.fed + 1, phase := Phase.feeding b } } := by
  have hmem : (b, a.mouse) ∈ w.toSys.blocked :=
    mem_filterMap_of_get Actor.waits w.actors i a _ ha (by simp [Actor.waits, hp])
  have hw := waiting_blocked_pos N w.toSys hI b a.mouse hmem
  obtain ⟨hr1, hr2⟩ := hI.brange _ hmem
  obtain ⟨u, hu⟩ := inv_in_range N w.toSys hI b hr1 hr2
  obtain ⟨st, bc, hg⟩ := idle_eval_granted N w.toSys hI w.arb b a.mouse rfl rfl rfl rfl rfl
    hw hidle u hu
  refine ⟨st, bc, hg, ?_⟩
  simp only [worldStep, ha, hp, hg]

/-- C17 (no lost wake-up): in the closed system of actors, every reachable
world in which no bowl is occupied and at least one actor is blocked in Enter
has a woken actor of the class that holds the turn, and the re-check of that
actor is granted: the move is possible and makes the actor feed.  So the
monitor is never left with an idle floor and every blocked actor asleep. -/
theorem no_lost_wakeup (N : Int) (acts : List Actor) (w : World)
    (h : WReachable N acts w) (hfree : ∀ u ∈ w.arb.util, u = false)
    (hblocked : ∃ a ∈ w.actors, ∃ b, a.phase = Phase.asleep b ∨ a.phase = Phase.woken b) :
    (∃ (i : Nat) (a : Actor) (b : Nat), w.actors[i]? = some a ∧ a.phase = Phase.woken b ∧
      a.mouse = w.arb.mouseTurn ∧
      ∃ st bc, any_before_eating_eval w.arb b a.mouse = Eval.granted st bc ∧
        worldStep w (Move.recheck i) =
          some { arb := st,
                 actors := (wakeAll bc w.actors).set i
                   { a with fed := a.fed + 1, phase := Phase.feeding b } }) ∧
    ¬ (∀ a ∈ w.actors, ∀ b, a.phase ≠ Phase.woken b) := by
  have hW := winv_reachable N acts w h
  have hidle : w.arb.slotsUsed = 0 := idle_of_all_free N w.toSys hW.sys hfree
  have hb : ∃ a ∈ w.actors, a.waits.isSome := by
    obtain ⟨a, ha, b, hp | hp⟩ := hblocked
    · exact ⟨a, ha, by simp [Actor.waits, hp]⟩
    · exact ⟨a, ha, by simp [Actor.waits, hp]⟩
  obtain ⟨a, ha, b, hp, hm⟩ := hW.awake hidle hb
  obtain ⟨i, hi⟩ := List.mem_iff_getElem?.1 ha
  constructor
  · exact ⟨i, a, b, hi, hp, hm, woken_granted N w hW.sys hidle i a b hi hp⟩
  · intro hall
    exact hall a ha b hp

/-- Witness of C17: the end of scenario A, where the hand-off of the mouse has
woken the cat. -/
theorem no_lost_wakeup_witness :
    WReachable 1 twoActors catWoken ∧
    (∃ (i : Nat) (a : Actor) (b : Nat), catWoken.actors[i]? = some a ∧
      a.phase = Phase.woken b ∧ a.mouse = catWoken.arb.mouseTurn ∧
      ∃ st bc, any_before_eating_eval catWoken.arb b a.mouse = Eval.granted st bc ∧
        worldStep catWoken (Move.recheck i) =
          some { arb := st,
                 actors := (wakeAll bc catWoken.actors).set i
                   { a with fed := a.fed + 1, phase := Phase.feeding b } }) ∧
    ¬ (∀ a ∈ catWoken.actors, ∀ b, a.phase ≠ Phase.woken b) :=
  ⟨catWoken_reachable,
   no_lost_wakeup 1 twoActors catWoken catWoken_reachable (by decide)
     ⟨{ mouse := false, cycles := 0, fed := 0, phase := Phase.woken 1 }, by decide, 1,
      Or.inr rfl⟩⟩

/-! ## Termination of the closed system -/

theorem sum_map_set (f : Actor → Nat) (a1 : Actor) (l : List Actor) :
    ∀ (i : Nat) (a : Actor), l[i]? = some a →
      ((l.set i a1).map f).sum + f a = (l.map f).sum + f a1 := by
  induction l with
  | nil => intro i a h; simp at h
  | cons x xs ih =>
    intro i a h
    cases i with
    | zero =>
      simp only [List.getElem?_cons_zero, Option.some.injEq] at h
      subst h
      simp only [List.set_cons_zero, List.map_cons, List.sum_cons]
      omega
    | succ j =>
      simp only [List.getElem?_cons_succ] at h
      have := ih j a h
      simp only [List.set_cons_succ, List.map_cons, List.sum_cons]
      omega

theorem sum_awake_le (l : List Actor) : (l.map Actor.awake).sum ≤ l.length := by
  induction l with
  | nil => simp
  | cons x xs ih =>
    have hx : x.awake ≤ 1 := by
      unfold Actor.awake
      cases x.phase <;> simp
    simp only [List.map_cons, List.sum_cons, List.length_cons]
    omega

theorem wake_due (c : Chan) (a : Actor) : (wake c a).due = a.due := by
  cases hp : a.phase with
  | asleep b => by_cases hc : chanOf a.mouse = c <;> simp [wake, Actor.due, hp, hc]
  | idle => simp [wake, Actor.due, hp]
  | woken b => simp [wake, Actor.due, hp]
  | feeding b => simp [wake, Actor.due, hp]

theorem wake_cycles (c : Chan) (a : Actor) : (wake c a).cycles = a.cycles :=
  (wake_fields c a).2.1

/-- A move that changes the dues of its actor from `due a` to one less, and
does not raise its cycles, lowers the potential. -/
theorem potential_drop (l : List Actor) (st0 st : Arbiter) (i : Nat) (a a1 : Actor)
    (bc : List Chan) (ha : l[i]? = some a) (hna : ∀ x, a.phase ≠ Phase.asleep x)
    (hdue : a1.due + 1 = a.due) (hcyc : a1.cycles ≤ a.cycles) :
    potential { arb := st, actors := (wakeAll bc l).set i a1 } + 1 ≤
      potential { arb := st0, actors := l } := by
  have hg := wakeAll_get_awake bc l i a ha hna
  have s1 := sum_map_set Actor.due a1 (wakeAll bc l) i a hg
  have s2 := sum_map_set Actor.cycles a1 (wakeAll bc l) i a hg
  rw [wakeAll_map_of Actor.due wake_due bc l] at s1
  rw [wakeAll_map_of Actor.cycles wake_cycles bc l] at s2
  have s3 := sum_awake_le ((wakeAll bc l).set i a1)
  have hlen : ((wakeAll bc l).set i a1).length = l.length := by
    rw [List.length_set, wakeAll_length]
  rw [hlen] at s3
  simp only [potential, hlen]
  have hS : (l.map Actor.due).sum = (((wakeAll bc l).set i a1).map Actor.due).sum + 1 := by
    omega
  rw [hS, Nat.mul_succ]
  omega

/-- A move without broadcast that keeps the dues of its actor and lowers its
cycles or its being woken lowers the potential. -/
theorem potential_drop_quiet (l : List Actor) (st0 st : Arbiter) (i : Nat) (a a1 : Actor)
    (ha : l[i]? = some a) (hdue : a1.due = a.due)
    (hsmall : a1.awake + a1.cycles + 1 = a.awake + a.cycles) :
    potential { arb := st, actors := (wakeAll [] l).set i a1 } + 1 ≤
      potential { arb := st0, actors := l } := by
  simp only [wakeAll]
  have s1 := sum_map_set Actor.due a1 l i a ha
  have s2 := sum_map_set Actor.cycles a1 l i a ha
  have s3 := sum_map_set Actor.awake a1 l i a ha
  simp only [potential, List.length_set]
  have hS : ((l.set i a1).map Actor.due).sum = (l.map Actor.due).sum := by omega
  rw [hS]
  omega

theorem potential_step (N : Int) (w w1 : World) (hs : WStep w w1) (hI : Inv N w.toSys) :
    potential w1 + 1 ≤ potential w := by
  cases hs with
  | enterGranted i b a st bc ha hp hc hb he =>
    apply potential_drop w.actors w.arb st i a _ bc ha (by intro x; rw [hp]; simp)
    · simp only [Actor.due, hp]; omega
    · simp only; omega
  | recheckGranted i b a st bc ha hp he =>
    apply potential_drop w.actors w.arb st i a _ bc ha (by intro x; rw [hp]; simp)
    · simp only [Actor.due, hp]
    · simp only; omega
  | leave i b a st bc ha hp he =>
    apply potential_drop w.actors w.arb st i a _ bc ha (by intro x; rw [hp]; simp)
    · simp only [Actor.due, hp]
    · simp only; omega
  | enterSuspended i b a st bc ha hp hc hb he =>
    obtain ⟨a1, a2, a3, a4, a5, -, -⟩ := arrive_fields w.arb a.mouse
    have hw := waiting_arrive_pos N w.toSys hI a.mouse
    obtain ⟨-, h2⟩ := suspended_no_handoff N w.toSys hI _ b a.mouse a1 a2 a3 a4 a5 hw st bc he
    subst h2
    apply potential_drop_quiet w.actors w.arb st i a _ ha
    · simp only [Actor.due, hp]; omega
    · simp only [Actor.awake, hp]; omega
  | recheckSuspended i b a st bc ha hp he =>
    have hmem : (b, a.mouse) ∈ w.toSys.blocked :=
      mem_filterMap_of_get Actor.waits w.actors i a _ ha (by simp [Actor.waits, hp])
    have hw := waiting_blocked_pos N w.toSys hI b a.mouse hmem
    obtain ⟨-, h2⟩ := suspended_no_handoff N w.toSys hI w.arb b a.mouse rfl rfl rfl rfl rfl
      hw st bc he
    subst h2
    apply potential_drop_quiet w.actors w.arb st i a _ ha
    · simp only [Actor.due, hp]
    · simp only [Actor.awake, hp]; omega

theorem potential_run (N : Int) (acts : List Actor) (ms : List Move) :
    ∀ (w w1 : World), WInv N acts w → worldRun w ms = some w1 →
      ms.length + potential w1 ≤ potential w ∧ WInv N acts w1 := by
  induction ms with
  | nil =>
    intro w w1 hW h
    simp only [worldRun, Option.some.injEq] at h
    subst h
    exact ⟨by simp, hW⟩
  | cons mv ms ih =>
    intro w w1 hW h
    simp only [worldRun] at h
    cases hs : worldStep w mv with
    | none => rw [hs] at h; simp at h
    | some w2 =>
      rw [hs] at h
      have hstep := worldStep_sound w w2 mv hs
      have h1 := potential_step N w w2 hstep hW.sys
      obtain ⟨h2, h3⟩ := ih w2 w1 (winv_wstep N acts w w2 hstep hW) h
      refine ⟨?_, h3⟩
      simp only [List.length_cons]
      omega

/-! ## Progress of the closed system -/

/-- The Exit of a holder passes the three assertions. -/
theorem exit_ok_of_holder (N : Int) (s : Sys) (hI : Inv N s) (b : Nat) (m : Bool)
    (hmem : (b, m) ∈ s.feeding) : ∃ st bc, any_after_eating s.arb b m = Res.ok (st, bc) := by
  obtain ⟨hr1, hr2⟩ := hI.range (b, m) hmem
  have hmax := hI.n_max
  have hb3 : bowlIdx b + 1 = b := by
    apply bowlIdx_of_range b hr1
    unfold INT_MAX at hmax
    simp only at hr2
    omega
  have hocc : s.arb.util[bowlIdx b]? = some true := by
    apply (hI.occ (bowlIdx b)).2
    rw [hb3]
    exact List.mem_map.2 ⟨(b, m), hmem, rfl⟩
  have hcls : m = s.arb.mouseTurn := hI.cls (b, m) hmem
  have hused := hI.used
  have hpos : 0 < s.feeding.length := List.length_pos_of_mem hmem
  cases hr : any_after_eating s.arb b m with
  | ok p => exact ⟨p.1, p.2, rfl⟩
  | fault f st1 =>
    exfalso
    obtain ⟨-, hc⟩ := after_fault_spec s.arb b m f st1 hr
    rcases hc with ⟨-, h1⟩ | ⟨-, -, h1⟩ | ⟨-, -, -, h1⟩ | ⟨-, -, -, h1⟩
    · exact h1 hcls
    · omega
    · rw [hocc] at h1; simp at h1
    · rw [hocc] at h1; simp at h1

theorem world_progress (N : Int) (acts : List Actor) (w : World) (hW : WInv N acts w)
    (hne : ∃ a ∈ w.actors, a.phase ≠ Phase.idle ∨ 0 < a.cycles) :
    ∃ mv w1, worldStep w mv = some w1 := by
  have hI := hW.sys
  by_cases hfeed : ∃ a ∈ w.actors, ∃ b, a.phase = Phase.feeding b
  · obtain ⟨a, ha, b, hp⟩ := hfeed
    obtain ⟨i, hi⟩ := List.mem_iff_getElem?.1 ha
    have hmem : (b, a.mouse) ∈ w.toSys.feeding :=
      mem_filterMap_of_get Actor.holds w.actors i a _ hi (by simp [Actor.holds, hp])
    obtain ⟨st, bc, he⟩ := exit_ok_of_holder N w.toSys hI b a.mouse hmem
    have he2 : any_after_eating w.arb b a.mouse = Res.ok (st, bc) := he
    have hs : (worldStep w (Move.leave i)).isSome := by
      simp only [worldStep, hi, hp, he2, Option.isSome_some]
    obtain ⟨w1, h1⟩ := Option.isSome_iff_exists.1 hs
    exact ⟨Move.leave i, w1, h1⟩
  · have hnil : w.toSys.feeding = [] := by
      simp only [World.toSys]
      rw [List.filterMap_eq_nil_iff]
      intro a ha
      cases hp : a.phase with
      | feeding b => exact absurd ⟨a, ha, b, hp⟩ hfeed
      | idle => simp [Actor.holds, hp]
      | asleep b => simp [Actor.holds, hp]
      | woken b => simp [Actor.holds, hp]
    have hidle : w.arb.slotsUsed = 0 := by
      have h1 := hI.used
      rw [hnil] at h1
      exact h1
    by_cases hbl : ∃ a ∈ w.actors, a.waits.isSome
    · obtain ⟨a, ha, b, hp, -⟩ := hW.awake hidle hbl
      obtain ⟨i, hi⟩ := List.mem_iff_getElem?.1 ha
      obtain ⟨st, bc, -, hstep⟩ := woken_granted N w hI hidle i a b hi hp
      exact ⟨Move.recheck i, _, hstep⟩
    · obtain ⟨a, ha, hor⟩ := hne
      have hp : a.phase = Phase.idle := by
        cases hp : a.phase with
        | idle => rfl
        | feeding b => exact absurd ⟨a, ha, b, hp⟩ hfeed
        | asleep b => exact absurd ⟨a, ha, by simp [Actor.waits, hp]⟩ hbl
        | woken b => exact absurd ⟨a, ha, by simp [Actor.waits, hp]⟩ hbl
      have hc : 0 < a.cycles := by
        rcases hor with h | h
        · exact absurd hp h
        · exact h
      obtain ⟨i, hi⟩ := List.mem_iff_getElem?.1 ha
      obtain ⟨a1, a2, a3, a4, a5, -, -⟩ := arrive_fields w.arb a.mouse
      obtain ⟨u, hu⟩ := inv_in_range N w.toSys hI 1 (le_refl 1) (by
        have := hI.n_pos
        exact_mod_cast this)
      obtain ⟨st, bc, hg⟩ := idle_eval_granted N w.toSys hI _ 1 a.mouse a1 a2 a3 a4 a5
        (waiting_arrive_pos N w.toSys hI a.mouse) hidle u hu
      have hg2 : any_before_eating w.arb 1 a.mouse = Eval.granted st bc := hg
      have hs : (worldStep w (Move.enter i 1)).isSome := by
        simp only [worldStep, hi, hp, hc, true_and, Nat.one_lt_ofNat, and_self, if_true, hg2,
          Option.isSome_some]
      obtain ⟨w1, h1⟩ := Option.isSome_iff_exists.1 hs
      exact ⟨Move.enter i 1, w1, h1⟩

theorem world_done (N : Int) (acts : List Actor)
    (hinit : ∀ a ∈ acts, a.phase = Phase.idle ∧ a.fed = 0) (w : World)
    (hW : WInv N acts w) (hstuck : ∀ mv, worldStep w mv = none) :
    w.actors.length = acts.length ∧
    ∀ (i : Nat) (a0 : Actor), acts[i]? = some a0 →
      ∃ a, w.actors[i]? = some a ∧ a.mouse = a0.mouse ∧ a.phase = Phase.idle ∧
        a.cycles = 0 ∧ a.fed = a0.cycles := by
  have hall : ∀ a ∈ w.actors, a.phase = Phase.idle ∧ a.cycles = 0 := by
    intro a ha
    by_contra hcon
    have hne : ∃ a ∈ w.actors, a.phase ≠ Phase.idle ∨ 0 < a.cycles := by
      refine ⟨a, ha, ?_⟩
      by_cases hp : a.phase = Phase.idle
      · right
        by_contra hc
        exact hcon ⟨hp, by omega⟩
      · exact Or.inl hp
    obtain ⟨mv, w1, hs⟩ := world_progress N acts w hW hne
    rw [hstuck mv] at hs
    exact Option.noConfusion hs
  have hlen : w.actors.length = acts.length := by
    have := congrArg List.length hW.shape
    simpa using this
  refine ⟨hlen, ?_⟩
  intro i a0 h0
  obtain ⟨hlt0, hg0⟩ := List.getElem?_eq_some.1 h0
  have hlt : i < w.actors.length := by omega
  refine ⟨w.actors[i], List.getElem?_eq_getElem hlt, ?_⟩
  have hmem : w.actors[i] ∈ w.actors := List.getElem_mem hlt
  obtain ⟨hp, hc⟩ := hall _ hmem
  have hacc : (w.actors.map Actor.account)[i]? = (acts.map Actor.account)[i]? := by
    rw [hW.shape]
  rw [List.getElem?_map, List.getElem?_map, h0, List.getElem?_eq_getElem hlt] at hacc
  simp only [Option.map_some', Option.some.injEq, Actor.account, Actor.waits, hp, hc,
    (hinit a0 (List.getElem?_mem h0)).1, (hinit a0 (List.getElem?_mem h0)).2,
    Option.isSome_none, Bool.false_eq_true, if_false, Prod.mk.injEq] at hacc
  exact ⟨hacc.1, hp, hc, by omega⟩

theorem stuck_of_done (w : World)
    (h : ∀ a ∈ w.actors, a.phase = Phase.idle ∧ a.cycles = 0) (mv : Move) :
    worldStep w mv = none := by
  cases mv with
  | enter i b =>
    cases hg : w.actors[i]? with
    | none => simp only [worldStep, hg]
    | some a =>
      obtain ⟨-, h2⟩ := h a (List.getElem?_mem hg)
      have hc : ¬ (a.phase = Phase.idle ∧ 0 < a.cycles ∧ b < 4294967296) := by
        intro hcon
        omega
      simp only [worldStep, hg, hc, if_false]
  | recheck i =>
    cases hg : w.actors[i]? with
    | none => simp only [worldStep, hg]
    | some a =>
      obtain ⟨h1, -⟩ := h a (List.getElem?_mem hg)
      simp only [worldStep, hg, h1]
  | leave i =>
    cases hg : w.actors[i]? with
    | none => simp only [worldStep, hg]
    | some a =>
      obtain ⟨h1, -⟩ := h a (List.getElem?_mem hg)
      simp only [worldStep, hg, h1]

theorem allDone_stuck (mv : Move) : worldStep allDone mv = none :=
  stuck_of_done allDone (by decide) mv

/-- C14, as the claim states it, fails: with a bounded number of cycles no
class obtains the turn infinitely often.  One bowl, a mouse and a cat with one
cycle each: the schedule `scenarioAFull` ends in a world in which no move is
possible, and no schedule has more than 14 moves. -/
theorem anti_starvation_counterexample :
    worldRun (initWorld 1 twoActors) scenarioAFull = some allDone ∧
    (∀ mv, worldStep allDone mv = none) ∧
    (∀ ms w, worldRun (initWorld 1 twoActors) ms = some w → ms.length ≤ 14) := by
  refine ⟨by decide, allDone_stuck, ?_⟩
  intro ms w hrun
  have hW := winv_init 1 twoActors (by decide) (by decide) (by decide)
  have h := (potential_run 1 twoActors ms _ w hW hrun).1
  have hp : potential (initWorld 1 twoActors) = 14 := by decide
  omega

/-- C14 amended: in a closed system with finitely many actors that start idle
and each make a bounded number of cycles Enter, feed, Exit, on
`catmouse_sync_init(N)` with `N ≥ 1`: every schedule is finite, its length
bounded by the potential of the start; in every world a schedule reaches,
some move is possible as long as an actor feeds, is blocked or has a cycle
left; hence a world in which no move is possible has every actor idle, with no
cycle left and with as many grants as the cycles it started with.  No actor
and no class is starved; the turn is obtained finitely often. -/
theorem bounded_fairness (N : Int) (acts : List Actor) (hN1 : 1 ≤ N) (hN2 : N ≤ INT_MAX)
    (hinit : ∀ a ∈ acts, a.phase = Phase.idle ∧ a.fed = 0) (ms : List Move) (w : World)
    (hrun : worldRun (initWorld N acts) ms = some w) :
    ms.length ≤ potential (initWorld N acts) ∧
    ((∃ a ∈ w.actors, a.phase ≠ Phase.idle ∨ 0 < a.cycles) →
      ∃ mv w1, worldStep w mv = some w1) ∧
    ((∀ mv, worldStep w mv = none) →
      w.actors.length = acts.length ∧
      ∀ (i : Nat) (a0 : Actor), acts[i]? = some a0 →
        ∃ a, w.actors[i]? = some a ∧ a.mouse = a0.mouse ∧ a.phase = Phase.idle ∧
          a.cycles = 0 ∧ a.fed = a0.cycles) := by
  have hW0 := winv_init N acts hN1 hN2 hinit
  obtain ⟨h1, hW⟩ := potential_run N acts ms _ w hW0 hrun
  refine ⟨by omega, ?_, ?_⟩
  · exact world_progress N acts w hW
  · exact world_done N acts hinit w hW

/-- Witness of amended C14: scenario A run to its end. -/
theorem bounded_fairness_witness :
    worldRun (initWorld 1 twoActors) scenarioAFull = some allDone ∧
    scenarioAFull.length ≤ potential (initWorld 1 twoActors) ∧
    ((∃ a ∈ allDone.actors, a.phase ≠ Phase.idle ∨ 0 < a.cycles) →
      ∃ mv w1, worldStep allDone mv = some w1) ∧
    ((∀ mv, worldStep allDone mv = none) →
      allDone.actors.length = twoActors.length ∧
      ∀ (i : Nat) (a0 : Actor), twoActors[i]? = some a0 →
        ∃ a, allDone.actors[i]? = some a ∧ a.mouse = a0.mouse ∧ a.phase = Phase.idle ∧
          a.cycles = 0 ∧ a.fed = a0.cycles) :=
  ⟨by decide,
   bounded_fairness 1 twoActors (by decide) (by decide) (by decide) scenarioAFull allDone
     (by decide)⟩

end CatMouse

namespace ProcSys

theorem findChild_absent (k : Kernel) (pid : Int) (l : List Nat)
    (h : ∀ q ∈ l, ∃ d, k.heap q = some d ∧ d.p_pid ≠ pid) :
    findChild k pid l = Found.absent := by
  induction l with
  | nil => rfl
  | cons q qs ih =>
    obtain ⟨d, hd, hne⟩ := h q (List.mem_cons_self _ _)
    simp only [findChild, hd, beq_iff_eq, hne, if_false]
    exact ih (fun x hx => h x (List.mem_cons_of_mem _ hx))

/-- C18 (error classification of `sys_waitpid`, `OPT_A2`): the call returns
`EINVAL` if `options != 0`; otherwise `ESRCH` if `pid < 0` or `pid > PID_MAX`;
otherwise, if no entry of the caller's child list has the PID `pid`, `ECHILD`
when `pid_use[pid]` is true and `ESRCH` when it is false.  In each of these
cases nothing is stored through `status` or `retval` and the process table is
the one before the call. -/
theorem waitpid_errors (PID_MAX copyres : Int) (k : Kernel) (cur : Nat) (pid options : Int) :
    (options ≠ 0 →
      sys_waitpid PID_MAX copyres k cur pid options =
        WaitRes.returned (some Errno.EINVAL) none none k) ∧
    (options = 0 → pid < 0 ∨ pid > PID_MAX →
      sys_waitpid PID_MAX copyres k cur pid options =
        WaitRes.returned (some Errno.ESRCH) none none k) ∧
    (options = 0 → 0 ≤ pid → pid ≤ PID_MAX →
      ∀ me, k.heap cur = some me →
        (∀ q ∈ me.p_children, ∃ d, k.heap q = some d ∧ d.p_pid ≠ pid) →
        sys_waitpid PID_MAX copyres k cur pid options =
          WaitRes.returned (some (if k.pid_use pid then Errno.ECHILD else Errno.ESRCH))
            none none k) := by
  refine ⟨?_, ?_, ?_⟩
  · intro h
    simp [sys_waitpid, h]
  · intro h0 h
    simp [sys_waitpid, h0, h]
  · intro h0 h1 h2 me hme hkids
    have hr : ¬ (pid < 0 ∨ pid > PID_MAX) := by omega
    simp only [sys_waitpid, h0, ne_eq, not_true_eq_false, if_false, hr, hme,
      findChild_absent k pid me.p_children hkids]
    by_cases hu : k.pid_use pid = true <;> simp [hu]

/-- Witness of C18: the parent of `demoTable` waits for PID 3, which is not in
use, and for its own PID 1, which is in use and is not a child. -/
theorem waitpid_errors_witness :
    sys_waitpid 10 0 demoTable 1 3 0 = WaitRes.returned (some Errno.ESRCH) none none demoTable ∧
    sys_waitpid 10 0 demoTable 1 1 0 =
      WaitRes.returned (some Errno.ECHILD) none none demoTable := by
  constructor
  · have h := (waitpid_errors 10 0 demoTable 1 3 0).2.2 rfl (by decide) (by decide)
      demoParent rfl (by
        intro q hq
        simp only [demoParent, List.mem_singleton] at hq
        subst hq
        exact ⟨demoChild, rfl, by decide⟩)
    rw [h]
    simp [demoTable]
  · have h := (waitpid_errors 10 0 demoTable 1 1 0).2.2 rfl (by decide) (by decide)
      demoParent rfl (by
        intro q hq
        simp only [demoParent, List.mem_singleton] at hq
        subst hq
        exact ⟨demoChild, rfl, by decide⟩)
    rw [h]
    simp [demoTable]

theorem modify_heap_ne (k : Kernel) (q x : Nat) (f : ProcData → ProcData) (h : x ≠ q) :
    (k.modify q f).heap x = k.heap x := by
  simp [Kernel.modify, h]

theorem modify_heap_self (k : Kernel) (q : Nat) (f : ProcData → ProcData) :
    (k.modify q f).heap q = (k.heap q).map f := by
  simp [Kernel.modify]

theorem exitChildren_ok (destroy : Kernel → Nat → Kernel)
    (hframe : ∀ k q x, x ≠ q → (destroy k q).heap x = k.heap x) (l : List Nat) :
    ∀ k : Kernel, l.Nodup → (∀ q ∈ l, (k.heap q).isSome) →
      ∃ k1, exitChildren destroy k l = some k1 ∧ ∀ x, x ∉ l → k1.heap x = k.heap x := by
  induction l with
  | nil =>
    intro k _ _
    exact ⟨k, rfl, fun _ _ => rfl⟩
  | cons q qs ih =>
    intro k hnd hall
    rw [List.nodup_cons] at hnd
    have hq := hall q (List.mem_cons_self _ _)
    obtain ⟨d, hd⟩ := Option.isSome_iff_exists.1 hq
    have hnext : ∀ k2 : Kernel, (∀ x, x ≠ q → k2.heap x = k.heap x) →
        ∃ k1, exitChildren destroy k2 qs = some k1 ∧
          ∀ x, x ∉ q :: qs → k1.heap x = k.heap x := by
      intro k2 h2
      obtain ⟨k1, hk1, hfr⟩ := ih k2 hnd.2 (by
        intro x hx
        have hne : x ≠ q := fun e => hnd.1 (e ▸ hx)
        rw [h2 x hne]
        exact hall x (List.mem_cons_of_mem _ hx))
      refine ⟨k1, hk1, ?_⟩
      intro x hx
      rw [List.mem_cons, not_or] at hx
      rw [hfr x hx.2, h2 x hx.1]
    by_cases he : d.p_exited = true
    · obtain ⟨k1, hk1, hfr⟩ := hnext (destroy k q) (fun x hx => hframe k q x hx)
      exact ⟨k1, by simp only [exitChildren, hd, he, if_true]; exact hk1, hfr⟩
    · obtain ⟨k1, hk1, hfr⟩ := hnext (k.modify q (fun r => { r with p_parent := none }))
        (fun x hx => modify_heap_ne k q x _ hx)
      exact ⟨k1, by simp only [exitChildren, hd, he, Bool.false_eq_true, if_false]; exact hk1,
        hfr⟩

theorem findChild_child_spec (k : Kernel) (pid : Int) (c : Nat) (d : ProcData)
    (l : List Nat) (h : findChild k pid l = Found.child c d) :
    k.heap c = some d ∧ d.p_pid = pid ∧ c ∈ l := by
  induction l with
  | nil => simp [findChild] at h
  | cons q qs ih =>
    cases hk : k.heap q with
    | none => simp [findChild, hk] at h
    | some d0 =>
      simp only [findChild, hk] at h
      by_cases hp : d0.p_pid = pid
      · simp only [hp, beq_self_eq_true, if_true, Found.child.injEq] at h
        obtain ⟨rfl, rfl⟩ := h
        exact ⟨hk, hp, List.mem_cons_self _ _⟩
      · have hp0 : (d0.p_pid == pid) = false := by simpa using hp
        simp only [hp0, Bool.false_eq_true, if_false] at h
        obtain ⟨h1, h2, h3⟩ := ih h
        exact ⟨h1, h2, List.mem_cons_of_mem _ h3⟩

theorem findChild_frame (k k1 : Kernel) (pid : Int) (c : Nat) (d d1 : ProcData)
    (hc1 : k1.heap c = some d1) (hpid : d1.p_pid = d.p_pid) (l : List Nat)
    (hsame : ∀ q ∈ l, q ≠ c → k1.heap q = k.heap q)
    (h : findChild k pid l = Found.child c d) :
    findChild k1 pid l = Found.child c d1 := by
  obtain ⟨hc, hd, -⟩ := findChild_child_spec k pid c d l h
  have hp1 : (d1.p_pid == pid) = true := by simp [hpid, hd]
  induction l with
  | nil => simp [findChild] at h
  | cons q qs ih =>
    by_cases hq : q = c
    · subst hq
      simp [findChild, hc1, hp1]
    · have hk := hsame q (List.mem_cons_self _ _) hq
      cases hkq : k.heap q with
      | none => simp [findChild, hkq] at h
      | some d0 =>
        simp only [findChild, hkq] at h
        by_cases hp : d0.p_pid = pid
        · simp only [hp, beq_self_eq_true, if_true, Found.child.injEq] at h
          exact absurd h.1 hq
        · have hp0 : (d0.p_pid == pid) = false := by simpa using hp
          simp only [hp0, Bool.false_eq_true, if_false] at h
          simp only [findChild, hk, hkq, hp0, Bool.false_eq_true, if_false]
          exact ih (fun x hx hne => hsame x (List.mem_cons_of_mem _ hx) hne) h

/-- C19, as the claim states it, fails when the parent's child list holds two
records with the child's PID.  In `dupTable` the child at address 3 (PID 2,
parent alive, in the parent's child list) calls `sys__exit(3)`, which
completes; the parent's `sys_waitpid(2, status, 0, retval)` then returns 0
with `*retval = 2`, but the status it stores is 396, the one of the record at
address 2 that its search meets first, and not `_MKWAIT_EXIT(3)`, which is 12
here. -/
theorem exit_status_counterexample :
    dupTable.heap 3 = some dupChild ∧ dupChild.p_parent = some 1 ∧
    dupTable.heap 1 = some dupParent ∧ 3 ∈ dupParent.p_children ∧
    dupParent.p_exited = false ∧ mkwaitShift 3 = 12 ∧
    ∃ out, sys__exit mkwaitShift freeRecord dupTable 3 3 = some out ∧
      out.table.heap 3 = some { dupChild with p_exited := true, p_exit_code := 12 } ∧
      sys_waitpid 10 0 out.table 1 2 0 =
        WaitRes.returned none (some 396) (some 2) out.table :=
  ⟨rfl, rfl, rfl, by decide, rfl, by decide, _, rfl, rfl, rfl⟩

/-- C19 amended (exit status round trip, `OPT_A2`): let the child at `c` have
a living parent at `p`, a PID in `[0, PID_MAX]`, and be the first entry of the
parent's child list with that PID (the entry the search of `sys_waitpid`
stops at); let its own children be distinct records that are neither `c`, nor
`p`, nor children of `p`.  Then for every exit code `code`,
`sys__exit(code)` by the child completes, and a following
`sys_waitpid(childpid, status, 0, retval)` by the parent with `copyout`
succeeding returns 0, stores `childpid` in `*retval` and `_MKWAIT_EXIT(code)`
in `status`.  And for a listed child, no evaluation of `sys_waitpid` returns
while the child's `p_exited` is false: the caller suspends. -/
theorem exit_status_round_trip (PID_MAX : Int) (mkwait : Int → Int)
    (destroy : Kernel → Nat → Kernel)
    (hframe : ∀ k q x, x ≠ q → (destroy k q).heap x = k.heap x)
    (k : Kernel) (c p : Nat) (cd pd : ProcData) (code : Int)
    (hc : k.heap c = some cd) (hpar : cd.p_parent = some p) (hp : k.heap p = some pd)
    (hcp : c ≠ p) (hpid : 0 ≤ cd.p_pid ∧ cd.p_pid ≤ PID_MAX)
    (hfirst : findChild k cd.p_pid pd.p_children = Found.child c cd)
    (hkids : cd.p_children.Nodup ∧ ∀ q ∈ cd.p_children,
      (k.heap q).isSome ∧ q ≠ c ∧ q ≠ p ∧ q ∉ pd.p_children) :
    (∃ out, sys__exit mkwait destroy k c code = some out ∧
      sys_waitpid PID_MAX 0 out.table p cd.p_pid 0 =
        WaitRes.returned none (some (mkwait code)) (some cd.p_pid) out.table) ∧
    (∀ (copyres : Int) (k2 : Kernel) (pd2 d2 : ProcData) (a : Nat) (pid : Int),
      0 ≤ pid → pid ≤ PID_MAX → k2.heap p = some pd2 →
      findChild k2 pid pd2.p_children = Found.child a d2 →
      (d2.p_exited = false →
        sys_waitpid PID_MAX copyres k2 p pid 0 = WaitRes.suspended k2 ∧
        sys_waitpid_loop copyres k2 a pid = WaitRes.suspended k2) ∧
      (∀ r st rv k3, sys_waitpid PID_MAX copyres k2 p pid 0 = WaitRes.returned r st rv k3 →
        d2.p_exited = true)) := by
  constructor
  · obtain ⟨hnd, hall⟩ := hkids
    let k1 : Kernel := { k with pid_use := fun i => if i = cd.p_pid then false else k.pid_use i }
    obtain ⟨k2, hk2, hfr⟩ := exitChildren_ok destroy hframe cd.p_children k1 hnd
      (fun q hq => (hall q hq).1)
    have hcnot : c ∉ cd.p_children := fun hm => (hall c hm).2.1 rfl
    have hpnot : p ∉ cd.p_children := fun hm => (hall p hm).2.2.1 rfl
    have h2c : k2.heap c = some cd := by rw [hfr c hcnot]; exact hc
    have h2p : k2.heap p = some pd := by rw [hfr p hpnot]; exact hp
    let k3 : Kernel := k2.modify c (fun r => { r with p_children := [] })
    have h3c : k3.heap c = some { cd with p_children := [] } := by
      show (k2.modify c _).heap c = _
      rw [modify_heap_self, h2c]
      rfl
    let k4 : Kernel := k3.modify c (fun r =>
      { r with p_exit_code := mkwait code, p_exited := true })
    have h4c : k4.heap c =
        some { cd with p_children := [], p_exit_code := mkwait code, p_exited := true } := by
      show (k3.modify c _).heap c = _
      rw [modify_heap_self, h3c]
      rfl
    have h4x : ∀ x, x ≠ c → x ∉ cd.p_children → k4.heap x = k.heap x := by
      intro x hx hnot
      show (k3.modify c _).heap x = _
      rw [modify_heap_ne _ _ _ _ hx]
      show (k2.modify c _).heap x = _
      rw [modify_heap_ne _ _ _ _ hx, hfr x hnot]
    have hexit : sys__exit mkwait destroy k c code =
        some { table := k4, p_data := some c, broadcast := true } := by
      simp only [sys__exit, hc]
      rw [show exitChildren destroy
          { k with pid_use := fun i => if i = cd.p_pid then false else k.pid_use i }
          cd.p_children = some k2 from hk2]
      simp only []
      rw [show (k2.modify c (fun r => { r with p_children := [] })).heap c =
          some { cd with p_children := [] } from h3c]
      simp [hpar, k4, k3]
    refine ⟨_, hexit, ?_⟩
    have h4p : k4.heap p = some pd := by
      rw [h4x p (Ne.symm hcp) hpnot]; exact hp
    have hfind : findChild k4 cd.p_pid pd.p_children = Found.child c
        { cd with p_children := [], p_exit_code := mkwait code, p_exited := true } := by
      apply findChild_frame k k4 cd.p_pid c cd _ h4c rfl pd.p_children _ hfirst
      intro q hq hne
      exact h4x q hne (fun hm => (hall q hm).2.2.2 hq)
    have hr : ¬ (cd.p_pid < 0 ∨ cd.p_pid > PID_MAX) := by omega
    simp [sys_waitpid, hr, h4p, hfind, sys_waitpid_loop, h4c]
  · intro copyres k2 pd2 d2 a pid h0 h1 hp2 hfind
    obtain ⟨ha, -, -⟩ := findChild_child_spec k2 pid a d2 _ hfind
    have hr : ¬ (pid < 0 ∨ pid > PID_MAX) := by omega
    constructor
    · intro hne
      constructor
      · simp [sys_waitpid, hr, hp2, hfind, sys_waitpid_loop, ha, hne]
      · simp [sys_waitpid_loop, ha, hne]
    · intro r st rv k3 hret
      by_contra hne
      have hne2 : d2.p_exited = false := by simpa using hne
      simp [sys_waitpid, hr, hp2, hfind, sys_waitpid_loop, ha, hne2] at hret

/-- Witness of amended C19: the child of `demoTable` exits with code 3 and its parent
waits for PID 2. -/
theorem exit_status_round_trip_witness :
    (∃ out, sys__exit mkwaitShift freeRecord demoTable 2 3 = some out ∧
      sys_waitpid 10 0 out.table 1 demoChild.p_pid 0 =
        WaitRes.returned none (some (mkwaitShift 3)) (some demoChild.p_pid) out.table) ∧
    sys_waitpid 10 0 demoTable 1 2 0 = WaitRes.suspended demoTable := by
  have h := exit_status_round_trip 10 mkwaitShift freeRecord
    (by intro k q x hx; simp [freeRecord, hx])
    demoTable 2 1 demoChild demoParent 3 rfl rfl rfl (by decide) (by decide) (by decide)
    (by decide)
  refine ⟨h.1, ?_⟩
  exact ((h.2 0 demoTable demoParent demoChild 2 2 (by decide) (by decide) rfl
    (by decide)).1 rfl).1

end ProcSys
